import Mathlib

/-!
# Scheduling simulator (`scheduler.cpp`): embedding and verified properties

The three dispatch strategies of `scheduler.cpp` (`executeFCFS`, `performSJF`,
`handleRoundRobin`) and the aggregator `computePerformanceMetrics` are embedded as
pure functions over lists of job records, in two arithmetics.

* The exact embedding (`Job`, `executeFCFS`, `performSJF`, `handleRoundRobin`, ...) takes
  `double` quantities as exact rationals (`ℚ`) and `int` quantities as unbounded integers: it
  describes the arithmetic the source intends and leaves rounding and overflow aside.  A
  division whose divisor can be zero yields a `FloatVal`, which keeps the IEEE not-a-number
  and infinities apart from numbers.
* The binary64 embedding (`Job64`, `executeFCFS64`, `performSJF64`, `handleRoundRobin64`, ...)
  is the program as it runs: every operation on a `double` is rounded to the nearest binary64
  number, ties to even, and overflows to an infinity (`round64`); the `priority_queue` is the
  binary heap of the standard library (`pushHeap`, `adjustHeap`), so that jobs of equal burst
  time leave it in the order in which they leave it in the program; and the `int` counter
  wraps around to 32 bits (`wrap32`).  Properties whose truth depends on rounding or on the
  width of a counter are stated over this embedding.

Modelling conventions of both embeddings.

* A `Job*` into the `vector<Job>` is the position of the job in the ledger.
* A `vector<bool>` is a `List Bool`, read with `flagAt` and written with `List.set`; both agree
  with the source whenever the index is in range, which is the only case in which the source
  is defined.
* The two `while (true)` loops are step functions on an explicit loop state; the field
  `finished` records that the loop was left through `break`.  The functions `performSJF` and
  `handleRoundRobin` take the number of loop iterations they may perform and return `none`
  when the loop has not been left within that many iterations.
* The sign of a zero is not kept: no operation of the program tells the two zeros apart (its
  divisors are the constant `1000.0` and counters converted to `double`).
-/

namespace Scheduler

/-! ## Data model -/

/-- The record `struct Job`. -/
structure Job where
  id : Nat
  arrivalTime : ℚ
  burstTime : ℚ
  remainingTime : ℚ
  completionTime : ℚ
  turnaroundTime : ℚ
  waitingTime : ℚ
deriving DecidableEq, Repr

/-- The loop of `parseInputFile`: one job per record `(arrival, burst)`, numbered from `id`. -/
def parseRecords (id : Nat) : List (ℚ × ℚ) → List Job
  | [] => []
  | (arrival, burst) :: rest => ⟨id, arrival, burst, burst, 0, 0, 0⟩ :: parseRecords (id + 1) rest

/-- The function `parseInputFile`, applied to the records read from the file. -/
def parseInputFile (records : List (ℚ × ℚ)) : List Job :=
  parseRecords 0 records

/-- The job a pointer designates: the job at position `p` of the ledger. -/
def jobAt (jobs : List Job) (p : Nat) : Job :=
  jobs.getD p ⟨0, 0, 0, 0, 0, 0, 0⟩

/-- Reading `flags[i]` in a `vector<bool>`. -/
def flagAt (flags : List Bool) (i : Nat) : Bool :=
  flags.getD i false

/-- The test `all_of(flags.begin(), flags.end(), [](bool val) { return val; })`. -/
def allSet (flags : List Bool) : Bool :=
  flags.all (fun val => val)

/-- Every job carries its ledger position as `id`, as `parseInputFile` assigns it. -/
def IdIsPosition (jobs : List Job) : Prop :=
  ∀ p, p < jobs.length → (jobAt jobs p).id = p

/-- Arrival and burst times are non-negative. -/
def NonNegTimes (jobs : List Job) : Prop :=
  ∀ p, p < jobs.length → 0 ≤ (jobAt jobs p).arrivalTime ∧ 0 ≤ (jobAt jobs p).burstTime

/-- No work has been done yet: `remainingTime` is the burst time, as `parseInputFile` sets it. -/
def Fresh (jobs : List Job) : Prop :=
  ∀ p, p < jobs.length → (jobAt jobs p).remainingTime = (jobAt jobs p).burstTime

instance (jobs : List Job) : Decidable (IdIsPosition jobs) :=
  inferInstanceAs (Decidable (∀ p, p < jobs.length → (jobAt jobs p).id = p))

instance (jobs : List Job) : Decidable (NonNegTimes jobs) :=
  inferInstanceAs (Decidable (∀ p, p < jobs.length →
    0 ≤ (jobAt jobs p).arrivalTime ∧ 0 ≤ (jobAt jobs p).burstTime))

instance (jobs : List Job) : Decidable (Fresh jobs) :=
  inferInstanceAs (Decidable (∀ p, p < jobs.length →
    (jobAt jobs p).remainingTime = (jobAt jobs p).burstTime))

/-! ## FCFS -/

/-- The `for` loop of `executeFCFS`, started with the clock at `current_time`. -/
def fcfsLoop (current_time : ℚ) : List Job → List Job
  | [] => []
  | job :: rest =>
    let start := if current_time < job.arrivalTime then job.arrivalTime else current_time
    let completionTime := start + job.burstTime
    let turnaroundTime := completionTime - job.arrivalTime
    let waitingTime := turnaroundTime - job.burstTime
    { job with
        completionTime := completionTime
        turnaroundTime := turnaroundTime
        waitingTime := waitingTime } :: fcfsLoop completionTime rest

/-- The function `executeFCFS`. -/
def executeFCFS (jobs : List Job) : List Job :=
  fcfsLoop 0 jobs

/-! ## SJF -/

/-- The element `top()` of the `priority_queue` ordered by `a->burstTime > b->burstTime`: an
entry of least burst time.  The queue is the list of its entries in the order they were
pushed; among entries of equal burst time the one pushed first is taken (the source leaves the
order among them to the heap). -/
def pqTop (jobs : List Job) : List Nat → Option Nat
  | [] => none
  | p :: rest =>
    match pqTop jobs rest with
    | none => some p
    | some q => if (jobAt jobs q).burstTime < (jobAt jobs p).burstTime then some q else some p

/-- The loop state of `performSJF`. -/
structure SJFState where
  jobs : List Job
  jobQueue : List Nat
  isCompleted : List Bool
  current_time : ℚ
  finished : Bool
deriving DecidableEq, Repr

/-- What one iteration of the loop of `performSJF` does. -/
inductive SJFEvent where
  | halted
  | idle
  | dispatch (p : Nat)
deriving DecidableEq, Repr

/-- The position an iteration dispatches, if it dispatches any. -/
def SJFEvent.job : SJFEvent → Option Nat
  | SJFEvent.dispatch p => some p
  | _ => none

/-- The state of `performSJF` on entry to its loop. -/
def sjfInit (jobs : List Job) : SJFState :=
  { jobs := jobs
    jobQueue := []
    isCompleted := List.replicate jobs.length false
    current_time := 0
    finished := false }

/-- The queue after the admission scan of `performSJF`: every position whose job is not flagged
completed and has arrived is pushed, in ledger order, onto what the queue already holds. -/
def sjfAdmit (s : SJFState) : List Nat :=
  s.jobQueue ++ (List.range s.jobs.length).filter (fun p =>
    !flagAt s.isCompleted (jobAt s.jobs p).id && decide ((jobAt s.jobs p).arrivalTime ≤ s.current_time))

/-- One iteration of the `while (true)` loop of `performSJF`, with what it did. -/
def sjfIter (s : SJFState) : SJFEvent × SJFState :=
  if s.finished then (SJFEvent.halted, s) else
  let jobQueue := sjfAdmit s
  match pqTop s.jobs jobQueue with
  | none => (SJFEvent.idle, { s with jobQueue := jobQueue, current_time := s.current_time + 1 })
  | some p =>
    let job := jobAt s.jobs p
    let isCompleted := s.isCompleted.set job.id true
    let completionTime := s.current_time + job.burstTime
    let turnaroundTime := completionTime - job.arrivalTime
    let waitingTime := turnaroundTime - job.burstTime
    (SJFEvent.dispatch p,
      { jobs := s.jobs.set p { job with
            completionTime := completionTime
            turnaroundTime := turnaroundTime
            waitingTime := waitingTime }
        jobQueue := jobQueue.erase p
        isCompleted := isCompleted
        current_time := completionTime
        finished := allSet isCompleted })

/-- The state after one iteration. -/
def sjfStep (s : SJFState) : SJFState :=
  (sjfIter s).2

/-- The state after `n` iterations (fewer if the loop is left before). -/
def sjfRun (n : Nat) (s : SJFState) : SJFState :=
  sjfStep^[n] s

/-- The events of the first `n` iterations from `s`, up to the `break`. -/
def sjfEvents : Nat → SJFState → List SJFEvent
  | 0, _ => []
  | n + 1, s => if s.finished then [] else (sjfIter s).1 :: sjfEvents n (sjfStep s)

/-- The positions dispatched during the first `n` iterations from `s`, in order. -/
def sjfDispatches (n : Nat) (s : SJFState) : List Nat :=
  (sjfEvents n s).filterMap (fun e => match e with
    | SJFEvent.dispatch p => some p
    | _ => none)

/-- The function `performSJF`, allowed `fuel` iterations of its loop: the ledger as the
function leaves it, or `none` when the loop is still running after `fuel` iterations. -/
def performSJF (fuel : Nat) (jobs : List Job) : Option (List Job) :=
  let s := sjfRun fuel (sjfInit jobs)
  if s.finished then some s.jobs else none

/-! ## Round-Robin -/

/-- The loop state of `handleRoundRobin`. -/
structure RRState where
  jobs : List Job
  readyJobs : List Nat
  current_time : ℚ
  completedJobs : List Bool
  inQueue : List Bool
  queueLengthSum : ℚ
  queueLengthCount : Int
  maxQueueLength : Int
  finished : Bool
deriving DecidableEq, Repr

/-- What one iteration of the loop of `handleRoundRobin` does: it is not run because the loop
was left, it finds the ready queue empty, it runs the last slice of a job, or it runs a slice
after which the job is put back at the tail of the queue. -/
inductive RREvent where
  | halted
  | idle
  | finalSlice (p : Nat)
  | preempted (p : Nat)
deriving DecidableEq, Repr

/-- The values `handleRoundRobin` leaves in the ledger and in its three reference arguments. -/
structure RRResult where
  jobs : List Job
  totalSimulationTime : ℚ
  avgQueueLength : ℚ
  maxQueueLength : Int
deriving DecidableEq, Repr

/-- The state of `handleRoundRobin` on entry to its loop; `maxQueueLength` is the value the
caller passes by reference. -/
def rrInit (jobs : List Job) (maxQueueLength : Int) : RRState :=
  { jobs := jobs
    readyJobs := []
    current_time := 0
    completedJobs := List.replicate jobs.length false
    inQueue := List.replicate jobs.length false
    queueLengthSum := 0
    queueLengthCount := 0
    maxQueueLength := maxQueueLength
    finished := false }

/-- The admission test of `handleRoundRobin` for the job at position `p`:
`!completedJobs[job.id] && !inQueue[job.id] && job.arrivalTime <= current_time`. -/
def rrEligible (jobs : List Job) (completedJobs inQueue : List Bool) (current_time : ℚ)
    (p : Nat) : Bool :=
  !flagAt completedJobs (jobAt jobs p).id && !flagAt inQueue (jobAt jobs p).id
    && decide ((jobAt jobs p).arrivalTime ≤ current_time)

/-- The admission scan of `handleRoundRobin` over the positions `ps`: a job that passes the
admission test is pushed and flagged as queued. -/
def rrAdmit (jobs : List Job) (completedJobs : List Bool) (current_time : ℚ) :
    List Nat → List Nat × List Bool → List Nat × List Bool
  | [], st => st
  | p :: ps, (readyJobs, inQueue) =>
    if rrEligible jobs completedJobs inQueue current_time p then
      rrAdmit jobs completedJobs current_time ps
        (readyJobs ++ [p], inQueue.set (jobAt jobs p).id true)
    else
      rrAdmit jobs completedJobs current_time ps (readyJobs, inQueue)

/-- The ready queue and the queued flags after the admission scan of an iteration. -/
def rrAdmitted (s : RRState) : List Nat × List Bool :=
  rrAdmit s.jobs s.completedJobs s.current_time (List.range s.jobs.length)
    (s.readyJobs, s.inQueue)

/-- One iteration of the `while (true)` loop of `handleRoundRobin`, with what it did. -/
def rrIter (timeSlice overheadTime : Int) (s : RRState) : RREvent × RRState :=
  if s.finished then (RREvent.halted, s) else
  let readyJobs := (rrAdmitted s).1
  let inQueue := (rrAdmitted s).2
  let maxQueueLength := max s.maxQueueLength (readyJobs.length : Int)
  let queueLengthSum := s.queueLengthSum + (readyJobs.length : ℚ)
  let queueLengthCount := s.queueLengthCount + 1
  match readyJobs with
  | [] =>
    (RREvent.idle,
      { s with
          readyJobs := []
          inQueue := inQueue
          current_time := s.current_time + 1
          queueLengthSum := queueLengthSum
          queueLengthCount := queueLengthCount
          maxQueueLength := maxQueueLength })
  | p :: rest =>
    let job := jobAt s.jobs p
    let timeToExecute := min ((timeSlice : ℚ) / 1000) job.remainingTime
    let remainingTime := job.remainingTime - timeToExecute
    let current_time := s.current_time + timeToExecute
    if remainingTime ≤ 0 then
      let completedJobs := s.completedJobs.set job.id true
      let turnaroundTime := current_time - job.arrivalTime
      let waitingTime := turnaroundTime - job.burstTime
      (RREvent.finalSlice p,
        { jobs := s.jobs.set p { job with
              remainingTime := remainingTime
              completionTime := current_time
              turnaroundTime := turnaroundTime
              waitingTime := waitingTime }
          readyJobs := rest
          current_time := current_time
          completedJobs := completedJobs
          inQueue := inQueue
          queueLengthSum := queueLengthSum
          queueLengthCount := queueLengthCount
          maxQueueLength := maxQueueLength
          finished := allSet completedJobs })
    else
      (RREvent.preempted p,
        { jobs := s.jobs.set p { job with remainingTime := remainingTime }
          readyJobs := rest ++ [p]
          current_time := current_time + (overheadTime : ℚ) / 1000
          completedJobs := s.completedJobs
          inQueue := inQueue
          queueLengthSum := queueLengthSum
          queueLengthCount := queueLengthCount
          maxQueueLength := maxQueueLength
          finished := allSet s.completedJobs })

/-- The state after one iteration. -/
def rrStep (timeSlice overheadTime : Int) (s : RRState) : RRState :=
  (rrIter timeSlice overheadTime s).2

/-- The state after `n` iterations (fewer if the loop is left before). -/
def rrRun (timeSlice overheadTime : Int) (n : Nat) (s : RRState) : RRState :=
  (rrStep timeSlice overheadTime)^[n] s

/-- The function `handleRoundRobin`, allowed `fuel` iterations of its loop: the ledger and the
three reported statistics, or `none` when the loop is still running after `fuel` iterations. -/
def handleRoundRobin (fuel : Nat) (jobs : List Job) (timeSlice overheadTime : Int)
    (maxQueueLength : Int) : Option RRResult :=
  let s := rrRun timeSlice overheadTime fuel (rrInit jobs maxQueueLength)
  if s.finished then
    some { jobs := s.jobs
           totalSimulationTime := s.current_time
           avgQueueLength := s.queueLengthSum / (s.queueLengthCount : ℚ)
           maxQueueLength := s.maxQueueLength }
  else none

/-! ## Metrics -/

/-- The value of a `double` division: a number, or what IEEE arithmetic gives on division by
zero. -/
inductive FloatVal where
  | num (q : ℚ)
  | nan
  | posInf
  | negInf
deriving DecidableEq, Repr

/-- The quotient `total / jobs.size()` of a `double` by a count. -/
def divBySize (total : ℚ) (size : Nat) : FloatVal :=
  if size = 0 then
    if total = 0 then FloatVal.nan
    else if 0 < total then FloatVal.posInf else FloatVal.negInf
  else FloatVal.num (total / (size : ℚ))

/-- The two averages `computePerformanceMetrics` prints. -/
structure Averages where
  avgWaitingTime : FloatVal
  avgTurnaroundTime : FloatVal
deriving DecidableEq, Repr

/-- The accumulation loop of `computePerformanceMetrics`: the totals of waiting and turnaround
time, from the running totals given. -/
def sumTimes : List Job → ℚ × ℚ → ℚ × ℚ
  | [], totals => totals
  | job :: rest, (totalWaitingTime, totalTurnaroundTime) =>
    sumTimes rest (totalWaitingTime + job.waitingTime, totalTurnaroundTime + job.turnaroundTime)

/-- The function `computePerformanceMetrics`: the averages it prints.  The source has no
failing path (no `throw`, no check of the job count), so the outcome is always `Except.ok`. -/
def computePerformanceMetrics (jobs : List Job) : Except String Averages :=
  let totals := sumTimes jobs (0, 0)
  Except.ok
    { avgWaitingTime := divBySize totals.1 jobs.length
      avgTurnaroundTime := divBySize totals.2 jobs.length }

instance : DecidableEq (Except String Averages)
  | Except.ok a, Except.ok b =>
    if h : a = b then isTrue (congrArg Except.ok h)
    else isFalse (fun h' => h (Except.ok.inj h'))
  | Except.error a, Except.error b =>
    if h : a = b then isTrue (congrArg Except.error h)
    else isFalse (fun h' => h (Except.error.inj h'))
  | Except.ok _, Except.error _ => isFalse (fun h' => Except.noConfusion h')
  | Except.error _, Except.ok _ => isFalse (fun h' => Except.noConfusion h')

/-- The ledger of the concrete scenario: `(0,5), (1,3), (2,8), (3,6)`. -/
def scenario : List Job :=
  parseInputFile [(0, 5), (1, 3), (2, 8), (3, 6)]

/-! ## Experiment sweep -/

/-- The positions the admission scan of the iteration starting in `s` pushes. -/
def rrNew (s : RRState) : List Nat :=
  (List.range s.jobs.length).filter
    (rrEligible s.jobs s.completedJobs s.inQueue s.current_time)

/-- The four ways an iteration of the Round-Robin loop can go. -/
inductive RRCase (timeSlice : Int) (s : RRState) : Prop where
  | finished (hf : s.finished = true)
  | idle (hf : s.finished = false) (hq : (rrAdmitted s).1 = [])
  | final (hf : s.finished = false) (p : Nat) (rest : List Nat)
      (hq : (rrAdmitted s).1 = p :: rest)
      (hr : (jobAt s.jobs p).remainingTime
        - min ((timeSlice : ℚ) / 1000) (jobAt s.jobs p).remainingTime ≤ 0)
  | preempt (hf : s.finished = false) (p : Nat) (rest : List Nat)
      (hq : (rrAdmitted s).1 = p :: rest)
      (hr : ¬ (jobAt s.jobs p).remainingTime
        - min ((timeSlice : ℚ) / 1000) (jobAt s.jobs p).remainingTime ≤ 0)

/-- What the loop of `handleRoundRobin` keeps true of its bookkeeping, for the ledger `orig`
it was started on: the ledger keeps its length and input fields; the ready queue holds
distinct positions of jobs flagged queued and not completed; a job flagged queued and not
completed is in the queue; a completed job is flagged queued and has its derived fields set
from its completion time; the loop is left only with every job completed. -/
structure RRInv (orig : List Job) (s : RRState) : Prop where
  len : s.jobs.length = orig.length
  clen : s.completedJobs.length = orig.length
  qlen : s.inQueue.length = orig.length
  same : ∀ p, p < orig.length →
    (jobAt s.jobs p).id = (jobAt orig p).id
    ∧ (jobAt s.jobs p).arrivalTime = (jobAt orig p).arrivalTime
    ∧ (jobAt s.jobs p).burstTime = (jobAt orig p).burstTime
  queue : ∀ p ∈ s.readyJobs,
    p < orig.length ∧ flagAt s.inQueue p = true ∧ flagAt s.completedJobs p = false
  nodup : s.readyJobs.Nodup
  queued : ∀ p, p < orig.length → flagAt s.inQueue p = true →
    flagAt s.completedJobs p = false → p ∈ s.readyJobs
  doneq : ∀ p, p < orig.length → flagAt s.completedJobs p = true → flagAt s.inQueue p = true
  derived : ∀ p, p < orig.length → flagAt s.completedJobs p = true →
    (jobAt s.jobs p).turnaroundTime = (jobAt s.jobs p).completionTime - (jobAt orig p).arrivalTime
    ∧ (jobAt s.jobs p).waitingTime = (jobAt s.jobs p).turnaroundTime - (jobAt orig p).burstTime
  fin : s.finished = true → allSet s.completedJobs = true

/-- What the Round-Robin loop keeps true of the remaining times: none is negative, and a
completed job has none left. -/
structure RRRem (orig : List Job) (s : RRState) : Prop where
  nonneg : ∀ p, p < orig.length → 0 ≤ (jobAt s.jobs p).remainingTime
  done : ∀ p, p < orig.length → flagAt s.completedJobs p = true →
    (jobAt s.jobs p).remainingTime = 0

/-- The job an iteration gives the processor to, if it gives it to any. -/
def RREvent.job : RREvent → Option Nat
  | RREvent.finalSlice p => some p
  | RREvent.preempted p => some p
  | _ => none

/-- The job dispatched by iteration `t` (counted from 0) of the run started in `s0`. -/
def rrDispatched (timeSlice overheadTime : Int) (s0 : RRState) (t : Nat) : Option Nat :=
  (rrIter timeSlice overheadTime (rrRun timeSlice overheadTime t s0)).1.job

/-- The ready queue as iteration `t` of the run started in `s0` has it after its admission
scan, when it takes the job to dispatch from its head. -/
def rrQueueAt (timeSlice overheadTime : Int) (s0 : RRState) (t : Nat) : List Nat :=
  (rrAdmitted (rrRun timeSlice overheadTime t s0)).1

/-- The loop of `handleRoundRobin` is running exactly as long as some job is not completed;
this holds from the first iteration on when the ledger is not empty. -/
def RRLive (s : RRState) : Prop :=
  s.finished = allSet s.completedJobs

/-- A ledger of two jobs that arrive at 0 and need 0.2 and 0.3 time units. -/
def batch : List Job :=
  parseInputFile [(0, 1 / 5), (0, 3 / 10)]

/-- What `handleRoundRobin` returns on `batch` with quantum 500 and overhead 25: each job runs
in one slice, and the queue holds 2 jobs, then 1. -/
def batchRR : RRResult :=
  { jobs := [⟨0, 0, 1 / 5, 0, 1 / 5, 1 / 5, 0⟩, ⟨1, 0, 3 / 10, 0, 1 / 2, 1 / 2, 1 / 5⟩]
    totalSimulationTime := 1 / 2
    avgQueueLength := 3 / 2
    maxQueueLength := 2 }

/-! ## Binary64 arithmetic

The type `double` of the source is IEEE binary64 with rounding to nearest, ties to even.  A
finite value is kept as the rational number it denotes; every finite binary64 number is a
whole number of units of `2 ^ (-1074)` with at most 53 significant bits.  The sign of zero is
not kept: no operation of the program tells the two zeros apart. -/

/-- Rounding of the quotient `n / d` to the nearest natural number, ties to the even one. -/
def roundHalfEven (n d : Nat) : Nat :=
  let q := n / d
  let r := n % d
  if 2 * r < d then q
  else if d < 2 * r then q + 1
  else if q % 2 = 0 then q else q + 1

/-- The position of the leading binary digit of `n`, counted from 0, found by at most `fuel`
halvings; 0 for `n = 0`. -/
def leadingBit : Nat → Nat → Nat
  | 0, _ => 0
  | fuel + 1, n => if 2 ≤ n then leadingBit fuel (n / 2) + 1 else 0

/-- The exponent, in units of `2 ^ (-1074)`, of the spacing of binary64 numbers around a
magnitude of `k` units (rounded down): numbers below `2 ^ 53` units are one unit apart, and
the spacing doubles with every further binary digit. -/
def spacing (k : Nat) : Nat :=
  leadingBit k k - 52

/-- The magnitude `n / d` units rounded to binary64, in units. -/
def roundUnits (n d : Nat) : Nat :=
  let s := spacing (n / d)
  roundHalfEven n (d * 2 ^ s) * 2 ^ s

/-- The number of units of `2 ^ (-1074)` in 1. -/
@[irreducible] def unitsPerOne : Nat :=
  2 ^ 1074

/-- The magnitude `2 ^ 1024` in units of `2 ^ (-1074)`: the finite binary64 numbers lie
below it. -/
@[irreducible] def unitsBound : Nat :=
  2 ^ 2098

/-- The rational `x` rounded to binary64: the nearest binary64 number, ties to the even
significand, and an infinity from `2 ^ 1024 - 2 ^ 970` on. -/
def round64 (x : ℚ) : FloatVal :=
  let u := roundUnits (x.num.natAbs * unitsPerOne) x.den
  if unitsBound ≤ u then
    if 0 ≤ x.num then FloatVal.posInf else FloatVal.negInf
  else if 0 ≤ x.num then FloatVal.num ((u : ℚ) / unitsPerOne)
  else FloatVal.num (-(u : ℚ) / unitsPerOne)

/-- The sum `a + b` of two `double` values. -/
def FloatVal.add : FloatVal → FloatVal → FloatVal
  | FloatVal.num a, FloatVal.num b => round64 (a + b)
  | FloatVal.nan, _ => FloatVal.nan
  | _, FloatVal.nan => FloatVal.nan
  | FloatVal.posInf, FloatVal.negInf => FloatVal.nan
  | FloatVal.negInf, FloatVal.posInf => FloatVal.nan
  | FloatVal.posInf, _ => FloatVal.posInf
  | _, FloatVal.posInf => FloatVal.posInf
  | FloatVal.negInf, _ => FloatVal.negInf
  | _, FloatVal.negInf => FloatVal.negInf

/-- The difference `a - b` of two `double` values. -/
def FloatVal.sub : FloatVal → FloatVal → FloatVal
  | FloatVal.num a, FloatVal.num b => round64 (a - b)
  | FloatVal.nan, _ => FloatVal.nan
  | _, FloatVal.nan => FloatVal.nan
  | FloatVal.posInf, FloatVal.posInf => FloatVal.nan
  | FloatVal.negInf, FloatVal.negInf => FloatVal.nan
  | FloatVal.posInf, _ => FloatVal.posInf
  | _, FloatVal.negInf => FloatVal.posInf
  | FloatVal.negInf, _ => FloatVal.negInf
  | _, FloatVal.posInf => FloatVal.negInf

/-- The quotient `a / b` of two `double` values; a zero divisor is the positive zero. -/
def FloatVal.div : FloatVal → FloatVal → FloatVal
  | FloatVal.num a, FloatVal.num b =>
    if b = 0 then
      if a = 0 then FloatVal.nan else if 0 < a then FloatVal.posInf else FloatVal.negInf
    else round64 (a / b)
  | FloatVal.nan, _ => FloatVal.nan
  | _, FloatVal.nan => FloatVal.nan
  | FloatVal.num _, _ => FloatVal.num 0
  | FloatVal.posInf, FloatVal.num b => if 0 ≤ b then FloatVal.posInf else FloatVal.negInf
  | FloatVal.negInf, FloatVal.num b => if 0 ≤ b then FloatVal.negInf else FloatVal.posInf
  | _, _ => FloatVal.nan

/-- The comparison `a < b` of two `double` values; it is false when either is not a number. -/
def FloatVal.lt : FloatVal → FloatVal → Bool
  | FloatVal.num a, FloatVal.num b => decide (a < b)
  | FloatVal.nan, _ => false
  | _, FloatVal.nan => false
  | FloatVal.negInf, FloatVal.negInf => false
  | FloatVal.negInf, _ => true
  | FloatVal.posInf, _ => false
  | _, FloatVal.posInf => true
  | _, FloatVal.negInf => false

/-- The comparison `a <= b` of two `double` values; it is false when either is not a
number. -/
def FloatVal.le : FloatVal → FloatVal → Bool
  | FloatVal.num a, FloatVal.num b => decide (a ≤ b)
  | FloatVal.nan, _ => false
  | _, FloatVal.nan => false
  | FloatVal.negInf, _ => true
  | _, FloatVal.posInf => true
  | FloatVal.posInf, _ => false
  | _, FloatVal.negInf => false

/-- The function `std::min(a, b)` on `double`: `b` when `b < a`, otherwise `a`. -/
def FloatVal.min (a b : FloatVal) : FloatVal :=
  if FloatVal.lt b a then b else a

/-- The conversion of an `int` to `double`. -/
def FloatVal.ofInt (i : Int) : FloatVal :=
  round64 (i : ℚ)

/-- The conversion of a `size_t` to `double`. -/
def FloatVal.ofNat (n : Nat) : FloatVal :=
  round64 (n : ℚ)

/-- The value an `int` holds after an operation whose mathematical result is `i`: the
two's-complement wrap-around to 32 bits that the compiled program performs. -/
def wrap32 (i : Int) : Int :=
  (i + 2 ^ 31) % 2 ^ 32 - 2 ^ 31

/-! ## The program in binary64 arithmetic

The same functions as above with the arithmetic of the compiled program: every `double` is a
`FloatVal` rounded by `round64`, the counter `queueLengthCount` is a 32-bit `int`, and the
`priority_queue` of `performSJF` is the binary heap of the C++ standard library, so that the
order among jobs of equal burst time is the one the program produces.  The names carry the
suffix `64`. -/

/-- The record `struct Job`, its times being `double` values. -/
structure Job64 where
  id : Nat
  arrivalTime : FloatVal
  burstTime : FloatVal
  remainingTime : FloatVal
  completionTime : FloatVal
  turnaroundTime : FloatVal
  waitingTime : FloatVal
deriving DecidableEq, Repr

/-- The extraction `file >> x` of a decimal numeral of value `x`: the nearest `double`; the
extraction fails when that is beyond the range of `double`. -/
def readDouble (x : ℚ) : Option FloatVal :=
  match round64 x with
  | FloatVal.num q => some (FloatVal.num q)
  | _ => none

/-- The loop of `parseInputFile` on the numerals of the file: one job per record
`(arrival, burst)`, numbered from `id`, up to the first extraction that fails. -/
def parseRecords64 (id : Nat) : List (ℚ × ℚ) → List Job64
  | [] => []
  | (arrival, burst) :: rest =>
    match readDouble arrival, readDouble burst with
    | some a, some b =>
      ⟨id, a, b, b, FloatVal.num 0, FloatVal.num 0, FloatVal.num 0⟩ :: parseRecords64 (id + 1) rest
    | _, _ => []

/-- The function `parseInputFile`, applied to the numerals read from the file. -/
def parseInputFile64 (records : List (ℚ × ℚ)) : List Job64 :=
  parseRecords64 0 records

/-- The job a pointer designates: the job at position `p` of the ledger. -/
def jobAt64 (jobs : List Job64) (p : Nat) : Job64 :=
  jobs.getD p ⟨0, FloatVal.num 0, FloatVal.num 0, FloatVal.num 0, FloatVal.num 0,
    FloatVal.num 0, FloatVal.num 0⟩

/-- The `for` loop of `executeFCFS`, started with the clock at `current_time`. -/
def fcfsLoop64 (current_time : FloatVal) : List Job64 → List Job64
  | [] => []
  | job :: rest =>
    let start := if FloatVal.lt current_time job.arrivalTime then job.arrivalTime else current_time
    let completionTime := FloatVal.add start job.burstTime
    let turnaroundTime := FloatVal.sub completionTime job.arrivalTime
    let waitingTime := FloatVal.sub turnaroundTime job.burstTime
    { job with
        completionTime := completionTime
        turnaroundTime := turnaroundTime
        waitingTime := waitingTime } :: fcfsLoop64 completionTime rest

/-- The function `executeFCFS`. -/
def executeFCFS64 (jobs : List Job64) : List Job64 :=
  fcfsLoop64 (FloatVal.num 0) jobs

/-- The comparison `compare` of `performSJF` on the jobs at positions `a` and `b`:
`a->burstTime > b->burstTime`. -/
def compareBurst (jobs : List Job64) (a b : Nat) : Bool :=
  FloatVal.lt (jobAt64 jobs b).burstTime (jobAt64 jobs a).burstTime

/-- The library routine `std::__push_heap`: the hole at `holeIndex` moves up while it is
below `topIndex` and its parent compares before `value`; `value` is stored in the hole.  The
loop runs at most `holeIndex` times, which `fuel` counts. -/
def pushHeap (comp : Nat → Nat → Bool) : Nat → List Nat → Nat → Nat → Nat → List Nat
  | 0, c, holeIndex, _, value => c.set holeIndex value
  | fuel + 1, c, holeIndex, topIndex, value =>
    let parent := (holeIndex - 1) / 2
    if topIndex < holeIndex && comp (c.getD parent 0) value then
      pushHeap comp fuel (c.set holeIndex (c.getD parent 0)) parent topIndex value
    else c.set holeIndex value

/-- The `while` loop of the library routine `std::__adjust_heap`: the hole moves down to the
child that does not compare before its sibling, as long as it has two children.  It returns
the array and the final hole.  The loop runs fewer than `len` times, which `fuel` counts. -/
def adjustLoop (comp : Nat → Nat → Bool) (len : Nat) : Nat → List Nat → Nat → List Nat × Nat
  | 0, c, holeIndex => (c, holeIndex)
  | fuel + 1, c, holeIndex =>
    if holeIndex < (len - 1) / 2 then
      let right := 2 * (holeIndex + 1)
      let secondChild := if comp (c.getD right 0) (c.getD (right - 1) 0) then right - 1 else right
      adjustLoop comp len fuel (c.set holeIndex (c.getD secondChild 0)) secondChild
    else (c, holeIndex)

/-- The library routine `std::__adjust_heap` with hole 0: the loop above, the step onto an
only child when `len` is even, and `std::__push_heap` of `value` from the hole reached. -/
def adjustHeap (comp : Nat → Nat → Bool) (c : List Nat) (len value : Nat) : List Nat :=
  let (c1, hole1) := adjustLoop comp len len c 0
  let (c2, hole2) :=
    if len % 2 = 0 ∧ len ≠ 0 ∧ hole1 = (len - 2) / 2 then
      (c1.set hole1 (c1.getD (2 * (hole1 + 1) - 1) 0), 2 * (hole1 + 1) - 1)
    else (c1, hole1)
  pushHeap comp hole2 c2 hole2 0 value

/-- The operation `priority_queue::push`: `push_back`, then `std::push_heap`. -/
def pqPush (comp : Nat → Nat → Bool) (c : List Nat) (x : Nat) : List Nat :=
  pushHeap comp c.length (c ++ [x]) c.length 0 x

/-- The operation `priority_queue::pop`: `std::pop_heap` takes the last element as `value`,
puts the first element in its place and restores the heap on the positions before it with
`std::__adjust_heap`; `pop_back` then removes the element put last.  The array without its
last position is what `std::__adjust_heap` works on. -/
def pqPop (comp : Nat → Nat → Bool) (c : List Nat) : List Nat :=
  if 1 < c.length then
    adjustHeap comp c.dropLast (c.length - 1) (c.getD (c.length - 1) 0)
  else c.dropLast

/-- The loop state of `performSJF`; `jobQueue` is the array of the heap. -/
structure SJFState64 where
  jobs : List Job64
  jobQueue : List Nat
  isCompleted : List Bool
  current_time : FloatVal
  finished : Bool
deriving DecidableEq, Repr

/-- The state of `performSJF` on entry to its loop. -/
def sjfInit64 (jobs : List Job64) : SJFState64 :=
  { jobs := jobs
    jobQueue := []
    isCompleted := List.replicate jobs.length false
    current_time := FloatVal.num 0
    finished := false }

/-- The admission scan of `performSJF` over the positions `ps`: every position whose job is
not flagged completed and has arrived is pushed onto the heap `c`. -/
def sjfAdmit64 (jobs : List Job64) (isCompleted : List Bool) (current_time : FloatVal) :
    List Nat → List Nat → List Nat
  | [], c => c
  | p :: ps, c =>
    if !flagAt isCompleted (jobAt64 jobs p).id
        && FloatVal.le (jobAt64 jobs p).arrivalTime current_time then
      sjfAdmit64 jobs isCompleted current_time ps (pqPush (compareBurst jobs) c p)
    else sjfAdmit64 jobs isCompleted current_time ps c

/-- The heap after the admission scan of an iteration. -/
def sjfAdmitted64 (s : SJFState64) : List Nat :=
  sjfAdmit64 s.jobs s.isCompleted s.current_time (List.range s.jobs.length) s.jobQueue

/-- One iteration of the `while (true)` loop of `performSJF`, with what it did. -/
def sjfIter64 (s : SJFState64) : SJFEvent × SJFState64 :=
  if s.finished then (SJFEvent.halted, s) else
  let jobQueue := sjfAdmitted64 s
  match jobQueue with
  | [] =>
    (SJFEvent.idle,
      { s with jobQueue := [], current_time := FloatVal.add s.current_time (FloatVal.num 1) })
  | p :: _ =>
    let job := jobAt64 s.jobs p
    let isCompleted := s.isCompleted.set job.id true
    let completionTime := FloatVal.add s.current_time job.burstTime
    let turnaroundTime := FloatVal.sub completionTime job.arrivalTime
    let waitingTime := FloatVal.sub turnaroundTime job.burstTime
    (SJFEvent.dispatch p,
      { jobs := s.jobs.set p { job with
            completionTime := completionTime
            turnaroundTime := turnaroundTime
            waitingTime := waitingTime }
        jobQueue := pqPop (compareBurst s.jobs) jobQueue
        isCompleted := isCompleted
        current_time := completionTime
        finished := allSet isCompleted })

/-- The state after one iteration. -/
def sjfStep64 (s : SJFState64) : SJFState64 :=
  (sjfIter64 s).2

/-- The state after `n` iterations (fewer if the loop is left before). -/
def sjfRun64 (n : Nat) (s : SJFState64) : SJFState64 :=
  sjfStep64^[n] s

/-- The events of the first `n` iterations from `s`, up to the `break`. -/
def sjfEvents64 : Nat → SJFState64 → List SJFEvent
  | 0, _ => []
  | n + 1, s => if s.finished then [] else (sjfIter64 s).1 :: sjfEvents64 n (sjfStep64 s)

/-- The positions dispatched during the first `n` iterations from `s`, in order. -/
def sjfDispatches64 (n : Nat) (s : SJFState64) : List Nat :=
  (sjfEvents64 n s).filterMap SJFEvent.job

/-- The function `performSJF`, allowed `fuel` iterations of its loop: the ledger as the
function leaves it, or `none` when the loop is still running after `fuel` iterations. -/
def performSJF64 (fuel : Nat) (jobs : List Job64) : Option (List Job64) :=
  let s := sjfRun64 fuel (sjfInit64 jobs)
  if s.finished then some s.jobs else none

/-- The loop state of `handleRoundRobin`. -/
structure RRState64 where
  jobs : List Job64
  readyJobs : List Nat
  current_time : FloatVal
  completedJobs : List Bool
  inQueue : List Bool
  queueLengthSum : FloatVal
  queueLengthCount : Int
  maxQueueLength : Int
  finished : Bool
deriving DecidableEq, Repr

/-- The values `handleRoundRobin` leaves in the ledger and in its three reference arguments. -/
structure RRResult64 where
  jobs : List Job64
  totalSimulationTime : FloatVal
  avgQueueLength : FloatVal
  maxQueueLength : Int
deriving DecidableEq, Repr

/-- The state of `handleRoundRobin` on entry to its loop; `maxQueueLength` is the value the
caller passes by reference. -/
def rrInit64 (jobs : List Job64) (maxQueueLength : Int) : RRState64 :=
  { jobs := jobs
    readyJobs := []
    current_time := FloatVal.num 0
    completedJobs := List.replicate jobs.length false
    inQueue := List.replicate jobs.length false
    queueLengthSum := FloatVal.num 0
    queueLengthCount := 0
    maxQueueLength := maxQueueLength
    finished := false }

/-- The admission test of `handleRoundRobin` for the job at position `p`:
`!completedJobs[job.id] && !inQueue[job.id] && job.arrivalTime <= current_time`. -/
def rrEligible64 (jobs : List Job64) (completedJobs inQueue : List Bool)
    (current_time : FloatVal) (p : Nat) : Bool :=
  !flagAt completedJobs (jobAt64 jobs p).id && !flagAt inQueue (jobAt64 jobs p).id
    && FloatVal.le (jobAt64 jobs p).arrivalTime current_time

/-- The admission scan of `handleRoundRobin` over the positions `ps`: a job that passes the
admission test is pushed and flagged as queued. -/
def rrAdmit64 (jobs : List Job64) (completedJobs : List Bool) (current_time : FloatVal) :
    List Nat → List Nat × List Bool → List Nat × List Bool
  | [], st => st
  | p :: ps, (readyJobs, inQueue) =>
    if rrEligible64 jobs completedJobs inQueue current_time p then
      rrAdmit64 jobs completedJobs current_time ps
        (readyJobs ++ [p], inQueue.set (jobAt64 jobs p).id true)
    else
      rrAdmit64 jobs completedJobs current_time ps (readyJobs, inQueue)

/-- The ready queue and the queued flags after the admission scan of an iteration. -/
def rrAdmitted64 (s : RRState64) : List Nat × List Bool :=
  rrAdmit64 s.jobs s.completedJobs s.current_time (List.range s.jobs.length)
    (s.readyJobs, s.inQueue)

/-- The quantum `timeSlice / 1000.0` in the unit of the clock. -/
def quantum64 (timeSlice : Int) : FloatVal :=
  FloatVal.div (FloatVal.ofInt timeSlice) (FloatVal.num 1000)

/-- One iteration of the `while (true)` loop of `handleRoundRobin`, with what it did. -/
def rrIter64 (timeSlice overheadTime : Int) (s : RRState64) : RREvent × RRState64 :=
  if s.finished then (RREvent.halted, s) else
  let readyJobs := (rrAdmitted64 s).1
  let inQueue := (rrAdmitted64 s).2
  let maxQueueLength := max s.maxQueueLength (wrap32 (readyJobs.length : Int))
  let queueLengthSum := FloatVal.add s.queueLengthSum (FloatVal.ofNat readyJobs.length)
  let queueLengthCount := wrap32 (s.queueLengthCount + 1)
  match readyJobs with
  | [] =>
    (RREvent.idle,
      { s with
          readyJobs := []
          inQueue := inQueue
          current_time := FloatVal.add s.current_time (FloatVal.num 1)
          queueLengthSum := queueLengthSum
          queueLengthCount := queueLengthCount
          maxQueueLength := maxQueueLength })
  | p :: rest =>
    let job := jobAt64 s.jobs p
    let timeToExecute := FloatVal.min (quantum64 timeSlice) job.remainingTime
    let remainingTime := FloatVal.sub job.remainingTime timeToExecute
    let current_time := FloatVal.add s.current_time timeToExecute
    if FloatVal.le remainingTime (FloatVal.num 0) then
      let completedJobs := s.completedJobs.set job.id true
      let turnaroundTime := FloatVal.sub current_time job.arrivalTime
      let waitingTime := FloatVal.sub turnaroundTime job.burstTime
      (RREvent.finalSlice p,
        { jobs := s.jobs.set p { job with
              remainingTime := remainingTime
              completionTime := current_time
              turnaroundTime := turnaroundTime
              waitingTime := waitingTime }
          readyJobs := rest
          current_time := current_time
          completedJobs := completedJobs
          inQueue := inQueue
          queueLengthSum := queueLengthSum
          queueLengthCount := queueLengthCount
          maxQueueLength := maxQueueLength
          finished := allSet completedJobs })
    else
      (RREvent.preempted p,
        { jobs := s.jobs.set p { job with remainingTime := remainingTime }
          readyJobs := rest ++ [p]
          current_time := FloatVal.add current_time (quantum64 overheadTime)
          completedJobs := s.completedJobs
          inQueue := inQueue
          queueLengthSum := queueLengthSum
          queueLengthCount := queueLengthCount
          maxQueueLength := maxQueueLength
          finished := allSet s.completedJobs })

/-- The state after one iteration. -/
def rrStep64 (timeSlice overheadTime : Int) (s : RRState64) : RRState64 :=
  (rrIter64 timeSlice overheadTime s).2

/-- The state after `n` iterations (fewer if the loop is left before). -/
def rrRun64 (timeSlice overheadTime : Int) (n : Nat) (s : RRState64) : RRState64 :=
  (rrStep64 timeSlice overheadTime)^[n] s

/-- The events of the first `n` iterations from `s`, up to the `break`. -/
def rrEvents64 (timeSlice overheadTime : Int) : Nat → RRState64 → List RREvent
  | 0, _ => []
  | n + 1, s =>
    if s.finished then [] else
      (rrIter64 timeSlice overheadTime s).1
        :: rrEvents64 timeSlice overheadTime n (rrStep64 timeSlice overheadTime s)

/-- The function `handleRoundRobin`, allowed `fuel` iterations of its loop: the ledger and the
three reported statistics, or `none` when the loop is still running after `fuel` iterations. -/
def handleRoundRobin64 (fuel : Nat) (jobs : List Job64) (timeSlice overheadTime : Int)
    (maxQueueLength : Int) : Option RRResult64 :=
  let s := rrRun64 timeSlice overheadTime fuel (rrInit64 jobs maxQueueLength)
  if s.finished then
    some { jobs := s.jobs
           totalSimulationTime := s.current_time
           avgQueueLength := FloatVal.div s.queueLengthSum (FloatVal.ofInt s.queueLengthCount)
           maxQueueLength := s.maxQueueLength }
  else none

/-- A magnitude of `k` units of `2 ^ (-1074)` is one of binary64, the range aside: `k` is a
multiple of the spacing at `k`. -/
def OnGrid (k : Nat) : Prop :=
  2 ^ spacing k ∣ k

/-- The rational `q` is a finite binary64 number: rounding leaves it as it is. -/
def IsDouble (q : ℚ) : Prop :=
  round64 q = FloatVal.num q

instance (q : ℚ) : Decidable (IsDouble q) :=
  inferInstanceAs (Decidable (round64 q = FloatVal.num q))

/-- The magnitude of `x`, in units of `2 ^ (-1074)`, after rounding to binary64. -/
def roundedUnits (x : ℚ) : Nat :=
  roundUnits (x.num.natAbs * unitsPerOne) x.den

/-- A `double` value that is `+inf` or a non-negative binary64 number. -/
def FloatVal.NonNeg : FloatVal → Prop
  | FloatVal.num q => 0 ≤ q ∧ IsDouble q
  | FloatVal.posInf => True
  | _ => False

/-- A `double` value that is a non-negative binary64 number. -/
def FloatVal.IsTime : FloatVal → Prop
  | FloatVal.num q => 0 ≤ q ∧ IsDouble q
  | _ => False

instance (v : FloatVal) : Decidable v.NonNeg := by
  cases v <;> unfold FloatVal.NonNeg <;> infer_instance

instance (v : FloatVal) : Decidable v.IsTime := by
  cases v <;> unfold FloatVal.IsTime <;> infer_instance

/-- A ledger as `parseInputFile` makes it from numerals that are not negative: every job
carries its position as `id`, its arrival and burst times are non-negative binary64 numbers,
and no work has been done yet. -/
def Valid64 (jobs : List Job64) : Prop :=
  ∀ p, p < jobs.length →
    (jobAt64 jobs p).id = p ∧ (jobAt64 jobs p).arrivalTime.IsTime
      ∧ (jobAt64 jobs p).burstTime.IsTime
      ∧ (jobAt64 jobs p).remainingTime = (jobAt64 jobs p).burstTime

instance (jobs : List Job64) : Decidable (Valid64 jobs) :=
  inferInstanceAs (Decidable (∀ p, p < jobs.length →
    (jobAt64 jobs p).id = p ∧ (jobAt64 jobs p).arrivalTime.IsTime
      ∧ (jobAt64 jobs p).burstTime.IsTime
      ∧ (jobAt64 jobs p).remainingTime = (jobAt64 jobs p).burstTime))

/-- No job arrives later than `2 ^ 53`, the clock value from which on `current_time++` leaves
the clock as it is. -/
def ArrivalsReachable (jobs : List Job64) : Prop :=
  ∀ p, p < jobs.length →
    FloatVal.le (jobAt64 jobs p).arrivalTime (FloatVal.num (2 ^ 53)) = true

instance (jobs : List Job64) : Decidable (ArrivalsReachable jobs) :=
  inferInstanceAs (Decidable (∀ p, p < jobs.length →
    FloatVal.le (jobAt64 jobs p).arrivalTime (FloatVal.num (2 ^ 53)) = true))

/-- The positions the admission scan of the iteration of `performSJF` starting in `s`
pushes. -/
def sjfNew64 (s : SJFState64) : List Nat :=
  (List.range s.jobs.length).filter (fun p =>
    !flagAt s.isCompleted (jobAt64 s.jobs p).id
      && FloatVal.le (jobAt64 s.jobs p).arrivalTime s.current_time)

/-- What the loop of `performSJF` keeps true of its state, for the valid ledger `orig` it was
started on: the ledger keeps its length and its input fields; queue entries are positions of
jobs that have arrived; the clock is not negative; a job flagged completed has a completion
time no earlier than its arrival and its derived fields set from it; and the loop is running
exactly as long as some job is not flagged completed. -/
structure SJFInv64 (orig : List Job64) (s : SJFState64) : Prop where
  len : s.jobs.length = orig.length
  flags : s.isCompleted.length = orig.length
  same : ∀ p, p < orig.length →
    (jobAt64 s.jobs p).id = (jobAt64 orig p).id
    ∧ (jobAt64 s.jobs p).arrivalTime = (jobAt64 orig p).arrivalTime
    ∧ (jobAt64 s.jobs p).burstTime = (jobAt64 orig p).burstTime
  queue : ∀ q ∈ s.jobQueue,
    q < orig.length ∧ FloatVal.le (jobAt64 orig q).arrivalTime s.current_time = true
  clock : s.current_time.NonNeg
  done : ∀ p, p < orig.length → flagAt s.isCompleted p = true →
    FloatVal.le (jobAt64 orig p).arrivalTime (jobAt64 s.jobs p).completionTime = true
    ∧ (jobAt64 s.jobs p).completionTime.NonNeg
    ∧ (jobAt64 s.jobs p).turnaroundTime
        = FloatVal.sub (jobAt64 s.jobs p).completionTime (jobAt64 orig p).arrivalTime
    ∧ (jobAt64 s.jobs p).waitingTime
        = FloatVal.sub (jobAt64 s.jobs p).turnaroundTime (jobAt64 orig p).burstTime
  live : s.finished = allSet s.isCompleted

/-- The number of jobs `performSJF` has not flagged completed. -/
def sjfOpen64 (s : SJFState64) : Nat :=
  Finset.sum (Finset.range s.jobs.length) (fun p => if flagAt s.isCompleted p then 0 else 1)

/-- The number of queue entries that designate a job already flagged completed. -/
def sjfStale64 (s : SJFState64) : Nat :=
  s.jobQueue.countP (fun q => flagAt s.isCompleted q)

/-- The number of units of `2 ^ (-1074)` in a finite clock value (rounded down). -/
def unitsOf : FloatVal → Nat
  | FloatVal.num q => ⌊q * unitsPerOne⌋₊
  | _ => 0

/-- The number of units of `2 ^ (-1074)` from the clock up to `2 ^ 53`; none when the clock
is not finite. -/
def idleBudget64 : FloatVal → Nat
  | FloatVal.num q => 2 ^ 53 * unitsPerOne - ⌊q * unitsPerOne⌋₊
  | _ => 0

/-- The scenario ledger `(0,5), (1,3), (2,8), (3,6)` as `parseInputFile` reads it. -/
def scenario64 : List Job64 :=
  parseInputFile64 [(0, 5), (1, 3), (2, 8), (3, 6)]

/-- What `performSJF` leaves of the scenario ledger. -/
def scenarioSJF64 : List Job64 :=
  [⟨0, FloatVal.num 0, FloatVal.num 5, FloatVal.num 5, FloatVal.num 5, FloatVal.num 5,
      FloatVal.num 0⟩,
   ⟨1, FloatVal.num 1, FloatVal.num 3, FloatVal.num 3, FloatVal.num 8, FloatVal.num 7,
      FloatVal.num 4⟩,
   ⟨2, FloatVal.num 2, FloatVal.num 8, FloatVal.num 8, FloatVal.num 28, FloatVal.num 26,
      FloatVal.num 18⟩,
   ⟨3, FloatVal.num 3, FloatVal.num 6, FloatVal.num 6, FloatVal.num 20, FloatVal.num 17,
      FloatVal.num 11⟩]

/-- A ledger of two jobs with whole-number times: the first arrives at 0 and needs `2 ^ 53`
time units, the second arrives at `2 ^ 53 + 4` and needs 1. -/
def stallJobs : List Job64 :=
  parseInputFile64 [(0, 2 ^ 53), (2 ^ 53 + 4, 1)]

/-- The state of `performSJF` on `stallJobs` after its first iteration: the first job is
completed at `2 ^ 53`, the queue is empty and the clock is at `2 ^ 53`. -/
def stallState : SJFState64 :=
  { jobs :=
      [⟨0, FloatVal.num 0, FloatVal.num (2 ^ 53), FloatVal.num (2 ^ 53), FloatVal.num (2 ^ 53),
          FloatVal.num (2 ^ 53), FloatVal.num 0⟩,
       ⟨1, FloatVal.num (2 ^ 53 + 4), FloatVal.num 1, FloatVal.num 1, FloatVal.num 0,
          FloatVal.num 0, FloatVal.num 0⟩]
    jobQueue := []
    isCompleted := [true, false]
    current_time := FloatVal.num (2 ^ 53)
    finished := false }

/-- The positions the admission scan of the iteration of `handleRoundRobin` starting in `s`
pushes. -/
def rrNew64 (s : RRState64) : List Nat :=
  (List.range s.jobs.length).filter
    (rrEligible64 s.jobs s.completedJobs s.inQueue s.current_time)

/-- What is left of the job at position `p` after the slice the iteration starting in `s`
gives it. -/
def rrLeft64 (timeSlice : Int) (s : RRState64) (p : Nat) : FloatVal :=
  FloatVal.sub (jobAt64 s.jobs p).remainingTime
    (FloatVal.min (quantum64 timeSlice) (jobAt64 s.jobs p).remainingTime)

/-- The four ways an iteration of the Round-Robin loop can go. -/
inductive RRCase64 (timeSlice : Int) (s : RRState64) : Prop where
  | finished (hf : s.finished = true)
  | idle (hf : s.finished = false) (hq : (rrAdmitted64 s).1 = [])
  | final (hf : s.finished = false) (p : Nat) (rest : List Nat)
      (hq : (rrAdmitted64 s).1 = p :: rest)
      (hr : FloatVal.le (rrLeft64 timeSlice s p) (FloatVal.num 0) = true)
  | preempt (hf : s.finished = false) (p : Nat) (rest : List Nat)
      (hq : (rrAdmitted64 s).1 = p :: rest)
      (hr : FloatVal.le (rrLeft64 timeSlice s p) (FloatVal.num 0) = false)

/-- What the loop of `handleRoundRobin` keeps true of its state, for the valid ledger `orig`
it was started on: the ledger keeps its length and input fields; the ready queue holds
distinct positions of jobs flagged queued and not completed; a job flagged queued and not
completed is in the queue; a completed job is flagged queued; the loop is running exactly as
long as some job is not completed; the clock is not negative; a remaining time is a
non-negative number, at most the burst time; a job flagged queued has arrived; and a completed
job has nothing left to run, a completion time no earlier than its arrival, and its derived
fields set from it. -/
structure RRInv64 (orig : List Job64) (s : RRState64) : Prop where
  len : s.jobs.length = orig.length
  clen : s.completedJobs.length = orig.length
  qlen : s.inQueue.length = orig.length
  same : ∀ p, p < orig.length →
    (jobAt64 s.jobs p).id = (jobAt64 orig p).id
    ∧ (jobAt64 s.jobs p).arrivalTime = (jobAt64 orig p).arrivalTime
    ∧ (jobAt64 s.jobs p).burstTime = (jobAt64 orig p).burstTime
  queue : ∀ p ∈ s.readyJobs,
    p < orig.length ∧ flagAt s.inQueue p = true ∧ flagAt s.completedJobs p = false
  nodup : s.readyJobs.Nodup
  queued : ∀ p, p < orig.length → flagAt s.inQueue p = true →
    flagAt s.completedJobs p = false → p ∈ s.readyJobs
  doneq : ∀ p, p < orig.length → flagAt s.completedJobs p = true → flagAt s.inQueue p = true
  live : s.finished = allSet s.completedJobs
  clock : s.current_time.NonNeg
  rem : ∀ p, p < orig.length →
    (jobAt64 s.jobs p).remainingTime.IsTime
    ∧ FloatVal.le (jobAt64 s.jobs p).remainingTime (jobAt64 orig p).burstTime = true
  arrived : ∀ p, p < orig.length → flagAt s.inQueue p = true →
    FloatVal.le (jobAt64 orig p).arrivalTime s.current_time = true
  done : ∀ p, p < orig.length → flagAt s.completedJobs p = true →
    (jobAt64 s.jobs p).remainingTime = FloatVal.num 0
    ∧ FloatVal.le (jobAt64 orig p).arrivalTime (jobAt64 s.jobs p).completionTime = true
    ∧ FloatVal.le (jobAt64 s.jobs p).completionTime s.current_time = true
    ∧ (jobAt64 s.jobs p).completionTime.NonNeg
    ∧ (jobAt64 s.jobs p).turnaroundTime
        = FloatVal.sub (jobAt64 s.jobs p).completionTime (jobAt64 orig p).arrivalTime
    ∧ (jobAt64 s.jobs p).waitingTime
        = FloatVal.sub (jobAt64 s.jobs p).turnaroundTime (jobAt64 orig p).burstTime

/-- The burst time `b` is within reach of the quantum `q`: at most `2 ^ 52` quanta, so that
taking a quantum off what remains of it is never absorbed by rounding. -/
def FloatVal.Reach : FloatVal → FloatVal → Prop
  | FloatVal.num b, FloatVal.num q => b ≤ 2 ^ 52 * q
  | FloatVal.num _, FloatVal.posInf => True
  | _, _ => False

instance (b q : FloatVal) : Decidable (FloatVal.Reach b q) := by
  cases b <;> cases q <;> unfold FloatVal.Reach <;> infer_instance

/-- Every burst time of the ledger is at most `2 ^ 52` times the quantum. -/
def BurstsReachable (jobs : List Job64) (timeSlice : Int) : Prop :=
  ∀ p, p < jobs.length → FloatVal.Reach (jobAt64 jobs p).burstTime (quantum64 timeSlice)

instance (jobs : List Job64) (timeSlice : Int) : Decidable (BurstsReachable jobs timeSlice) :=
  inferInstanceAs (Decidable (∀ p, p < jobs.length →
    FloatVal.Reach (jobAt64 jobs p).burstTime (quantum64 timeSlice)))

/-- The dispatches a Round-Robin run can still make for the job at position `p`: none if it
is completed, else one more than the number of units of `2 ^ (-1074)` in its remaining
time. -/
def rrPendingAt64 (s : RRState64) (p : Nat) : Nat :=
  if flagAt s.completedJobs p then 0 else 1 + unitsOf (jobAt64 s.jobs p).remainingTime

/-- An upper bound on the dispatches a Round-Robin run still has to make. -/
def rrPending64 (s : RRState64) : Nat :=
  Finset.sum (Finset.range s.jobs.length) (rrPendingAt64 s)

/-- A ledger of one job that arrives at 0 and needs 1 time unit, as `parseInputFile` reads
it. -/
def oneJob64 : List Job64 :=
  parseInputFile64 [(0, 1)]

/-- What `handleRoundRobin` returns on `oneJob64` with quantum 500 and overhead 5: two slices
of 0.5 with one context switch between them; the clock passes `0.5`, the sum of `0.5` and the
`double` nearest to 0.005 rounded to a multiple of `2 ^ (-53)`, and that plus `0.5` rounded to
a multiple of `2 ^ (-52)`, which is `1131529406376837 / 2 ^ 50`, about 1.005000000000000004. -/
def oneJobRR64 : RRResult64 :=
  { jobs := [⟨0, FloatVal.num 0, FloatVal.num 1, FloatVal.num 0,
      FloatVal.num (1131529406376837 / 1125899906842624),
      FloatVal.num (1131529406376837 / 1125899906842624),
      FloatVal.num (5629499534213 / 1125899906842624)⟩]
    totalSimulationTime := FloatVal.num (1131529406376837 / 1125899906842624)
    avgQueueLength := FloatVal.num 1
    maxQueueLength := 1 }

/-- A ledger of one job that arrives at 0 and needs `2 ^ 53` time units. -/
def hugeJob : List Job64 :=
  parseInputFile64 [(0, 2 ^ 53)]

/-- The states of `handleRoundRobin` on `hugeJob` from its second iteration on: the job is
queued, not completed, and has `2 ^ 53` left to run. -/
def HugeStuck (s : RRState64) : Prop :=
  s.jobs = hugeJob ∧ s.readyJobs = [0] ∧ s.completedJobs = [false] ∧ s.inQueue = [true]
    ∧ s.finished = false

/-- A ledger of one job that arrives at 1 and needs 0.45 time units, as `parseInputFile` reads
it: the burst time is the `double` nearest to 0.45. -/
def fracJob : List Job64 :=
  parseInputFile64 [(1, 45 / 100)]

/-- A ledger of one job that arrives at 0 with the `double` nearest to 0.45 as burst time. -/
def fracJobAtZero : List Job64 :=
  parseInputFile64 [(0, 45 / 100)]

/-- A job that arrives at 0 and needs 0.25 time units. -/
def quarterJob : Job64 :=
  ⟨0, FloatVal.num 0, FloatVal.num (1 / 4), FloatVal.num (1 / 4), FloatVal.num 0, FloatVal.num 0,
    FloatVal.num 0⟩

/-- What `performSJF` leaves of the ledger of `quarterJob`. -/
def quarterSJF : List Job64 :=
  [⟨0, FloatVal.num 0, FloatVal.num (1 / 4), FloatVal.num (1 / 4), FloatVal.num (1 / 4),
    FloatVal.num (1 / 4), FloatVal.num 0⟩]

/-- What `handleRoundRobin` returns on the ledger of `quarterJob` with quantum 500 and
overhead 5: the job runs in one slice. -/
def quarterRR : RRResult64 :=
  { jobs := [⟨0, FloatVal.num 0, FloatVal.num (1 / 4), FloatVal.num 0, FloatVal.num (1 / 4),
      FloatVal.num (1 / 4), FloatVal.num 0⟩]
    totalSimulationTime := FloatVal.num (1 / 4)
    avgQueueLength := FloatVal.num 1
    maxQueueLength := 1 }

/-- The ready queue as iteration `t` of the run started in `s0` has it after its admission
scan, when its length is sampled. -/
def rrQueueAt64 (timeSlice overheadTime : Int) (s0 : RRState64) (t : Nat) : List Nat :=
  (rrAdmitted64 (rrRun64 timeSlice overheadTime t s0)).1

/-- The sum of the queue lengths sampled by the first `c` iterations of the run started in
`s0`. -/
def rrSamples64 (timeSlice overheadTime : Int) (s0 : RRState64) (c : Nat) : Nat :=
  Finset.sum (Finset.range c) (fun t => (rrQueueAt64 timeSlice overheadTime s0 t).length)

/-- A ledger of one job that arrives at `2 ^ 31 = 2147483648` and needs 0.5 time units. -/
def wrapJob : List Job64 :=
  parseInputFile64 [(2147483648, 1 / 2)]

/-- The state of `handleRoundRobin` on `wrapJob` after `k` idle iterations: the clock is at
`k`, the queue is empty, the samples sum to 0, and the 32-bit counter holds `k` wrapped. -/
def wrapIdle (k : Nat) : RRState64 :=
  { jobs := wrapJob
    readyJobs := []
    current_time := FloatVal.num (k : ℚ)
    completedJobs := [false]
    inQueue := [false]
    queueLengthSum := FloatVal.num 0
    queueLengthCount := wrap32 (k : Int)
    maxQueueLength := 0
    finished := false }

/-- What `handleRoundRobin` returns on `wrapJob` with quantum 500 and no overhead, after
`2 ^ 31` idle iterations and one dispatch: the one sample of a non-empty queue is divided by
the counter, which has wrapped to `-2147483647`. -/
def wrapRR : RRResult64 :=
  { jobs := [⟨0, FloatVal.num 2147483648, FloatVal.num (1 / 2), FloatVal.num 0,
      FloatVal.num (4294967297 / 2), FloatVal.num (1 / 2), FloatVal.num 0⟩]
    totalSimulationTime := FloatVal.num (4294967297 / 2)
    avgQueueLength := FloatVal.num (-2147483649 / 4611686018427387904)
    maxQueueLength := 1 }

/-- A ledger of three jobs: two arrive at 0 and need 1 and 0.5 time units, the third arrives
at 2 and needs 0.25. -/
def trioJobs : List Job64 :=
  parseInputFile64 [(0, 1), (0, 1 / 2), (2, 1 / 4)]

/-- What `handleRoundRobin` returns on `trioJobs` with quantum 500 and no overhead: five
iterations sample the queue lengths 2, 2, 1, 0 and 1, and the average is the `double` nearest
to `6 / 5`. -/
def trioRR : RRResult64 :=
  { jobs := [⟨0, FloatVal.num 0, FloatVal.num 1, FloatVal.num 0, FloatVal.num (3 / 2),
        FloatVal.num (3 / 2), FloatVal.num (1 / 2)⟩,
      ⟨1, FloatVal.num 0, FloatVal.num (1 / 2), FloatVal.num 0, FloatVal.num 1,
        FloatVal.num 1, FloatVal.num (1 / 2)⟩,
      ⟨2, FloatVal.num 2, FloatVal.num (1 / 4), FloatVal.num 0, FloatVal.num (11 / 4),
        FloatVal.num (3 / 4), FloatVal.num (1 / 2)⟩]
    totalSimulationTime := FloatVal.num (11 / 4)
    avgQueueLength := FloatVal.num (5404319552844595 / 4503599627370496)
    maxQueueLength := 2 }

/-! ## SJF with a clock that jumps to the next arrival

The variant of `performSJF` that the specification allows in place of the one-unit stepping:
the same loop in the same arithmetic, except that an iteration that finds no job eligible sets
the clock to the earliest arrival time among the jobs not yet completed. -/

/-- The least element of a list of `double` values, if the list has any. -/
def earliest64 : List FloatVal → Option FloatVal
  | [] => none
  | a :: rest =>
    match earliest64 rest with
    | none => some a
    | some b => some (FloatVal.min a b)

/-- The positions of the jobs `performSJF` has not flagged completed. -/
def sjfUncompleted64 (s : SJFState64) : List Nat :=
  (List.range s.jobs.length).filter (fun p => !flagAt s.isCompleted (jobAt64 s.jobs p).id)

/-- The earliest arrival time among the jobs not yet completed (one unit after the current
clock when every job is completed). -/
def sjfNextArrival64 (s : SJFState64) : FloatVal :=
  match earliest64 ((sjfUncompleted64 s).map (fun p => (jobAt64 s.jobs p).arrivalTime)) with
  | some a => a
  | none => FloatVal.add s.current_time (FloatVal.num 1)

/-- One iteration of the jumping variant: what `sjfIter64` does, except that an idle iteration
leaves the clock at the next arrival instead of one unit later. -/
def sjfIterJump64 (s : SJFState64) : SJFEvent × SJFState64 :=
  match sjfIter64 s with
  | (SJFEvent.idle, s') => (SJFEvent.idle, { s' with current_time := sjfNextArrival64 s })
  | other => other

/-- The state after one iteration of the jumping variant. -/
def sjfStepJump64 (s : SJFState64) : SJFState64 :=
  (sjfIterJump64 s).2

/-- The state after `n` iterations of the jumping variant. -/
def sjfRunJump64 (n : Nat) (s : SJFState64) : SJFState64 :=
  sjfStepJump64^[n] s

/-- The events of the first `n` iterations of the jumping variant from `s`, up to the
`break`. -/
def sjfEventsJump64 : Nat → SJFState64 → List SJFEvent
  | 0, _ => []
  | n + 1, s =>
    if s.finished then [] else (sjfIterJump64 s).1 :: sjfEventsJump64 n (sjfStepJump64 s)

/-- The positions dispatched during the first `n` iterations of the jumping variant from `s`,
in order. -/
def sjfDispatchesJump64 (n : Nat) (s : SJFState64) : List Nat :=
  (sjfEventsJump64 n s).filterMap SJFEvent.job

/-- The jumping variant of `performSJF`, allowed `fuel` iterations of its loop. -/
def performSJFJump64 (fuel : Nat) (jobs : List Job64) : Option (List Job64) :=
  let s := sjfRunJump64 fuel (sjfInit64 jobs)
  if s.finished then some s.jobs else none

/-- A `double` value that is a whole number. -/
def FloatVal.IsWhole : FloatVal → Prop
  | FloatVal.num q => q.den = 1
  | _ => False

instance (v : FloatVal) : Decidable v.IsWhole := by
  cases v <;> unfold FloatVal.IsWhole <;> infer_instance

/-- Arrival and burst times are whole numbers. -/
def WholeTimes64 (jobs : List Job64) : Prop :=
  ∀ p, p < jobs.length →
    (jobAt64 jobs p).arrivalTime.IsWhole ∧ (jobAt64 jobs p).burstTime.IsWhole

instance (jobs : List Job64) : Decidable (WholeTimes64 jobs) :=
  inferInstanceAs (Decidable (∀ p, p < jobs.length →
    (jobAt64 jobs p).arrivalTime.IsWhole ∧ (jobAt64 jobs p).burstTime.IsWhole))

/-- A clock value that is a whole number, or is at least `2 ^ 53`. -/
def FloatVal.WholeOrLate : FloatVal → Prop
  | FloatVal.num q => q.den = 1 ∨ 2 ^ 53 ≤ q
  | FloatVal.posInf => True
  | _ => False

/-- The state of an idle stretch that began in `s`: nothing queued, the clock at `c`. -/
def sjfIdleAt64 (s : SJFState64) (c : FloatVal) : SJFState64 :=
  { jobs := s.jobs, jobQueue := [], isCompleted := s.isCompleted, current_time := c,
    finished := false }

/-- A ledger of one job that arrives at 0.5 and needs 1 time unit. -/
def halfJob64 : List Job64 :=
  parseInputFile64 [(1 / 2, 1)]

/-- What the jumping variant leaves of `stallJobs`: the first job completes at `2 ^ 53`, the
clock jumps to `2 ^ 53 + 4`, and the second job completes at the `double` nearest to
`2 ^ 53 + 5`, which is `2 ^ 53 + 4`. -/
def stallJump : List Job64 :=
  [⟨0, FloatVal.num 0, FloatVal.num (2 ^ 53), FloatVal.num (2 ^ 53), FloatVal.num (2 ^ 53),
      FloatVal.num (2 ^ 53), FloatVal.num 0⟩,
   ⟨1, FloatVal.num (2 ^ 53 + 4), FloatVal.num 1, FloatVal.num 1, FloatVal.num (2 ^ 53 + 4),
      FloatVal.num 0, FloatVal.num (-1)⟩]

/-- A ledger with whole-number times in which nothing has arrived at clock 0: jobs arriving at
3, 10 and 4 with bursts 2, 1 and 5. -/
def gapJobs64 : List Job64 :=
  parseInputFile64 [(3, 2), (10, 1), (4, 5)]

/-- What `performSJF` leaves of `gapJobs64`: the jobs complete at 5, 11 and 10. -/
def gapSJF64 : List Job64 :=
  [⟨0, FloatVal.num 3, FloatVal.num 2, FloatVal.num 2, FloatVal.num 5, FloatVal.num 2,
      FloatVal.num 0⟩,
   ⟨1, FloatVal.num 10, FloatVal.num 1, FloatVal.num 1, FloatVal.num 11, FloatVal.num 1,
      FloatVal.num 0⟩,
   ⟨2, FloatVal.num 4, FloatVal.num 5, FloatVal.num 5, FloatVal.num 10, FloatVal.num 6,
      FloatVal.num 1⟩]

/-! ## Lemmas on the data model -/

theorem jobAt_cons_zero (j : Job) (js : List Job) : jobAt (j :: js) 0 = j := rfl

theorem jobAt_cons_succ (j : Job) (js : List Job) (i : Nat) :
    jobAt (j :: js) (i + 1) = jobAt js i := rfl

theorem jobAt_set_self {jobs : List Job} {p : Nat} (h : p < jobs.length) (j : Job) :
    jobAt (jobs.set p j) p = j := by
  simp [jobAt, List.getD_eq_getElem, h]

theorem jobAt_set_ne {jobs : List Job} {p i : Nat} (h : p ≠ i) (j : Job) :
    jobAt (jobs.set p j) i = jobAt jobs i := by
  simp [jobAt, List.getD_eq_getElem?_getD, List.getElem?_set_ne h]

/-! ## FCFS: lemmas -/

theorem fcfsLoop_length (c : ℚ) (jobs : List Job) : (fcfsLoop c jobs).length = jobs.length := by
  induction jobs generalizing c with
  | nil => rfl
  | cons j js ih => simp [fcfsLoop, ih]

theorem fcfsLoop_head (c : ℚ) (j : Job) (js : List Job) :
    (jobAt (fcfsLoop c (j :: js)) 0).completionTime = max c j.arrivalTime + j.burstTime := by
  simp only [fcfsLoop, jobAt_cons_zero]
  by_cases h : c < j.arrivalTime
  · simp [h, max_eq_right h.le]
  · simp [h, max_eq_left (not_lt.mp h)]

/-- The recurrence of the FCFS loop started at clock `c`: the job at position `i` completes at
`max previous arrival + burst`, the previous completion being `c` for the first job. -/
theorem fcfsLoop_completion (jobs : List Job) : ∀ (c : ℚ) (i : Nat), i < jobs.length →
    (jobAt (fcfsLoop c jobs) i).completionTime
      = max (if i = 0 then c else (jobAt (fcfsLoop c jobs) (i - 1)).completionTime)
          (jobAt jobs i).arrivalTime + (jobAt jobs i).burstTime := by
  induction jobs with
  | nil => intro c i h; simp at h
  | cons j js ih =>
    intro c i h
    cases i with
    | zero => simpa using fcfsLoop_head c j js
    | succ k =>
      have hk : k < js.length := by simpa using h
      have step : fcfsLoop c (j :: js)
          = (jobAt (fcfsLoop c (j :: js)) 0) :: fcfsLoop ((jobAt (fcfsLoop c (j :: js)) 0).completionTime) js := by
        simp [fcfsLoop, jobAt_cons_zero]
      rw [step, jobAt_cons_succ, jobAt_cons_succ, ih _ k hk]
      cases k with
      | zero => simp [jobAt_cons_zero]
      | succ m => simp [jobAt_cons_succ]

/-- The derived fields FCFS leaves at every position, and the input fields it keeps. -/
theorem fcfsLoop_fields (jobs : List Job) : ∀ (c : ℚ) (i : Nat), i < jobs.length →
    (jobAt (fcfsLoop c jobs) i).turnaroundTime
        = (jobAt (fcfsLoop c jobs) i).completionTime - (jobAt jobs i).arrivalTime
      ∧ (jobAt (fcfsLoop c jobs) i).waitingTime
        = (jobAt (fcfsLoop c jobs) i).turnaroundTime - (jobAt jobs i).burstTime
      ∧ (jobAt (fcfsLoop c jobs) i).arrivalTime = (jobAt jobs i).arrivalTime
      ∧ (jobAt (fcfsLoop c jobs) i).burstTime = (jobAt jobs i).burstTime
      ∧ (jobAt (fcfsLoop c jobs) i).id = (jobAt jobs i).id := by
  induction jobs with
  | nil => intro c i h; simp at h
  | cons j js ih =>
    intro c i h
    cases i with
    | zero => simp [fcfsLoop, jobAt_cons_zero]
    | succ k =>
      have hk : k < js.length := by simpa using h
      simpa [fcfsLoop, jobAt_cons_succ] using ih _ k hk

/-! ## Metrics: lemmas -/

theorem sumTimes_eq (jobs : List Job) : ∀ (totals : ℚ × ℚ),
    sumTimes jobs totals
      = (totals.1 + (jobs.map (fun j => j.waitingTime)).sum,
         totals.2 + (jobs.map (fun j => j.turnaroundTime)).sum) := by
  induction jobs with
  | nil => intro totals; simp [sumTimes]
  | cons j js ih => intro totals; cases totals; simp [sumTimes, ih, add_assoc]

/-! ## Flags: lemmas -/

theorem flagAt_set (flags : List Bool) (i j : Nat) :
    flagAt (flags.set i true) j
      = if i = j ∧ i < flags.length then true else flagAt flags j := by
  unfold flagAt
  rw [List.getD_eq_getElem?_getD, List.getD_eq_getElem?_getD, List.getElem?_set]
  by_cases h : i = j
  · by_cases h2 : i < flags.length
    · subst h
      simp [h2]
    · subst h
      have h3 : flags.length ≤ i := not_lt.mp h2
      simp [h2, List.getElem?_eq_none h3]
  · simp [h]

theorem flagAt_set_self {flags : List Bool} {i : Nat} (h : i < flags.length) :
    flagAt (flags.set i true) i = true := by
  simp [flagAt_set, h]

theorem flagAt_set_ne {flags : List Bool} {i j : Nat} (h : i ≠ j) :
    flagAt (flags.set i true) j = flagAt flags j := by
  simp [flagAt_set, h]

theorem flagAt_of_lt {flags : List Bool} {i : Nat} (h : i < flags.length) :
    flagAt flags i = flags.get ⟨i, h⟩ := by
  simp [flagAt, List.getD_eq_getElem, h]

theorem flagAt_replicate (n i : Nat) : flagAt (List.replicate n false) i = false := by
  unfold flagAt
  rw [List.getD_eq_getElem?_getD, List.getElem?_replicate]
  by_cases h : i < n <;> simp [h]

theorem allSet_iff (flags : List Bool) :
    allSet flags = true ↔ ∀ i, i < flags.length → flagAt flags i = true := by
  unfold allSet
  rw [List.all_eq_true]
  constructor
  · intro h i hi
    rw [flagAt_of_lt hi]
    exact h _ (List.get_mem flags i hi)
  · intro h x hx
    obtain ⟨i, hi, rfl⟩ := List.mem_iff_getElem.mp hx
    have := h i hi
    rw [flagAt_of_lt hi] at this
    exact this

theorem allSet_replicate_false {n : Nat} (h : 0 < n) : allSet (List.replicate n false) = false := by
  cases hc : allSet (List.replicate n false) with
  | false => rfl
  | true =>
    have := (allSet_iff _).mp hc 0 (by simpa using h)
    rw [flagAt_replicate] at this
    exact absurd this (by decide)

/-! ## SJF: lemmas -/

theorem sjfIter_idle {s : SJFState} (hf : s.finished = false)
    (htop : pqTop s.jobs (sjfAdmit s) = none) :
    sjfIter s = (SJFEvent.idle,
      { s with jobQueue := sjfAdmit s, current_time := s.current_time + 1 }) := by
  simp [sjfIter, hf, htop]

theorem rrAdmit_length (jobs : List Job) (c : List Bool) (t : ℚ) :
    ∀ (ps q : List Nat) (inq : List Bool),
      (rrAdmit jobs c t ps (q, inq)).2.length = inq.length := by
  intro ps
  induction ps with
  | nil => intro q inq; rfl
  | cons p ps ih =>
    intro q inq
    simp only [rrAdmit]
    split
    · rw [ih]; simp
    · rw [ih]

theorem rrEligible_congr {jobs : List Job} {c inq inq' : List Bool} {t : ℚ} {p : Nat}
    (h : flagAt inq' (jobAt jobs p).id = flagAt inq (jobAt jobs p).id) :
    rrEligible jobs c inq' t p = rrEligible jobs c inq t p := by
  simp [rrEligible, h]

/-- With ids equal to positions, the admission scan appends to the queue exactly the scanned
positions that pass the admission test on entry to the scan. -/
theorem rrAdmit_queue (jobs : List Job) (c : List Bool) (t : ℚ) :
    ∀ (ps q : List Nat) (inq : List Bool), ps.Nodup → (∀ p ∈ ps, (jobAt jobs p).id = p) →
      (rrAdmit jobs c t ps (q, inq)).1 = q ++ ps.filter (rrEligible jobs c inq t) := by
  intro ps
  induction ps with
  | nil => intro q inq _ _; simp [rrAdmit]
  | cons p ps ih =>
    intro q inq hnd hid
    have hnd' : ps.Nodup := (List.nodup_cons.mp hnd).2
    have hp : p ∉ ps := (List.nodup_cons.mp hnd).1
    have hid' : ∀ x ∈ ps, (jobAt jobs x).id = x := fun x hx => hid x (List.mem_cons_of_mem _ hx)
    simp only [rrAdmit]
    by_cases he : rrEligible jobs c inq t p = true
    · simp only [he, if_true, List.filter_cons_of_pos]
      rw [ih _ _ hnd' hid', List.append_assoc]
      congr 1
      simp only [List.singleton_append]
      congr 1
      apply List.filter_congr
      intro x hx
      apply rrEligible_congr
      rw [hid' x hx, hid p (List.mem_cons_self _ _)]
      exact flagAt_set_ne (fun h => hp (h ▸ hx))
    · simp only [he, Bool.false_eq_true, if_false]
      rw [ih _ _ hnd' hid']
      simp [he]

/-- With ids equal to positions, the admission scan flags exactly the positions it pushes. -/
theorem rrAdmit_flag (jobs : List Job) (c : List Bool) (t : ℚ) :
    ∀ (ps q : List Nat) (inq : List Bool), ps.Nodup → (∀ p ∈ ps, (jobAt jobs p).id = p) →
      (∀ p ∈ ps, p < inq.length) → ∀ i,
      (flagAt (rrAdmit jobs c t ps (q, inq)).2 i = true
        ↔ flagAt inq i = true ∨ i ∈ ps.filter (rrEligible jobs c inq t)) := by
  intro ps
  induction ps with
  | nil => intro q inq _ _ _ i; simp [rrAdmit]
  | cons p ps ih =>
    intro q inq hnd hid hlt i
    have hnd' : ps.Nodup := (List.nodup_cons.mp hnd).2
    have hp : p ∉ ps := (List.nodup_cons.mp hnd).1
    have hid' : ∀ x ∈ ps, (jobAt jobs x).id = x := fun x hx => hid x (List.mem_cons_of_mem _ hx)
    have hidp : (jobAt jobs p).id = p := hid p (List.mem_cons_self _ _)
    have hpl : p < inq.length := hlt p (List.mem_cons_self _ _)
    simp only [rrAdmit]
    by_cases he : rrEligible jobs c inq t p = true
    · simp only [he, if_true, List.filter_cons_of_pos]
      have hlt' : ∀ x ∈ ps, x < (inq.set (jobAt jobs p).id true).length := by
        intro x hx
        rw [List.length_set]
        exact hlt x (List.mem_cons_of_mem _ hx)
      rw [ih _ _ hnd' hid' hlt' i]
      have hfilt : ps.filter (rrEligible jobs c (inq.set (jobAt jobs p).id true) t)
          = ps.filter (rrEligible jobs c inq t) := by
        apply List.filter_congr
        intro x hx
        apply rrEligible_congr
        rw [hid' x hx, hidp]
        exact flagAt_set_ne (fun h => hp (h ▸ hx))
      rw [hfilt, hidp, flagAt_set]
      by_cases hpi : p = i
      · subst hpi
        simp [hpl]
      · simp [hpi, Ne.symm hpi]
    · simp only [he, Bool.false_eq_true, if_false]
      rw [ih _ _ hnd' hid' (fun x hx => hlt x (List.mem_cons_of_mem _ hx)) i]
      simp [he]

/-! ## Round-Robin: one iteration -/

theorem rrIter_finished (timeSlice overheadTime : Int) {s : RRState} (hf : s.finished = true) :
    rrIter timeSlice overheadTime s = (RREvent.halted, s) := by
  simp [rrIter, hf]

theorem rrIter_idle (timeSlice overheadTime : Int) {s : RRState} (hf : s.finished = false)
    (hq : (rrAdmitted s).1 = []) :
    rrIter timeSlice overheadTime s = (RREvent.idle,
      { s with
          readyJobs := []
          inQueue := (rrAdmitted s).2
          current_time := s.current_time + 1
          queueLengthSum := s.queueLengthSum + (((rrAdmitted s).1.length : Nat) : ℚ)
          queueLengthCount := s.queueLengthCount + 1
          maxQueueLength := max s.maxQueueLength (((rrAdmitted s).1.length : Nat) : Int) }) := by
  simp only [rrIter, hf, Bool.false_eq_true, if_false]
  rw [hq]

theorem rrIter_final (timeSlice overheadTime : Int) {s : RRState} (hf : s.finished = false)
    {p : Nat} {rest : List Nat} (hq : (rrAdmitted s).1 = p :: rest)
    (hr : (jobAt s.jobs p).remainingTime
      - min ((timeSlice : ℚ) / 1000) (jobAt s.jobs p).remainingTime ≤ 0) :
    rrIter timeSlice overheadTime s = (RREvent.finalSlice p,
      { jobs := s.jobs.set p { jobAt s.jobs p with
            remainingTime := (jobAt s.jobs p).remainingTime
              - min ((timeSlice : ℚ) / 1000) (jobAt s.jobs p).remainingTime
            completionTime := s.current_time
              + min ((timeSlice : ℚ) / 1000) (jobAt s.jobs p).remainingTime
            turnaroundTime := s.current_time
              + min ((timeSlice : ℚ) / 1000) (jobAt s.jobs p).remainingTime
              - (jobAt s.jobs p).arrivalTime
            waitingTime := s.current_time
              + min ((timeSlice : ℚ) / 1000) (jobAt s.jobs p).remainingTime
              - (jobAt s.jobs p).arrivalTime - (jobAt s.jobs p).burstTime }
        readyJobs := rest
        current_time := s.current_time
          + min ((timeSlice : ℚ) / 1000) (jobAt s.jobs p).remainingTime
        completedJobs := s.completedJobs.set (jobAt s.jobs p).id true
        inQueue := (rrAdmitted s).2
        queueLengthSum := s.queueLengthSum + (((rrAdmitted s).1.length : Nat) : ℚ)
        queueLengthCount := s.queueLengthCount + 1
        maxQueueLength := max s.maxQueueLength (((rrAdmitted s).1.length : Nat) : Int)
        finished := allSet (s.completedJobs.set (jobAt s.jobs p).id true) }) := by
  simp only [rrIter, hf, Bool.false_eq_true, if_false]
  rw [hq]
  simp only [hr, if_true]

theorem rrIter_preempt (timeSlice overheadTime : Int) {s : RRState} (hf : s.finished = false)
    {p : Nat} {rest : List Nat} (hq : (rrAdmitted s).1 = p :: rest)
    (hr : ¬ (jobAt s.jobs p).remainingTime
      - min ((timeSlice : ℚ) / 1000) (jobAt s.jobs p).remainingTime ≤ 0) :
    rrIter timeSlice overheadTime s = (RREvent.preempted p,
      { jobs := s.jobs.set p { jobAt s.jobs p with
            remainingTime := (jobAt s.jobs p).remainingTime
              - min ((timeSlice : ℚ) / 1000) (jobAt s.jobs p).remainingTime }
        readyJobs := rest ++ [p]
        current_time := s.current_time
          + min ((timeSlice : ℚ) / 1000) (jobAt s.jobs p).remainingTime
          + (overheadTime : ℚ) / 1000
        completedJobs := s.completedJobs
        inQueue := (rrAdmitted s).2
        queueLengthSum := s.queueLengthSum + (((rrAdmitted s).1.length : Nat) : ℚ)
        queueLengthCount := s.queueLengthCount + 1
        maxQueueLength := max s.maxQueueLength (((rrAdmitted s).1.length : Nat) : Int)
        finished := allSet s.completedJobs }) := by
  simp only [rrIter, hf, Bool.false_eq_true, if_false]
  rw [hq]
  simp only [hr, if_false]

theorem rrCase (timeSlice : Int) (s : RRState) : RRCase timeSlice s := by
  cases hf : s.finished with
  | true => exact RRCase.finished hf
  | false =>
    cases hq : (rrAdmitted s).1 with
    | nil => exact RRCase.idle hf hq
    | cons p rest =>
      by_cases hr : (jobAt s.jobs p).remainingTime
          - min ((timeSlice : ℚ) / 1000) (jobAt s.jobs p).remainingTime ≤ 0
      · exact RRCase.final hf p rest hq hr
      · exact RRCase.preempt hf p rest hq hr

/-! ## Round-Robin: the bookkeeping invariant -/

theorem rrInv_init (orig : List Job) (m : Int) : RRInv orig (rrInit orig m) where
  len := rfl
  clen := by simp [rrInit]
  qlen := by simp [rrInit]
  same := by intro p _; simp [rrInit]
  queue := by simp [rrInit]
  nodup := by simp [rrInit]
  queued := by
    intro p _ h
    simp [rrInit, flagAt_replicate] at h
  doneq := by
    intro p _ h
    simp [rrInit, flagAt_replicate] at h
  derived := by
    intro p _ h
    simp [rrInit, flagAt_replicate] at h
  fin := by simp [rrInit]

theorem rrInv_ids {orig : List Job} (hid : IdIsPosition orig) {s : RRState}
    (inv : RRInv orig s) : ∀ p ∈ List.range s.jobs.length, (jobAt s.jobs p).id = p := by
  intro p hp
  rw [List.mem_range, inv.len] at hp
  rw [(inv.same p hp).1]
  exact hid p hp

theorem rrAdmitted_queue {orig : List Job} (hid : IdIsPosition orig) {s : RRState}
    (inv : RRInv orig s) : (rrAdmitted s).1 = s.readyJobs ++ rrNew s := by
  unfold rrAdmitted rrNew
  exact rrAdmit_queue _ _ _ _ _ _ (List.nodup_range _) (rrInv_ids hid inv)

theorem rrAdmitted_flag {orig : List Job} (hid : IdIsPosition orig) {s : RRState}
    (inv : RRInv orig s) (i : Nat) :
    flagAt (rrAdmitted s).2 i = true ↔ flagAt s.inQueue i = true ∨ i ∈ rrNew s := by
  unfold rrAdmitted rrNew
  refine rrAdmit_flag _ _ _ _ _ _ (List.nodup_range _) (rrInv_ids hid inv) ?_ i
  intro p hp
  rw [List.mem_range] at hp
  rw [inv.qlen, ← inv.len]
  exact hp

theorem mem_rrNew {orig : List Job} (hid : IdIsPosition orig) {s : RRState}
    (inv : RRInv orig s) (i : Nat) :
    i ∈ rrNew s ↔ i < orig.length ∧ flagAt s.completedJobs i = false
      ∧ flagAt s.inQueue i = false ∧ (jobAt orig i).arrivalTime ≤ s.current_time := by
  unfold rrNew
  rw [List.mem_filter, List.mem_range, inv.len]
  constructor
  · rintro ⟨hi, he⟩
    have hidi : (jobAt s.jobs i).id = i := by rw [(inv.same i hi).1]; exact hid i hi
    simp only [rrEligible, hidi, (inv.same i hi).2.1, Bool.and_eq_true, Bool.not_eq_true',
      decide_eq_true_eq] at he
    exact ⟨hi, he.1.1, he.1.2, he.2⟩
  · rintro ⟨hi, hc, hq, ha⟩
    have hidi : (jobAt s.jobs i).id = i := by rw [(inv.same i hi).1]; exact hid i hi
    refine ⟨hi, ?_⟩
    simp [rrEligible, hidi, (inv.same i hi).2.1, hc, hq, ha]

/-- The invariant holds of the state in the middle of an iteration, after the admission scan. -/
theorem rrInv_admitted {orig : List Job} (hid : IdIsPosition orig) {s : RRState}
    (inv : RRInv orig s) :
    RRInv orig { s with readyJobs := (rrAdmitted s).1, inQueue := (rrAdmitted s).2 } where
  len := inv.len
  clen := inv.clen
  qlen := by
    show (rrAdmitted s).2.length = orig.length
    unfold rrAdmitted
    rw [rrAdmit_length, inv.qlen]
  same := inv.same
  queue := by
    intro p hp
    show p < orig.length ∧ flagAt (rrAdmitted s).2 p = true ∧ flagAt s.completedJobs p = false
    have hp' : p ∈ s.readyJobs ++ rrNew s := by
      rw [← rrAdmitted_queue hid inv]; exact hp
    rw [rrAdmitted_flag hid inv]
    rcases List.mem_append.mp hp' with h | h
    · exact ⟨(inv.queue p h).1, Or.inl (inv.queue p h).2.1, (inv.queue p h).2.2⟩
    · have := (mem_rrNew hid inv p).mp h
      exact ⟨this.1, Or.inr h, this.2.1⟩
  nodup := by
    show (rrAdmitted s).1.Nodup
    rw [rrAdmitted_queue hid inv, List.nodup_append]
    refine ⟨inv.nodup, (List.nodup_range _).filter _, ?_⟩
    intro x hx hx'
    have h1 := (inv.queue x hx).2.1
    have h2 := ((mem_rrNew hid inv x).mp hx').2.2.1
    rw [h1] at h2
    exact absurd h2 (by decide)
  queued := by
    intro p hp hq hc
    show p ∈ (rrAdmitted s).1
    have hq' : flagAt (rrAdmitted s).2 p = true := hq
    rw [rrAdmitted_queue hid inv]
    rcases (rrAdmitted_flag hid inv p).mp hq' with h | h
    · exact List.mem_append_left _ (inv.queued p hp h hc)
    · exact List.mem_append_right _ h
  doneq := by
    intro p hp hc
    show flagAt (rrAdmitted s).2 p = true
    rw [rrAdmitted_flag hid inv]
    exact Or.inl (inv.doneq p hp hc)
  derived := inv.derived
  fin := inv.fin

theorem rrInv_step {orig : List Job} (hid : IdIsPosition orig) (timeSlice overheadTime : Int)
    {s : RRState} (inv : RRInv orig s) : RRInv orig (rrStep timeSlice overheadTime s) := by
  have mid := rrInv_admitted hid inv
  unfold rrStep
  rcases rrCase timeSlice s with hf | ⟨hf, hq⟩ | ⟨hf, p, rest, hq, hr⟩ | ⟨hf, p, rest, hq, hr⟩
  · rw [rrIter_finished _ _ hf]; exact inv
  · rw [rrIter_idle _ _ hf hq]
    exact
      { len := mid.len
        clen := mid.clen
        qlen := mid.qlen
        same := mid.same
        queue := by intro p hp; simp at hp
        nodup := List.nodup_nil
        queued := by
          intro p hp h1 h2
          have := mid.queued p hp h1 h2
          simp only [hq] at this
          exact this
        doneq := mid.doneq
        derived := mid.derived
        fin := by intro h; simp [hf] at h }
  · rw [rrIter_final _ _ hf hq hr]
    have hmem : p ∈ (rrAdmitted s).1 := by rw [hq]; exact List.mem_cons_self _ _
    have hp := mid.queue p hmem
    have hps : p < s.jobs.length := by rw [inv.len]; exact hp.1
    have hidp : (jobAt s.jobs p).id = p := by rw [(inv.same p hp.1).1]; exact hid p hp.1
    have hnd : (p :: rest).Nodup := by rw [← hq]; exact mid.nodup
    refine
      { len := by simp [inv.len]
        clen := by simp [inv.clen]
        qlen := mid.qlen
        same := ?_
        queue := ?_
        nodup := (List.nodup_cons.mp hnd).2
        queued := ?_
        doneq := ?_
        derived := ?_
        fin := fun h => h }
    · intro i hi
      by_cases hpi : p = i
      · subst hpi
        simp only [jobAt_set_self hps]
        exact inv.same p hi
      · simp only [jobAt_set_ne hpi]
        exact inv.same i hi
    · intro x hx
      have hx' : x ∈ (rrAdmitted s).1 := by rw [hq]; exact List.mem_cons_of_mem _ hx
      have hne : p ≠ x := fun h => (List.nodup_cons.mp hnd).1 (h ▸ hx)
      have := mid.queue x hx'
      refine ⟨this.1, this.2.1, ?_⟩
      simp only [hidp, flagAt_set_ne hne]
      exact this.2.2
    · intro x hx h1 h2
      simp only [hidp] at h2
      have hne : p ≠ x := by
        intro h
        subst h
        rw [flagAt_set_self (by rw [inv.clen]; exact hx)] at h2
        exact absurd h2 (by decide)
      rw [flagAt_set_ne hne] at h2
      have := mid.queued x hx h1 h2
      simp only [hq, List.mem_cons] at this
      rcases this with h | h
      · exact absurd h.symm hne
      · exact h
    · intro x hx h1
      simp only [hidp] at h1
      by_cases hpx : p = x
      · subst hpx
        exact hp.2.1
      · rw [flagAt_set_ne hpx] at h1
        exact mid.doneq x hx h1
    · intro x hx h1
      simp only [hidp] at h1
      by_cases hpx : p = x
      · subst hpx
        simp only [jobAt_set_self hps]
        rw [(inv.same p hx).2.1, (inv.same p hx).2.2]
        exact ⟨rfl, rfl⟩
      · rw [flagAt_set_ne hpx] at h1
        simp only [jobAt_set_ne hpx]
        exact inv.derived x hx h1
  · rw [rrIter_preempt _ _ hf hq hr]
    have hmem : p ∈ (rrAdmitted s).1 := by rw [hq]; exact List.mem_cons_self _ _
    have hp := mid.queue p hmem
    have hps : p < s.jobs.length := by rw [inv.len]; exact hp.1
    have hnd : (p :: rest).Nodup := by rw [← hq]; exact mid.nodup
    have hperm : ∀ x, x ∈ rest ++ [p] ↔ x ∈ (rrAdmitted s).1 := by
      intro x
      rw [hq]
      simp [or_comm]
    refine
      { len := by simp [inv.len]
        clen := inv.clen
        qlen := mid.qlen
        same := ?_
        queue := fun x hx => mid.queue x ((hperm x).mp hx)
        nodup := ?_
        queued := fun x hx h1 h2 => (hperm x).mpr (mid.queued x hx h1 h2)
        doneq := mid.doneq
        derived := ?_
        fin := by
          intro h
          exact h }
    · intro i hi
      by_cases hpi : p = i
      · subst hpi
        simp only [jobAt_set_self hps]
        exact inv.same p hi
      · simp only [jobAt_set_ne hpi]
        exact inv.same i hi
    · rw [List.nodup_append]
      refine ⟨(List.nodup_cons.mp hnd).2, List.nodup_singleton p, ?_⟩
      intro x hx hx'
      rw [List.mem_singleton] at hx'
      subst hx'
      exact (List.nodup_cons.mp hnd).1 hx
    · intro x hx h1
      have h1' : flagAt s.completedJobs x = true := h1
      by_cases hpx : p = x
      · subst hpx
        rw [hp.2.2] at h1'
        exact absurd h1' (by decide)
      · simp only [jobAt_set_ne hpx]
        exact inv.derived x hx h1'

theorem rrInv_run {orig : List Job} (hid : IdIsPosition orig) (timeSlice overheadTime : Int)
    (m : Int) (n : Nat) : RRInv orig (rrRun timeSlice overheadTime n (rrInit orig m)) := by
  induction n with
  | zero => exact rrInv_init orig m
  | succ k ih =>
    unfold rrRun at ih ⊢
    rw [Function.iterate_succ_apply']
    exact rrInv_step hid _ _ ih

/-! ## Round-Robin: remaining time and clock -/

theorem slice_nonneg {timeSlice : Int} (hq : 0 ≤ timeSlice) {r : ℚ} (hr : 0 ≤ r) :
    0 ≤ min ((timeSlice : ℚ) / 1000) r := by
  apply le_min _ hr
  have : (0 : ℚ) ≤ (timeSlice : ℚ) := by exact_mod_cast hq
  positivity

/-- How one iteration changes the remaining times and the completion flags. -/
theorem rrStep_remaining {orig : List Job} (hid : IdIsPosition orig) {timeSlice : Int}
    (hq : 0 ≤ timeSlice) (overheadTime : Int) {s : RRState} (inv : RRInv orig s)
    (rem : RRRem orig s) (p : Nat) (hp : p < orig.length) :
    0 ≤ (jobAt (rrStep timeSlice overheadTime s).jobs p).remainingTime
    ∧ (jobAt (rrStep timeSlice overheadTime s).jobs p).remainingTime
        ≤ (jobAt s.jobs p).remainingTime
    ∧ (flagAt (rrStep timeSlice overheadTime s).completedJobs p = true →
        (jobAt (rrStep timeSlice overheadTime s).jobs p).remainingTime = 0)
    ∧ (flagAt s.completedJobs p = true →
        flagAt (rrStep timeSlice overheadTime s).completedJobs p = true) := by
  have mid := rrInv_admitted hid inv
  unfold rrStep
  rcases rrCase timeSlice s with hf | ⟨hf, hq'⟩ | ⟨hf, x, rest, hq', hr⟩ | ⟨hf, x, rest, hq', hr⟩
  · rw [rrIter_finished _ _ hf]
    exact ⟨rem.nonneg p hp, le_refl _, rem.done p hp, fun h => h⟩
  · rw [rrIter_idle _ _ hf hq']
    exact ⟨rem.nonneg p hp, le_refl _, rem.done p hp, fun h => h⟩
  · rw [rrIter_final _ _ hf hq' hr]
    have hx := mid.queue x (by show x ∈ (rrAdmitted s).1; rw [hq']; exact List.mem_cons_self _ _)
    have hxs : x < s.jobs.length := by rw [inv.len]; exact hx.1
    have hidx : (jobAt s.jobs x).id = x := by rw [(inv.same x hx.1).1]; exact hid x hx.1
    have hsl := slice_nonneg hq (rem.nonneg x hx.1)
    have hle : min ((timeSlice : ℚ) / 1000) (jobAt s.jobs x).remainingTime
        ≤ (jobAt s.jobs x).remainingTime := min_le_right _ _
    by_cases hxp : x = p
    · subst hxp
      simp only [jobAt_set_self hxs, hidx, flagAt_set_self (by rw [inv.clen]; exact hp)]
      refine ⟨by linarith, by linarith, fun _ => by linarith, fun _ => trivial⟩
    · simp only [jobAt_set_ne hxp, hidx, flagAt_set_ne hxp]
      exact ⟨rem.nonneg p hp, le_refl _, rem.done p hp, fun h => h⟩
  · rw [rrIter_preempt _ _ hf hq' hr]
    have hx := mid.queue x (by show x ∈ (rrAdmitted s).1; rw [hq']; exact List.mem_cons_self _ _)
    have hxs : x < s.jobs.length := by rw [inv.len]; exact hx.1
    have hsl := slice_nonneg hq (rem.nonneg x hx.1)
    have hle : min ((timeSlice : ℚ) / 1000) (jobAt s.jobs x).remainingTime
        ≤ (jobAt s.jobs x).remainingTime := min_le_right _ _
    by_cases hxp : x = p
    · subst hxp
      simp only [jobAt_set_self hxs]
      refine ⟨by linarith, by linarith, ?_, fun h => h⟩
      intro h
      have h' : flagAt s.completedJobs x = true := h
      rw [hx.2.2] at h'
      exact absurd h' (by decide)
    · simp only [jobAt_set_ne hxp]
      exact ⟨rem.nonneg p hp, le_refl _, rem.done p hp, fun h => h⟩

theorem rrRem_init {orig : List Job} (hnn : NonNegTimes orig) (hfresh : Fresh orig) (m : Int) :
    RRRem orig (rrInit orig m) where
  nonneg := by
    intro p hp
    show 0 ≤ (jobAt orig p).remainingTime
    rw [hfresh p hp]
    exact (hnn p hp).2
  done := by
    intro p _ h
    simp [rrInit, flagAt_replicate] at h

theorem rrRem_step {orig : List Job} (hid : IdIsPosition orig) {timeSlice : Int}
    (hq : 0 ≤ timeSlice) (overheadTime : Int) {s : RRState} (inv : RRInv orig s)
    (rem : RRRem orig s) : RRRem orig (rrStep timeSlice overheadTime s) where
  nonneg := fun p hp => (rrStep_remaining hid hq overheadTime inv rem p hp).1
  done := fun p hp => (rrStep_remaining hid hq overheadTime inv rem p hp).2.2.1

theorem rrRem_run {orig : List Job} (hid : IdIsPosition orig) (hnn : NonNegTimes orig)
    (hfresh : Fresh orig) {timeSlice : Int} (hq : 0 ≤ timeSlice) (overheadTime : Int) (m : Int)
    (n : Nat) : RRRem orig (rrRun timeSlice overheadTime n (rrInit orig m)) := by
  induction n with
  | zero => exact rrRem_init hnn hfresh m
  | succ k ih =>
    have inv := rrInv_run hid timeSlice overheadTime m k
    unfold rrRun at ih inv ⊢
    rw [Function.iterate_succ_apply']
    exact rrRem_step hid hq overheadTime inv ih

/-- When `handleRoundRobin` returns, every job has its input fields unchanged and its derived
fields set from its completion time. -/
theorem handleRoundRobin_fields {orig : List Job} (hid : IdIsPosition orig) {fuel : Nat}
    {timeSlice overheadTime m : Int} {r : RRResult}
    (h : handleRoundRobin fuel orig timeSlice overheadTime m = some r) :
    r.jobs.length = orig.length ∧ ∀ p, p < orig.length →
      (jobAt r.jobs p).arrivalTime = (jobAt orig p).arrivalTime
      ∧ (jobAt r.jobs p).burstTime = (jobAt orig p).burstTime
      ∧ (jobAt r.jobs p).turnaroundTime
          = (jobAt r.jobs p).completionTime - (jobAt orig p).arrivalTime
      ∧ (jobAt r.jobs p).waitingTime
          = (jobAt r.jobs p).turnaroundTime - (jobAt orig p).burstTime := by
  have inv := rrInv_run hid timeSlice overheadTime m fuel
  unfold handleRoundRobin at h
  by_cases hf : (rrRun timeSlice overheadTime fuel (rrInit orig m)).finished = true
  · simp only [hf, if_true, Option.some.injEq] at h
    subst h
    refine ⟨inv.len, fun p hp => ?_⟩
    have hall := (allSet_iff _).mp (inv.fin hf) p (by rw [inv.clen]; exact hp)
    exact ⟨(inv.same p hp).2.1, (inv.same p hp).2.2, inv.derived p hp hall⟩
  · simp [hf] at h

/-! ## Round-Robin: accounting of the clock -/

theorem rrStep_of_finished (timeSlice overheadTime : Int) {s : RRState}
    (hf : s.finished = true) : rrStep timeSlice overheadTime s = s := by
  unfold rrStep
  rw [rrIter_finished _ _ hf]

theorem rrRun_of_finished (timeSlice overheadTime : Int) (n : Nat) {s : RRState}
    (hf : s.finished = true) : rrRun timeSlice overheadTime n s = s := by
  unfold rrRun
  exact Function.iterate_fixed (rrStep_of_finished _ _ hf) n

theorem rrRun_succ (timeSlice overheadTime : Int) (n : Nat) (s : RRState) :
    rrRun timeSlice overheadTime (n + 1) s
      = rrRun timeSlice overheadTime n (rrStep timeSlice overheadTime s) := by
  unfold rrRun
  rw [Function.iterate_succ_apply]

theorem rrRun_succ_last (timeSlice overheadTime : Int) (n : Nat) (s : RRState) :
    rrRun timeSlice overheadTime (n + 1) s
      = rrStep timeSlice overheadTime (rrRun timeSlice overheadTime n s) := by
  unfold rrRun
  rw [Function.iterate_succ_apply']

theorem rrRun_add (timeSlice overheadTime : Int) (a b : Nat) (s : RRState) :
    rrRun timeSlice overheadTime (a + b) s
      = rrRun timeSlice overheadTime b (rrRun timeSlice overheadTime a s) := by
  unfold rrRun
  rw [Nat.add_comm, Function.iterate_add_apply]

/-! ## Round-Robin: the queue is served first in, first out -/

theorem rrIter_job {timeSlice overheadTime : Int} {s : RRState} {p : Nat}
    (h : (rrIter timeSlice overheadTime s).1.job = some p) :
    s.finished = false ∧ ∃ rest, (rrAdmitted s).1 = p :: rest := by
  rcases rrCase timeSlice s with hf | ⟨hf, hq⟩ | ⟨hf, x, rest, hq, hr⟩ | ⟨hf, x, rest, hq, hr⟩
  · rw [rrIter_finished _ _ hf] at h; cases h
  · rw [rrIter_idle _ _ hf hq] at h; cases h
  · rw [rrIter_final _ _ hf hq hr] at h
    simp only [RREvent.job, Option.some.injEq] at h
    subst h
    exact ⟨hf, rest, hq⟩
  · rw [rrIter_preempt _ _ hf hq hr] at h
    simp only [RREvent.job, Option.some.injEq] at h
    subst h
    exact ⟨hf, rest, hq⟩

/-- An iteration that finds `p` at the head of the queue dispatches `p`, and leaves the rest of
the queue followed by `p` itself, if it was preempted, or by nothing, if it completed. -/
theorem rrStep_head (timeSlice overheadTime : Int) {s : RRState}
    (hf : s.finished = false) {p : Nat} {rest : List Nat} (hq : (rrAdmitted s).1 = p :: rest) :
    (rrIter timeSlice overheadTime s).1.job = some p
    ∧ (((rrIter timeSlice overheadTime s).1 = RREvent.finalSlice p
          ∧ (rrStep timeSlice overheadTime s).readyJobs = rest
          ∧ (rrStep timeSlice overheadTime s).completedJobs
              = s.completedJobs.set (jobAt s.jobs p).id true)
        ∨ ((rrIter timeSlice overheadTime s).1 = RREvent.preempted p
          ∧ (rrStep timeSlice overheadTime s).readyJobs = rest ++ [p])) := by
  unfold rrStep
  by_cases hr : (jobAt s.jobs p).remainingTime
      - min ((timeSlice : ℚ) / 1000) (jobAt s.jobs p).remainingTime ≤ 0
  · rw [rrIter_final _ _ hf hq hr]
    exact ⟨rfl, Or.inl ⟨rfl, rfl, rfl⟩⟩
  · rw [rrIter_preempt _ _ hf hq hr]
    exact ⟨rfl, Or.inr ⟨rfl, rfl⟩⟩

theorem rr_not_finished_of_mem {orig : List Job} {s : RRState} (inv : RRInv orig s) {x : Nat}
    (hx : x ∈ s.readyJobs) : s.finished = false := by
  cases hf : s.finished with
  | false => rfl
  | true =>
    have h := inv.queue x hx
    have := (allSet_iff _).mp (inv.fin hf) x (by rw [inv.clen]; exact h.1)
    rw [h.2.2] at this
    exact absurd this (by decide)

/-- The jobs at the front of the queue are dispatched by the next iterations in queue order,
one per iteration, and what stood behind them is then at the front. -/
theorem rr_fifo {orig : List Job} (hid : IdIsPosition orig) (timeSlice overheadTime : Int) :
    ∀ (front : List Nat) (s : RRState) (back : List Nat), RRInv orig s →
      (rrAdmitted s).1 = front ++ back → (front ≠ [] → s.finished = false) →
      (∀ i, i < front.length →
        (rrIter timeSlice overheadTime (rrRun timeSlice overheadTime i s)).1.job = front[i]?)
      ∧ ∃ later, (rrAdmitted (rrRun timeSlice overheadTime front.length s)).1
          = back ++ later := by
  intro front
  induction front with
  | nil =>
    intro s back _ hq _
    refine ⟨fun i hi => by simp at hi, [], ?_⟩
    simpa [rrRun] using hq
  | cons p front ih =>
    intro s back inv hq hfin
    have hf : s.finished = false := hfin (by simp)
    have hq' : (rrAdmitted s).1 = p :: (front ++ back) := by simpa using hq
    have hstep := rrStep_head timeSlice overheadTime hf hq'
    have inv' := rrInv_step hid timeSlice overheadTime inv
    have hready : ∃ tl, (rrStep timeSlice overheadTime s).readyJobs = (front ++ back) ++ tl := by
      rcases hstep.2 with h | h
      · exact ⟨[], by rw [h.2.1]; simp⟩
      · exact ⟨[p], h.2⟩
    obtain ⟨tl, htl⟩ := hready
    have hadm : (rrAdmitted (rrStep timeSlice overheadTime s)).1
        = front ++ (back ++ (tl ++ rrNew (rrStep timeSlice overheadTime s))) := by
      rw [rrAdmitted_queue hid inv', htl]
      simp
    have hfin' : front ≠ [] → (rrStep timeSlice overheadTime s).finished = false := by
      intro hne
      obtain ⟨y, hy⟩ := List.exists_mem_of_ne_nil front hne
      apply rr_not_finished_of_mem inv' (x := y)
      rw [htl]
      exact List.mem_append_left _ (List.mem_append_left _ hy)
    obtain ⟨h1, later, h2⟩ := ih _ _ inv' hadm hfin'
    refine ⟨?_, tl ++ rrNew (rrStep timeSlice overheadTime s) ++ later, ?_⟩
    · intro i hi
      cases i with
      | zero => simpa [rrRun] using hstep.1
      | succ k =>
        rw [rrRun_succ, h1 k (by simpa using hi)]
        simp
    · rw [List.length_cons, rrRun_succ, h2]
      simp

theorem rrStep_completed_mono (timeSlice overheadTime : Int) (s : RRState) (p : Nat)
    (h : flagAt s.completedJobs p = true) :
    flagAt (rrStep timeSlice overheadTime s).completedJobs p = true := by
  unfold rrStep
  rcases rrCase timeSlice s with hf | ⟨hf, hq⟩ | ⟨hf, x, rest, hq, hr⟩ | ⟨hf, x, rest, hq, hr⟩
  · rw [rrIter_finished _ _ hf]; exact h
  · rw [rrIter_idle _ _ hf hq]; exact h
  · rw [rrIter_final _ _ hf hq hr]
    show flagAt (s.completedJobs.set (jobAt s.jobs x).id true) p = true
    rw [flagAt_set, h]
    simp
  · rw [rrIter_preempt _ _ hf hq hr]; exact h

theorem rrRun_completed_mono (timeSlice overheadTime : Int) (s : RRState) (p : Nat)
    (h : flagAt s.completedJobs p = true) (n : Nat) :
    flagAt (rrRun timeSlice overheadTime n s).completedJobs p = true := by
  induction n with
  | zero => simpa [rrRun] using h
  | succ k ih =>
    rw [rrRun_succ_last]
    exact rrStep_completed_mono _ _ _ _ ih

theorem countP_range'_eq_count (f : Nat → Option Nat) (K : Nat) :
    ∀ (L : List Nat) (a : Nat), (∀ i, i < L.length → f (a + i) = L[i]?) →
      (List.range' a L.length).countP (fun t => decide (f t = some K)) = L.count K := by
  intro L
  induction L with
  | nil => intro a _; simp
  | cons x L ih =>
    intro a hf
    have h0 : f a = some x := by simpa using hf 0 (by simp)
    have hrest : ∀ i, i < L.length → f (a + 1 + i) = L[i]? := by
      intro i hi
      have := hf (i + 1) (by simpa using hi)
      rw [show a + 1 + i = a + (i + 1) by omega, this]
      simp
    rw [List.length_cons, List.range'_succ, List.countP_cons, ih (a + 1) hrest, h0,
      List.count_cons]
    simp

/-! ## Runs are determined by the ledger: more fuel does not change what is returned -/

theorem sjfRun_succ_last (n : Nat) (s : SJFState) :
    sjfRun (n + 1) s = sjfStep (sjfRun n s) := by
  unfold sjfRun
  rw [Function.iterate_succ_apply']

theorem handleRoundRobin_mono {jobs : List Job} {timeSlice overheadTime m : Int} {r : RRResult}
    {f1 f2 : Nat} (hle : f1 ≤ f2)
    (h : handleRoundRobin f1 jobs timeSlice overheadTime m = some r) :
    handleRoundRobin f2 jobs timeSlice overheadTime m = some r := by
  unfold handleRoundRobin at h ⊢
  by_cases hf : (rrRun timeSlice overheadTime f1 (rrInit jobs m)).finished = true
  · have : rrRun timeSlice overheadTime f2 (rrInit jobs m)
        = rrRun timeSlice overheadTime f1 (rrInit jobs m) := by
      rw [show f2 = f1 + (f2 - f1) by omega, rrRun_add, rrRun_of_finished _ _ _ hf]
    rw [this]
    exact h
  · simp [hf] at h

theorem handleRoundRobin_unique {jobs : List Job} {timeSlice overheadTime m : Int}
    {r1 r2 : RRResult} {f1 f2 : Nat}
    (h1 : handleRoundRobin f1 jobs timeSlice overheadTime m = some r1)
    (h2 : handleRoundRobin f2 jobs timeSlice overheadTime m = some r2) : r1 = r2 := by
  rcases Nat.le_total f1 f2 with hle | hle
  · have := handleRoundRobin_mono hle h1
    rw [h2] at this
    exact (Option.some.inj this).symm
  · have := handleRoundRobin_mono hle h2
    rw [h1] at this
    exact Option.some.inj this

/-! ## Round-Robin: termination -/

theorem exists_not_completed {flags : List Bool} (h : allSet flags = false) :
    ∃ p, p < flags.length ∧ flagAt flags p = false := by
  by_contra hcon
  have : allSet flags = true := by
    rw [allSet_iff]
    intro i hi
    cases hfl : flagAt flags i with
    | true => rfl
    | false => exact absurd ⟨i, hi, hfl⟩ hcon
  rw [this] at h
  exact absurd h (by decide)

theorem rrLive_init {orig : List Job} (hne : orig ≠ []) (m : Int) : RRLive (rrInit orig m) := by
  unfold RRLive
  show false = allSet (List.replicate orig.length false)
  rw [allSet_replicate_false (List.length_pos.mpr hne)]

theorem rrLive_step (timeSlice overheadTime : Int) {s : RRState} (live : RRLive s) :
    RRLive (rrStep timeSlice overheadTime s) := by
  unfold rrStep
  rcases rrCase timeSlice s with hf | ⟨hf, hq⟩ | ⟨hf, x, rest, hq, hr⟩ | ⟨hf, x, rest, hq, hr⟩
  · rw [rrIter_finished _ _ hf]; exact live
  · rw [rrIter_idle _ _ hf hq]; exact live
  · rw [rrIter_final _ _ hf hq hr]; rfl
  · rw [rrIter_preempt _ _ hf hq hr]; rfl

theorem handleRoundRobin_of_finished {orig : List Job} {timeSlice overheadTime m : Int}
    {fuel : Nat} (hf : (rrRun timeSlice overheadTime fuel (rrInit orig m)).finished = true) :
    (handleRoundRobin fuel orig timeSlice overheadTime m).isSome = true := by
  unfold handleRoundRobin
  simp only [hf, if_true, Option.isSome_some]

theorem sjfStep_empty (c : ℚ) :
    sjfStep { jobs := [], jobQueue := [], isCompleted := [], current_time := c, finished := false }
      = { jobs := [], jobQueue := [], isCompleted := [], current_time := c + 1,
          finished := false } := by
  unfold sjfStep
  rw [sjfIter_idle rfl (by simp [sjfAdmit, pqTop])]
  simp [sjfAdmit]

theorem sjfRun_empty (n : Nat) :
    sjfRun n (sjfInit [])
      = { jobs := [], jobQueue := [], isCompleted := [], current_time := (n : ℚ),
          finished := false } := by
  induction n with
  | zero => simp [sjfRun, sjfInit]
  | succ k ih =>
    rw [sjfRun_succ_last, ih, sjfStep_empty]
    simp

theorem rrStep_empty (timeSlice overheadTime : Int) (c sum : ℚ) (count mx : Int) :
    rrStep timeSlice overheadTime
        { jobs := [], readyJobs := [], current_time := c, completedJobs := [], inQueue := [],
          queueLengthSum := sum, queueLengthCount := count, maxQueueLength := mx,
          finished := false }
      = { jobs := [], readyJobs := [], current_time := c + 1, completedJobs := [],
          inQueue := [], queueLengthSum := sum, queueLengthCount := count + 1,
          maxQueueLength := max mx 0, finished := false } := by
  unfold rrStep
  rw [rrIter_idle _ _ rfl (by simp [rrAdmitted, rrAdmit])]
  simp [rrAdmitted, rrAdmit]

theorem rrRun_empty (timeSlice overheadTime m : Int) (n : Nat) :
    ∃ mx, rrRun timeSlice overheadTime n (rrInit [] m)
      = { jobs := [], readyJobs := [], current_time := (n : ℚ), completedJobs := [],
          inQueue := [], queueLengthSum := 0, queueLengthCount := (n : Int),
          maxQueueLength := mx, finished := false } := by
  induction n with
  | zero => exact ⟨m, by simp [rrRun, rrInit]⟩
  | succ k ih =>
    obtain ⟨mx, h⟩ := ih
    refine ⟨max mx 0, ?_⟩
    rw [rrRun_succ_last, h, rrStep_empty]
    simp

theorem rrLive_run {orig : List Job} (hne : orig ≠ []) (timeSlice overheadTime m : Int)
    (n : Nat) : RRLive (rrRun timeSlice overheadTime n (rrInit orig m)) := by
  induction n with
  | zero => exact rrLive_init hne m
  | succ k ih =>
    rw [rrRun_succ_last]
    exact rrLive_step _ _ ih

theorem handleRoundRobin_finished {orig : List Job} {timeSlice overheadTime m : Int}
    {fuel : Nat} {r : RRResult}
    (h : handleRoundRobin fuel orig timeSlice overheadTime m = some r) :
    (rrRun timeSlice overheadTime fuel (rrInit orig m)).finished = true
    ∧ r = { jobs := (rrRun timeSlice overheadTime fuel (rrInit orig m)).jobs
            totalSimulationTime := (rrRun timeSlice overheadTime fuel (rrInit orig m)).current_time
            avgQueueLength := (rrRun timeSlice overheadTime fuel (rrInit orig m)).queueLengthSum
              / ((rrRun timeSlice overheadTime fuel (rrInit orig m)).queueLengthCount : ℚ)
            maxQueueLength :=
              (rrRun timeSlice overheadTime fuel (rrInit orig m)).maxQueueLength } := by
  unfold handleRoundRobin at h
  by_cases hf : (rrRun timeSlice overheadTime fuel (rrInit orig m)).finished = true
  · simp only [hf, if_true, Option.some.injEq] at h
    exact ⟨hf, h.symm⟩
  · simp [hf] at h

/-! ## Round-Robin: admission happens once -/

theorem rrStep_inQueue (timeSlice overheadTime : Int) {s : RRState} (hf : s.finished = false) :
    (rrStep timeSlice overheadTime s).inQueue = (rrAdmitted s).2 := by
  unfold rrStep
  rcases rrCase timeSlice s with hf' | ⟨_, hq⟩ | ⟨_, x, rest, hq, hr⟩ | ⟨_, x, rest, hq, hr⟩
  · rw [hf] at hf'; exact absurd hf' (by decide)
  · rw [rrIter_idle _ _ hf hq]
  · rw [rrIter_final _ _ hf hq hr]
  · rw [rrIter_preempt _ _ hf hq hr]

theorem rrStep_inQueue_mono {orig : List Job} (hid : IdIsPosition orig)
    (timeSlice overheadTime : Int) {s : RRState} (inv : RRInv orig s) (p : Nat)
    (h : flagAt s.inQueue p = true) :
    flagAt (rrStep timeSlice overheadTime s).inQueue p = true := by
  cases hf : s.finished with
  | true => rw [rrStep_of_finished _ _ hf]; exact h
  | false =>
    rw [rrStep_inQueue _ _ hf, rrAdmitted_flag hid inv]
    exact Or.inl h

theorem rrRun_inQueue_mono {orig : List Job} (hid : IdIsPosition orig)
    (timeSlice overheadTime : Int) {s : RRState} (inv : RRInv orig s) (p : Nat)
    (h : flagAt s.inQueue p = true) (n : Nat) :
    flagAt (rrRun timeSlice overheadTime n s).inQueue p = true
    ∧ RRInv orig (rrRun timeSlice overheadTime n s) := by
  induction n with
  | zero => exact ⟨by simpa [rrRun] using h, by simpa [rrRun] using inv⟩
  | succ k ih =>
    rw [rrRun_succ_last]
    exact ⟨rrStep_inQueue_mono hid _ _ ih.2 p ih.1, rrInv_step hid _ _ ih.2⟩

/-- The queue an iteration leaves: nothing if it was idle, else the admitted queue without its
head, followed by the head again if the job was preempted. -/
theorem rrStep_queue (timeSlice overheadTime : Int) {s : RRState} (hf : s.finished = false) :
    ((rrIter timeSlice overheadTime s).1 = RREvent.idle ∧ (rrAdmitted s).1 = []
      ∧ (rrStep timeSlice overheadTime s).readyJobs = [])
    ∨ ∃ p rest, (rrAdmitted s).1 = p :: rest
      ∧ (((rrIter timeSlice overheadTime s).1 = RREvent.finalSlice p
          ∧ (rrStep timeSlice overheadTime s).readyJobs = rest)
        ∨ ((rrIter timeSlice overheadTime s).1 = RREvent.preempted p
          ∧ (rrStep timeSlice overheadTime s).readyJobs = rest ++ [p])) := by
  cases hq : (rrAdmitted s).1 with
  | nil =>
    left
    unfold rrStep
    rw [rrIter_idle _ _ hf hq]
    exact ⟨rfl, rfl, rfl⟩
  | cons p rest =>
    right
    refine ⟨p, rest, rfl, ?_⟩
    rcases (rrStep_head timeSlice overheadTime hf hq).2 with h | h
    · exact Or.inl ⟨h.1, h.2.1⟩
    · exact Or.inr h

/-! ## Round-Robin: queue statistics -/

theorem length_le_of_nodup_lt {l : List Nat} {n : Nat} (hnd : l.Nodup) (h : ∀ x ∈ l, x < n) :
    l.length ≤ n := by
  have h1 : l.toFinset ⊆ Finset.range n := by
    intro x hx
    rw [List.mem_toFinset] at hx
    exact Finset.mem_range.mpr (h x hx)
  have h2 := Finset.card_le_card h1
  rw [List.toFinset_card_of_nodup hnd, Finset.card_range] at h2
  exact h2

/-! ## Experiment sweep: lemmas -/

theorem fcfsLoop_completion_ge (jobs : List Job) (c : ℚ) (i : Nat) (hi : i < jobs.length) :
    (jobAt jobs i).arrivalTime + (jobAt jobs i).burstTime
      ≤ (jobAt (fcfsLoop c jobs) i).completionTime := by
  rw [fcfsLoop_completion jobs c i hi]
  have := le_max_right
    (if i = 0 then c else (jobAt (fcfsLoop c jobs) (i - 1)).completionTime)
    (jobAt jobs i).arrivalTime
  linarith

/-! ## Round-Robin on jobs that all arrive at 0 and fit in one quantum -/

theorem rrNew_init_all {orig : List Job} (hid : IdIsPosition orig)
    (harr : ∀ p, p < orig.length → (jobAt orig p).arrivalTime = 0) (m : Int) :
    rrNew (rrInit orig m) = List.range orig.length := by
  unfold rrNew
  apply List.filter_eq_self.mpr
  intro p hp
  have hp' : p < orig.length := List.mem_range.mp hp
  simp [rrEligible, rrInit, hid p hp', harr p hp', flagAt_replicate]

/-- When all jobs arrive at 0 and fit in one quantum, iteration `t` runs the only slice of the
job at position `t`: after `i` iterations the jobs from position `i` on are as on entry, the
clock is the one FCFS has when it comes to position `i`, and the jobs before position `i` are
completed with the completion times FCFS gives them. -/
theorem rr_batch {orig : List Job} (hid : IdIsPosition orig)
    (hnn : NonNegTimes orig) (hfresh : Fresh orig)
    (harr : ∀ p, p < orig.length → (jobAt orig p).arrivalTime = 0)
    (timeSlice overheadTime m : Int)
    (hfit : ∀ p, p < orig.length → (jobAt orig p).burstTime ≤ (timeSlice : ℚ) / 1000) :
    ∀ i, i ≤ orig.length →
      (∀ p, i ≤ p → p < orig.length →
        jobAt (rrRun timeSlice overheadTime i (rrInit orig m)).jobs p = jobAt orig p)
      ∧ (rrRun timeSlice overheadTime i (rrInit orig m)).current_time
          = (if i = 0 then 0 else (jobAt (executeFCFS orig) (i - 1)).completionTime)
      ∧ (∀ p, p < i →
          flagAt (rrRun timeSlice overheadTime i (rrInit orig m)).completedJobs p = true
          ∧ (jobAt (rrRun timeSlice overheadTime i (rrInit orig m)).jobs p).completionTime
              = (jobAt (executeFCFS orig) p).completionTime)
      ∧ (∀ t, t < i → (rrIter timeSlice overheadTime
          (rrRun timeSlice overheadTime t (rrInit orig m))).1 = RREvent.finalSlice t) := by
  have hadm0 : (rrAdmitted (rrInit orig m)).1 = List.range orig.length ++ [] := by
    rw [rrAdmitted_queue hid (rrInv_init orig m), rrNew_init_all hid harr m]
    simp [rrInit]
  have fifo := (rr_fifo hid timeSlice overheadTime _ _ _ (rrInv_init orig m) hadm0
    (fun _ => rfl)).1
  intro i
  induction i with
  | zero =>
    intro _
    refine ⟨fun p _ _ => by simp [rrRun, rrInit], by simp [rrRun, rrInit], fun p hp => ?_,
      fun t ht => ?_⟩
    · exact absurd hp (Nat.not_lt_zero p)
    · exact absurd ht (Nat.not_lt_zero t)
  | succ i ih =>
    intro hi
    have hin : i < orig.length := hi
    obtain ⟨hA, hB, hC, hD⟩ := ih (Nat.le_of_lt hin)
    have inv := rrInv_run hid timeSlice overheadTime m i
    have hjob : (rrIter timeSlice overheadTime
        (rrRun timeSlice overheadTime i (rrInit orig m))).1.job = some i := by
      rw [fifo i (by simpa using hin)]
      simp [hin]
    obtain ⟨hf, rest, hq⟩ := rrIter_job hjob
    have hji := hA i (le_refl i) hin
    have hrem : (jobAt (rrRun timeSlice overheadTime i (rrInit orig m)).jobs i).remainingTime
        = (jobAt orig i).burstTime := by
      rw [hji]; exact hfresh i hin
    have hmin : min ((timeSlice : ℚ) / 1000)
        (jobAt (rrRun timeSlice overheadTime i (rrInit orig m)).jobs i).remainingTime
        = (jobAt orig i).burstTime := by
      rw [hrem]; exact min_eq_right (hfit i hin)
    have hr : (jobAt (rrRun timeSlice overheadTime i (rrInit orig m)).jobs i).remainingTime
        - min ((timeSlice : ℚ) / 1000)
          (jobAt (rrRun timeSlice overheadTime i (rrInit orig m)).jobs i).remainingTime ≤ 0 := by
      rw [hmin, hrem]; linarith
    have hev := rrIter_final timeSlice overheadTime hf hq hr
    have his : i < (rrRun timeSlice overheadTime i (rrInit orig m)).jobs.length := by
      rw [inv.len]; exact hin
    have hidi : (jobAt (rrRun timeSlice overheadTime i (rrInit orig m)).jobs i).id = i := by
      rw [hji]; exact hid i hin
    -- the clock FCFS has at position `i` is not negative
    have hclock0 : 0 ≤ (rrRun timeSlice overheadTime i (rrInit orig m)).current_time := by
      rw [hB]
      by_cases h0 : i = 0
      · simp [h0]
      · simp only [h0, if_false]
        have hlt : i - 1 < orig.length := by omega
        have := fcfsLoop_completion_ge orig 0 (i - 1) hlt
        have h1 := hnn (i - 1) hlt
        unfold executeFCFS
        linarith
    have hfc : (jobAt (executeFCFS orig) i).completionTime
        = (rrRun timeSlice overheadTime i (rrInit orig m)).current_time
          + (jobAt orig i).burstTime := by
      have := fcfsLoop_completion orig 0 i hin
      unfold executeFCFS
      rw [this, harr i hin]
      have hprev : (if i = 0 then (0 : ℚ)
          else (jobAt (fcfsLoop 0 orig) (i - 1)).completionTime)
          = (rrRun timeSlice overheadTime i (rrInit orig m)).current_time := by
        rw [hB]; rfl
      rw [hprev, max_eq_left hclock0]
    have hstep : rrRun timeSlice overheadTime (i + 1) (rrInit orig m)
        = (rrIter timeSlice overheadTime
            (rrRun timeSlice overheadTime i (rrInit orig m))).2 := by
      rw [rrRun_succ_last]; rfl
    rw [hstep, hev]
    refine ⟨fun p hp hpn => ?_, ?_, fun p hp => ?_, fun t ht => ?_⟩
    · have hne' : i ≠ p := by omega
      simp only [jobAt_set_ne hne']
      exact hA p (by omega) hpn
    · simp only [Nat.succ_ne_zero, if_false, Nat.add_sub_cancel]
      rw [hmin, hfc]
    · by_cases hpi : i = p
      · subst hpi
        simp only [jobAt_set_self his, hidi,
          flagAt_set_self (show i < (rrRun timeSlice overheadTime i
            (rrInit orig m)).completedJobs.length by rw [inv.clen]; exact hin)]
        rw [hmin, hfc]
        exact ⟨trivial, rfl⟩
      · have hlt : p < i := by omega
        simp only [jobAt_set_ne hpi, hidi, flagAt_set_ne hpi]
        exact hC p hlt
    · by_cases hti : t = i
      · subst hti
        rw [hev]
      · exact hD t (by omega)

/-- After as many iterations as there are jobs the loop is left, every job having run its only
slice. -/
theorem rr_batch_finished {orig : List Job} (hne : orig ≠ []) (hid : IdIsPosition orig)
    (hnn : NonNegTimes orig) (hfresh : Fresh orig)
    (harr : ∀ p, p < orig.length → (jobAt orig p).arrivalTime = 0)
    (timeSlice overheadTime m : Int)
    (hfit : ∀ p, p < orig.length → (jobAt orig p).burstTime ≤ (timeSlice : ℚ) / 1000) :
    (rrRun timeSlice overheadTime orig.length (rrInit orig m)).finished = true := by
  have hb := rr_batch hid hnn hfresh harr timeSlice overheadTime m hfit orig.length
    (le_refl _)
  have live := rrLive_run hne timeSlice overheadTime m orig.length
  have inv := rrInv_run hid timeSlice overheadTime m orig.length
  unfold RRLive at live
  rw [live, allSet_iff]
  intro p hp
  rw [inv.clen] at hp
  exact (hb.2.2.1 p hp).1

/-! ## Binary64 arithmetic: rounding -/

theorem roundHalfEven_ge {n d k : Nat} (hd : 0 < d) (h : k * d ≤ n) : k ≤ roundHalfEven n d := by
  have hq : k ≤ n / d := (Nat.le_div_iff_mul_le hd).2 h
  unfold roundHalfEven
  simp only
  split_ifs <;> omega

theorem roundHalfEven_le {n d k : Nat} (hd : 0 < d) (h : n ≤ k * d) : roundHalfEven n d ≤ k := by
  unfold roundHalfEven
  simp only
  rcases Nat.eq_or_lt_of_le h with h | h
  · subst h
    have h1 : k * d / d = k := Nat.mul_div_cancel k hd
    have h2 : k * d % d = 0 := Nat.mul_mod_left k d
    rw [h1, h2]
    simp [hd]
  · have hq : n / d < k := (Nat.div_lt_iff_lt_mul hd).2 h
    split_ifs <;> omega

theorem leadingBit_eq (fuel : Nat) : ∀ n, n ≤ fuel → leadingBit fuel n = Nat.log 2 n := by
  induction fuel with
  | zero =>
    intro n hn
    have : n = 0 := by omega
    subst this
    simp [leadingBit]
  | succ fuel ih =>
    intro n hn
    unfold leadingBit
    by_cases h : 2 ≤ n
    · rw [if_pos h, ih (n / 2) (by omega), Nat.log_of_one_lt_of_le (by norm_num) h]
    · rw [if_neg h, Nat.log_of_lt (by omega)]

theorem spacing_eq (k : Nat) : spacing k = k.log2 - 52 := by
  unfold spacing
  rw [leadingBit_eq k k (le_refl k), Nat.log2_eq_log_two]

theorem spacing_mono {a b : Nat} (h : a ≤ b) : spacing a ≤ spacing b := by
  rw [spacing_eq, spacing_eq]
  have := Nat.log_mono_right (b := 2) h
  rw [Nat.log2_eq_log_two, Nat.log2_eq_log_two]
  omega

theorem le_of_spacing_pos {k : Nat} (h : 0 < spacing k) : 2 ^ (52 + spacing k) ≤ k := by
  rw [spacing_eq] at *
  have hk : k ≠ 0 := by
    rintro rfl
    simp [Nat.log2] at h
  have := Nat.log2_self_le hk
  have e : 52 + (k.log2 - 52) = k.log2 := by omega
  rw [e]
  exact this

theorem lt_pow_spacing (k : Nat) : k < 2 ^ (53 + spacing k) := by
  rw [spacing_eq]
  have h1 := Nat.lt_log2_self (n := k)
  have h2 : k.log2 + 1 ≤ 53 + (k.log2 - 52) := by omega
  exact lt_of_lt_of_le h1 (Nat.pow_le_pow_right (by norm_num) h2)

theorem spacing_le_of_lt_pow {k s : Nat} (h : k < 2 ^ (53 + s)) : spacing k ≤ s := by
  rw [spacing_eq]
  by_cases hk : k = 0
  · subst hk
    simp [Nat.log2]
  · have := (Nat.log2_lt hk).2 h
    omega

theorem roundUnits_ge {n d k : Nat} (hd : 0 < d) (hk : OnGrid k) (h : k * d ≤ n) :
    k ≤ roundUnits n d := by
  have hN : k ≤ n / d := (Nat.le_div_iff_mul_le hd).2 h
  have hs := spacing_mono hN
  unfold roundUnits
  simp only
  have hd2 : 0 < d * 2 ^ spacing (n / d) := Nat.mul_pos hd (by positivity)
  rcases Nat.eq_or_lt_of_le hs with e | hlt
  · obtain ⟨k', hk'⟩ := hk
    rw [e] at hk'
    have : k' ≤ roundHalfEven n (d * 2 ^ spacing (n / d)) := by
      apply roundHalfEven_ge hd2
      calc k' * (d * 2 ^ spacing (n / d)) = (2 ^ spacing (n / d) * k') * d := by ring
        _ = k * d := by rw [← hk']
        _ ≤ n := h
    calc k = k' * 2 ^ spacing (n / d) := by rw [hk']; ring
      _ ≤ _ := Nat.mul_le_mul_right _ this
  · have hpos : 0 < spacing (n / d) := by omega
    have h1 := le_of_spacing_pos hpos
    have h2 : 2 ^ (52 + spacing (n / d)) * d ≤ n :=
      le_trans (Nat.mul_le_mul_right d h1) (Nat.div_mul_le_self n d)
    have h3 : 2 ^ 52 ≤ roundHalfEven n (d * 2 ^ spacing (n / d)) := by
      apply roundHalfEven_ge hd2
      calc 2 ^ 52 * (d * 2 ^ spacing (n / d)) = 2 ^ (52 + spacing (n / d)) * d := by
            rw [pow_add]; ring
        _ ≤ n := h2
    have h4 := lt_pow_spacing k
    have h5 : 2 ^ (53 + spacing k) ≤ 2 ^ (52 + spacing (n / d)) :=
      Nat.pow_le_pow_right (by norm_num) (by omega)
    calc k ≤ 2 ^ (52 + spacing (n / d)) := by omega
      _ = 2 ^ 52 * 2 ^ spacing (n / d) := by rw [pow_add]
      _ ≤ _ := Nat.mul_le_mul_right _ h3

theorem roundUnits_le {n d k : Nat} (hd : 0 < d) (hk : OnGrid k) (h : n ≤ k * d) :
    roundUnits n d ≤ k := by
  have hN : n / d ≤ k := by
    rcases Nat.eq_or_lt_of_le h with e | hlt
    · rw [e, Nat.mul_div_cancel k hd]
    · exact le_of_lt ((Nat.div_lt_iff_lt_mul hd).2 hlt)
  have hs := spacing_mono hN
  unfold roundUnits
  simp only
  have hd2 : 0 < d * 2 ^ spacing (n / d) := Nat.mul_pos hd (by positivity)
  rcases Nat.eq_or_lt_of_le hs with e | hlt
  · obtain ⟨k', hk'⟩ := hk
    rw [← e] at hk'
    have : roundHalfEven n (d * 2 ^ spacing (n / d)) ≤ k' := by
      apply roundHalfEven_le hd2
      calc n ≤ k * d := h
        _ = (2 ^ spacing (n / d) * k') * d := by rw [← hk']
        _ = k' * (d * 2 ^ spacing (n / d)) := by ring
    calc _ ≤ k' * 2 ^ spacing (n / d) := Nat.mul_le_mul_right _ this
      _ = k := by rw [hk']; ring
  · have hpos : 0 < spacing k := by omega
    have h1 := le_of_spacing_pos hpos
    have h2 := lt_pow_spacing (n / d)
    have h3 : n < 2 ^ (53 + spacing (n / d)) * d := (Nat.div_lt_iff_lt_mul hd).1 h2
    have h4 : roundHalfEven n (d * 2 ^ spacing (n / d)) ≤ 2 ^ 53 := by
      apply roundHalfEven_le hd2
      calc n ≤ 2 ^ (53 + spacing (n / d)) * d := le_of_lt h3
        _ = 2 ^ 53 * (d * 2 ^ spacing (n / d)) := by rw [pow_add]; ring
    have h5 : 2 ^ (53 + spacing (n / d)) ≤ 2 ^ (52 + spacing k) :=
      Nat.pow_le_pow_right (by norm_num) (by omega)
    calc _ ≤ 2 ^ 53 * 2 ^ spacing (n / d) := Nat.mul_le_mul_right _ h4
      _ = 2 ^ (53 + spacing (n / d)) := by rw [pow_add]
      _ ≤ k := le_trans h5 h1

theorem roundUnits_onGrid {n d : Nat} (hd : 0 < d) : OnGrid (roundUnits n d) := by
  unfold OnGrid roundUnits
  simp only
  have hd2 : 0 < d * 2 ^ spacing (n / d) := Nat.mul_pos hd (by positivity)
  have h2 := lt_pow_spacing (n / d)
  have h3 : n < 2 ^ (53 + spacing (n / d)) * d := (Nat.div_lt_iff_lt_mul hd).1 h2
  have h4 : roundHalfEven n (d * 2 ^ spacing (n / d)) ≤ 2 ^ 53 := by
    apply roundHalfEven_le hd2
    calc n ≤ 2 ^ (53 + spacing (n / d)) * d := le_of_lt h3
      _ = 2 ^ 53 * (d * 2 ^ spacing (n / d)) := by rw [pow_add]; ring
  generalize roundHalfEven n (d * 2 ^ spacing (n / d)) = m at h4
  generalize spacing (n / d) = s
  rcases Nat.eq_or_lt_of_le h4 with e | hlt
  · subst e
    have hsp : spacing (2 ^ 53 * 2 ^ s) = s + 1 := by
      rw [spacing_eq, ← pow_add, Nat.log2_eq_log_two, Nat.log_pow (by norm_num)]
      omega
    rw [hsp, ← pow_add]
    exact pow_dvd_pow 2 (by omega)
  · have hlt2 : m * 2 ^ s < 2 ^ (53 + s) := by
      rw [pow_add]
      exact Nat.mul_lt_mul_of_pos_right hlt (by positivity)
    have hsp := spacing_le_of_lt_pow hlt2
    exact Dvd.dvd.mul_left (pow_dvd_pow 2 hsp) m

theorem roundUnits_of_onGrid {d k : Nat} (hd : 0 < d) (hk : OnGrid k) :
    roundUnits (k * d) d = k :=
  le_antisymm (roundUnits_le hd hk (le_refl _)) (roundUnits_ge hd hk (le_refl _))

theorem unitsPerOne_pos : (0 : ℚ) < (unitsPerOne : ℚ) := by
  have : 0 < unitsPerOne := by unfold unitsPerOne; positivity
  exact_mod_cast this

theorem units_le_iff {x : ℚ} (hx : 0 ≤ x) (k : Nat) :
    (k : ℚ) / unitsPerOne ≤ x ↔ k * x.den ≤ x.num.natAbs * unitsPerOne := by
  have hnum : (0 : ℤ) ≤ x.num := Rat.num_nonneg.mpr hx
  have hden : (0 : ℚ) < (x.den : ℚ) := by exact_mod_cast x.den_pos
  have hx' : x = ((x.num.natAbs : ℕ) : ℚ) / (x.den : ℚ) := by
    have h1 : ((x.num.natAbs : ℕ) : ℤ) = x.num := Int.natAbs_of_nonneg hnum
    have h2 : ((x.num.natAbs : ℕ) : ℚ) = (x.num : ℚ) := by
      rw [← Int.cast_natCast, h1]
    rw [h2]
    exact (Rat.num_div_den x).symm
  constructor
  · intro h
    rw [hx', div_le_div_iff₀ unitsPerOne_pos hden] at h
    exact_mod_cast h
  · intro h
    rw [hx', div_le_div_iff₀ unitsPerOne_pos hden]
    exact_mod_cast h

theorem le_units_iff {x : ℚ} (hx : 0 ≤ x) (k : Nat) :
    x ≤ (k : ℚ) / unitsPerOne ↔ x.num.natAbs * unitsPerOne ≤ k * x.den := by
  have hnum : (0 : ℤ) ≤ x.num := Rat.num_nonneg.mpr hx
  have hden : (0 : ℚ) < (x.den : ℚ) := by exact_mod_cast x.den_pos
  have hx' : x = ((x.num.natAbs : ℕ) : ℚ) / (x.den : ℚ) := by
    have h1 : ((x.num.natAbs : ℕ) : ℤ) = x.num := Int.natAbs_of_nonneg hnum
    have h2 : ((x.num.natAbs : ℕ) : ℚ) = (x.num : ℚ) := by
      rw [← Int.cast_natCast, h1]
    rw [h2]
    exact (Rat.num_div_den x).symm
  constructor
  · intro h
    rw [hx', div_le_div_iff₀ hden unitsPerOne_pos] at h
    exact_mod_cast h
  · intro h
    rw [hx', div_le_div_iff₀ hden unitsPerOne_pos]
    exact_mod_cast h

theorem round64_of_nonneg {x : ℚ} (hx : 0 ≤ x) :
    round64 x = if unitsBound ≤ roundedUnits x then FloatVal.posInf
      else FloatVal.num ((roundedUnits x : ℚ) / unitsPerOne) := by
  have hnum : (0 : ℤ) ≤ x.num := Rat.num_nonneg.mpr hx
  unfold round64 roundedUnits
  simp only [hnum, if_true]

theorem roundedUnits_onGrid (x : ℚ) : OnGrid (roundedUnits x) :=
  roundUnits_onGrid x.den_pos

theorem roundedUnits_ge {x : ℚ} (hx : 0 ≤ x) {k : Nat} (hk : OnGrid k)
    (h : (k : ℚ) / unitsPerOne ≤ x) : k ≤ roundedUnits x :=
  roundUnits_ge x.den_pos hk ((units_le_iff hx k).1 h)

theorem roundedUnits_le {x : ℚ} (hx : 0 ≤ x) {k : Nat} (hk : OnGrid k)
    (h : x ≤ (k : ℚ) / unitsPerOne) : roundedUnits x ≤ k :=
  roundUnits_le x.den_pos hk ((le_units_iff hx k).1 h)

theorem roundedUnits_of_onGrid {k : Nat} (hk : OnGrid k) :
    roundedUnits ((k : ℚ) / unitsPerOne) = k := by
  have hx : (0 : ℚ) ≤ (k : ℚ) / unitsPerOne := div_nonneg (Nat.cast_nonneg k) unitsPerOne_pos.le
  exact le_antisymm (roundedUnits_le hx hk (le_refl _)) (roundedUnits_ge hx hk (le_refl _))

theorem isDouble_of_onGrid {k : Nat} (hk : OnGrid k) (hlt : k < unitsBound) :
    IsDouble ((k : ℚ) / unitsPerOne) := by
  unfold IsDouble
  have hx : (0 : ℚ) ≤ (k : ℚ) / unitsPerOne := div_nonneg (Nat.cast_nonneg k) unitsPerOne_pos.le
  rw [round64_of_nonneg hx, roundedUnits_of_onGrid hk, if_neg (Nat.not_le.mpr hlt)]

theorem isDouble_units {q : ℚ} (hq : 0 ≤ q) (h : IsDouble q) :
    ∃ k, OnGrid k ∧ k < unitsBound ∧ q = (k : ℚ) / unitsPerOne := by
  unfold IsDouble at h
  rw [round64_of_nonneg hq] at h
  by_cases hU : unitsBound ≤ roundedUnits q
  · rw [if_pos hU] at h
    exact FloatVal.noConfusion h
  · rw [if_neg hU] at h
    exact ⟨roundedUnits q, roundedUnits_onGrid q, Nat.not_le.mp hU, (FloatVal.num.inj h).symm⟩

theorem round64_nonneg {x : ℚ} (hx : 0 ≤ x) : (round64 x).NonNeg := by
  rw [round64_of_nonneg hx]
  by_cases hU : unitsBound ≤ roundedUnits x
  · rw [if_pos hU]
    trivial
  · rw [if_neg hU]
    exact ⟨div_nonneg (Nat.cast_nonneg _) unitsPerOne_pos.le,
      isDouble_of_onGrid (roundedUnits_onGrid x) (Nat.not_le.mp hU)⟩

theorem round64_ge {f x : ℚ} (hf : 0 ≤ f) (hd : IsDouble f) (h : f ≤ x) :
    round64 x = FloatVal.posInf ∨ ∃ q, round64 x = FloatVal.num q ∧ f ≤ q ∧ IsDouble q := by
  have hx : 0 ≤ x := le_trans hf h
  obtain ⟨k, hk, _, rfl⟩ := isDouble_units hf hd
  have hge := roundedUnits_ge hx hk h
  rw [round64_of_nonneg hx]
  by_cases hU : unitsBound ≤ roundedUnits x
  · left; rw [if_pos hU]
  · right
    refine ⟨(roundedUnits x : ℚ) / unitsPerOne, by rw [if_neg hU], ?_,
      isDouble_of_onGrid (roundedUnits_onGrid x) (Nat.not_le.mp hU)⟩
    have : (k : ℚ) ≤ (roundedUnits x : ℚ) := by exact_mod_cast hge
    exact div_le_div_of_nonneg_right this unitsPerOne_pos.le

theorem round64_le {f x : ℚ} (hx : 0 ≤ x) (hd : IsDouble f) (h : x ≤ f) :
    ∃ q, round64 x = FloatVal.num q ∧ 0 ≤ q ∧ q ≤ f ∧ IsDouble q := by
  have hf : 0 ≤ f := le_trans hx h
  obtain ⟨k, hk, hlt, rfl⟩ := isDouble_units hf hd
  have hle := roundedUnits_le hx hk h
  have hU : ¬ unitsBound ≤ roundedUnits x := Nat.not_le.mpr (lt_of_le_of_lt hle hlt)
  rw [round64_of_nonneg hx]
  refine ⟨(roundedUnits x : ℚ) / unitsPerOne, by rw [if_neg hU],
    div_nonneg (Nat.cast_nonneg _) unitsPerOne_pos.le, ?_,
    isDouble_of_onGrid (roundedUnits_onGrid x) (Nat.not_le.mp hU)⟩
  have : (roundedUnits x : ℚ) ≤ (k : ℚ) := by exact_mod_cast hle
  exact div_le_div_of_nonneg_right this unitsPerOne_pos.le

/-! ## Binary64 arithmetic: the operations on non-negative values -/

theorem isDouble_zero : IsDouble 0 := by decide!

theorem isDouble_one : IsDouble 1 := by decide!

theorem FloatVal.NonNeg.cases_nonNeg {v : FloatVal} (h : v.NonNeg) :
    v = FloatVal.posInf ∨ ∃ q, v = FloatVal.num q ∧ 0 ≤ q ∧ IsDouble q := by
  cases v with
  | num q => exact Or.inr ⟨q, rfl, h.1, h.2⟩
  | posInf => exact Or.inl rfl
  | nan => exact absurd h (by simp [FloatVal.NonNeg])
  | negInf => exact absurd h (by simp [FloatVal.NonNeg])

theorem FloatVal.IsTime.cases_isTime {v : FloatVal} (h : v.IsTime) :
    ∃ q, v = FloatVal.num q ∧ 0 ≤ q ∧ IsDouble q := by
  cases v with
  | num q => exact ⟨q, rfl, h.1, h.2⟩
  | posInf => exact absurd h (by simp [FloatVal.IsTime])
  | nan => exact absurd h (by simp [FloatVal.IsTime])
  | negInf => exact absurd h (by simp [FloatVal.IsTime])

theorem FloatVal.IsTime.nonNeg {v : FloatVal} (h : v.IsTime) : v.NonNeg := by
  obtain ⟨q, rfl, h1, h2⟩ := h.cases_isTime
  exact ⟨h1, h2⟩

theorem FloatVal.isTime_num {q : ℚ} (h0 : 0 ≤ q) (hd : IsDouble q) : (FloatVal.num q).IsTime :=
  ⟨h0, hd⟩

theorem FloatVal.isTime_zero : (FloatVal.num 0).IsTime :=
  ⟨le_refl _, isDouble_zero⟩

theorem FloatVal.le_num (a b : ℚ) : FloatVal.le (FloatVal.num a) (FloatVal.num b) = decide (a ≤ b) :=
  rfl

theorem FloatVal.lt_num (a b : ℚ) : FloatVal.lt (FloatVal.num a) (FloatVal.num b) = decide (a < b) :=
  rfl

theorem FloatVal.le_posInf {a : FloatVal} (h : a.NonNeg) : FloatVal.le a FloatVal.posInf = true := by
  rcases h.cases_nonNeg with rfl | ⟨q, rfl, -, -⟩ <;> rfl

theorem FloatVal.le_refl_of_nonNeg {a : FloatVal} (h : a.NonNeg) : FloatVal.le a a = true := by
  rcases h.cases_nonNeg with rfl | ⟨q, rfl, -, -⟩
  · rfl
  · simp [FloatVal.le_num]

theorem FloatVal.le_trans_of_nonNeg {a b c : FloatVal} (ha : a.NonNeg) (hb : b.NonNeg)
    (hc : c.NonNeg) (h1 : FloatVal.le a b = true) (h2 : FloatVal.le b c = true) :
    FloatVal.le a c = true := by
  rcases ha.cases_nonNeg with rfl | ⟨x, rfl, -, -⟩ <;> rcases hb.cases_nonNeg with rfl | ⟨y, rfl, -, -⟩ <;>
    rcases hc.cases_nonNeg with rfl | ⟨z, rfl, -, -⟩ <;>
    simp [FloatVal.le] at h1 h2 ⊢
  exact le_trans h1 h2

theorem FloatVal.lt_iff_not_le {a b : FloatVal} (ha : a.NonNeg) (hb : b.NonNeg) :
    FloatVal.lt a b = true ↔ FloatVal.le b a = false := by
  rcases ha.cases_nonNeg with rfl | ⟨x, rfl, -, -⟩ <;> rcases hb.cases_nonNeg with rfl | ⟨y, rfl, -, -⟩ <;>
    simp [FloatVal.le, FloatVal.lt]

theorem FloatVal.add_num (a b : ℚ) :
    FloatVal.add (FloatVal.num a) (FloatVal.num b) = round64 (a + b) := rfl

theorem FloatVal.sub_num (a b : ℚ) :
    FloatVal.sub (FloatVal.num a) (FloatVal.num b) = round64 (a - b) := rfl

theorem FloatVal.add_nonNeg {a b : FloatVal} (ha : a.NonNeg) (hb : b.NonNeg) :
    (FloatVal.add a b).NonNeg := by
  rcases ha.cases_nonNeg with rfl | ⟨x, rfl, hx, -⟩ <;> rcases hb.cases_nonNeg with rfl | ⟨y, rfl, hy, -⟩
  · trivial
  · trivial
  · trivial
  · rw [FloatVal.add_num]
    exact round64_nonneg (add_nonneg hx hy)

theorem FloatVal.le_of_round64_ge {f x : ℚ} (hf : 0 ≤ f) (hd : IsDouble f) (h : f ≤ x) :
    FloatVal.le (FloatVal.num f) (round64 x) = true := by
  rcases round64_ge hf hd h with e | ⟨q, e, hq, -⟩
  · rw [e]; rfl
  · rw [e, FloatVal.le_num]
    simpa using hq

theorem FloatVal.le_add_right {a b : FloatVal} (ha : a.NonNeg) (hb : b.NonNeg) :
    FloatVal.le a (FloatVal.add a b) = true := by
  rcases ha.cases_nonNeg with rfl | ⟨x, rfl, hx, hdx⟩ <;> rcases hb.cases_nonNeg with rfl | ⟨y, rfl, hy, -⟩
  · rfl
  · rfl
  · rfl
  · rw [FloatVal.add_num]
    exact FloatVal.le_of_round64_ge hx hdx (by linarith)

theorem FloatVal.le_add_left {a b : FloatVal} (ha : a.NonNeg) (hb : b.NonNeg) :
    FloatVal.le b (FloatVal.add a b) = true := by
  rcases ha.cases_nonNeg with rfl | ⟨x, rfl, hx, -⟩ <;> rcases hb.cases_nonNeg with rfl | ⟨y, rfl, hy, hdy⟩
  · rfl
  · rfl
  · rfl
  · rw [FloatVal.add_num]
    exact FloatVal.le_of_round64_ge hy hdy (by linarith)

theorem FloatVal.add_zero_left {a : FloatVal} (ha : a.NonNeg) :
    FloatVal.add (FloatVal.num 0) a = a := by
  rcases ha.cases_nonNeg with rfl | ⟨x, rfl, -, hdx⟩
  · rfl
  · rw [FloatVal.add_num, zero_add]
    exact hdx

theorem FloatVal.sub_zero_right {a : FloatVal} (ha : a.NonNeg) :
    FloatVal.sub a (FloatVal.num 0) = a := by
  rcases ha.cases_nonNeg with rfl | ⟨x, rfl, -, hdx⟩
  · rfl
  · rw [FloatVal.sub_num, sub_zero]
    exact hdx

theorem FloatVal.sub_same {a : FloatVal} (ha : a.IsTime) :
    FloatVal.sub a a = FloatVal.num 0 := by
  obtain ⟨x, rfl, -, -⟩ := ha.cases_isTime
  rw [FloatVal.sub_num, sub_self]
  exact isDouble_zero

theorem FloatVal.sub_isTime {a b : FloatVal} (ha : a.IsTime) (hb : b.IsTime)
    (h : FloatVal.le b a = true) :
    (FloatVal.sub a b).IsTime ∧ FloatVal.le (FloatVal.sub a b) a = true := by
  obtain ⟨x, rfl, hx, hdx⟩ := ha.cases_isTime
  obtain ⟨y, rfl, hy, -⟩ := hb.cases_isTime
  rw [FloatVal.le_num] at h
  have hyx : y ≤ x := by simpa using h
  rw [FloatVal.sub_num]
  obtain ⟨q, e, hq0, hqx, hdq⟩ := round64_le (x := x - y) (by linarith) hdx (by linarith)
  rw [e]
  exact ⟨FloatVal.isTime_num hq0 hdq, by rw [FloatVal.le_num]; simpa using hqx⟩

theorem FloatVal.sub_nonNeg {a b : FloatVal} (ha : a.NonNeg) (hb : b.IsTime)
    (h : FloatVal.le b a = true) : (FloatVal.sub a b).NonNeg := by
  rcases ha.cases_nonNeg with rfl | ⟨x, rfl, hx, hdx⟩
  · obtain ⟨y, rfl, -, -⟩ := hb.cases_isTime
    trivial
  · exact (FloatVal.sub_isTime (FloatVal.isTime_num hx hdx) hb h).1.nonNeg

theorem FloatVal.min_eq (a b : FloatVal) :
    FloatVal.min a b = if FloatVal.lt b a then b else a := rfl

theorem FloatVal.min_isTime {a b : FloatVal} (ha : a.NonNeg) (hb : b.IsTime) :
    (FloatVal.min a b).IsTime ∧ FloatVal.le (FloatVal.min a b) b = true
      ∧ FloatVal.le (FloatVal.min a b) a = true := by
  obtain ⟨y, rfl, hy, hdy⟩ := hb.cases_isTime
  rcases ha.cases_nonNeg with rfl | ⟨x, rfl, hx, hdx⟩
  · simp [FloatVal.min_eq, FloatVal.lt, FloatVal.le, FloatVal.IsTime, hy, hdy]
  · rw [FloatVal.min_eq, FloatVal.lt_num]
    by_cases hlt : y < x
    · simp [hlt, FloatVal.le_num, FloatVal.IsTime, hy, hdy, hlt.le]
    · simp [hlt, FloatVal.le_num, FloatVal.IsTime, hx, hdx, not_lt.mp hlt]

theorem unitsPerOne_eq : unitsPerOne = 2 ^ 1074 := by
  unfold unitsPerOne
  rfl

theorem unitsBound_eq : unitsBound = 2 ^ 2098 := by
  unfold unitsBound
  rfl

theorem pow_spacing_dvd {k : Nat} (h : OnGrid k) : 2 ^ spacing k ∣ k := h

theorem onGrid_of_dvd {k s : Nat} (hs : spacing k ≤ s) (h : 2 ^ s ∣ k) : OnGrid k :=
  Dvd.dvd.trans (pow_dvd_pow 2 hs) h

/-- The binary64 magnitude below a positive one. -/
theorem onGrid_sub {k : Nat} (h : OnGrid k) : OnGrid (k - 2 ^ spacing k) :=
  onGrid_of_dvd (spacing_mono (Nat.sub_le _ _)) (Nat.dvd_sub' h (dvd_refl _))

/-- The binary64 magnitude above one. -/
theorem onGrid_add {k : Nat} (h : OnGrid k) : OnGrid (k + 2 ^ spacing k) := by
  have hdvd : 2 ^ spacing k ∣ k + 2 ^ spacing k := Dvd.dvd.add h (dvd_refl _)
  by_cases hlt : k + 2 ^ spacing k < 2 ^ (53 + spacing k)
  · exact onGrid_of_dvd (spacing_le_of_lt_pow hlt) hdvd
  · obtain ⟨m, hm⟩ := h
    have h1 := lt_pow_spacing k
    have hpos : 0 < 2 ^ spacing k := by positivity
    have h2 : m < 2 ^ 53 := by
      by_contra hcon
      have : 2 ^ (53 + spacing k) ≤ k := by
        calc 2 ^ (53 + spacing k) = 2 ^ spacing k * 2 ^ 53 := by rw [pow_add, mul_comm]
          _ ≤ 2 ^ spacing k * m := Nat.mul_le_mul_left _ (not_lt.mp hcon)
          _ = k := hm.symm
      exact absurd h1 (not_lt.mpr this)
    have h3 : k + 2 ^ spacing k = 2 ^ (53 + spacing k) := by
      apply le_antisymm _ (not_lt.mp hlt)
      calc k + 2 ^ spacing k = 2 ^ spacing k * (m + 1) := by
            rw [mul_add, mul_one]
            exact congrArg (· + 2 ^ spacing k) hm
        _ ≤ 2 ^ spacing k * 2 ^ 53 := Nat.mul_le_mul_left _ h2
        _ = 2 ^ (53 + spacing k) := by rw [pow_add, mul_comm]
    have h4 : spacing (2 ^ (53 + spacing k)) = spacing k + 1 := by
      rw [spacing_eq (2 ^ (53 + spacing k)), Nat.log2_eq_log_two, Nat.log_pow (by norm_num)]
      omega
    unfold OnGrid
    rw [h3, h4]
    exact pow_dvd_pow 2 (by omega)

/-- The two constants are powers of 2 far enough apart. -/
theorem units_facts : ∃ e E, unitsPerOne = 2 ^ e ∧ unitsBound = 2 ^ E ∧ e + 54 ≤ E :=
  ⟨1074, 2098, unitsPerOne_eq, unitsBound_eq, by norm_num⟩

theorem onGrid_mul_pow {n : Nat} (e : Nat) (h : n ≤ 2 ^ 53) : OnGrid (n * 2 ^ e) := by
  rcases Nat.eq_or_lt_of_le h with e1 | hlt
  · subst e1
    have h4 : spacing (2 ^ 53 * 2 ^ e) = e + 1 := by
      rw [← pow_add, spacing_eq, Nat.log2_eq_log_two, Nat.log_pow (by norm_num)]
      omega
    unfold OnGrid
    rw [h4, ← pow_add]
    exact pow_dvd_pow 2 (by omega)
  · have h1 : n * 2 ^ e < 2 ^ (53 + e) := by
      rw [pow_add]
      exact Nat.mul_lt_mul_of_pos_right hlt (by positivity)
    exact onGrid_of_dvd (spacing_le_of_lt_pow h1) (Dvd.intro_left n rfl)

/-- Every whole number up to `2 ^ 53` is a binary64 number. -/
theorem isDouble_natCast {n : Nat} (h : n ≤ 2 ^ 53) : IsDouble (n : ℚ) := by
  obtain ⟨e, E, hU, hB, heE⟩ := units_facts
  have hlt : n * unitsPerOne < unitsBound := by
    rw [hU, hB]
    calc n * 2 ^ e ≤ 2 ^ 53 * 2 ^ e := Nat.mul_le_mul_right _ h
      _ = 2 ^ (53 + e) := by rw [pow_add]
      _ < 2 ^ E := Nat.pow_lt_pow_right (by norm_num) (by omega)
  have hg : OnGrid (n * unitsPerOne) := by rw [hU]; exact onGrid_mul_pow e h
  have := isDouble_of_onGrid hg hlt
  have e1 : ((n * unitsPerOne : Nat) : ℚ) / unitsPerOne = (n : ℚ) := by
    rw [Nat.cast_mul]
    exact mul_div_cancel_right₀ _ (ne_of_gt unitsPerOne_pos)
  rw [e1] at this
  exact this

/-- Taking a binary64 number `q` off a binary64 number `r` of at most `2 ^ 52` times `q`
leaves, after rounding, a smaller number: the subtraction is not absorbed. -/
theorem round64_sub_lt {r q : ℚ} (hq : 0 < q) (hdq : IsDouble q) (hdr : IsDouble r)
    (hqr : q ≤ r) (hb : r ≤ 2 ^ 52 * q) :
    ∃ r', round64 (r - q) = FloatVal.num r' ∧ 0 ≤ r' ∧ r' < r ∧ IsDouble r' := by
  have hU := unitsPerOne_pos
  obtain ⟨R, hR, hRlt, rfl⟩ := isDouble_units (le_trans hq.le hqr) hdr
  obtain ⟨Q, -, -, rfl⟩ := isDouble_units hq.le hdq
  have hQ1 : 1 ≤ Q := by
    have : (0 : ℚ) < (Q : ℚ) := by
      rcases Nat.eq_zero_or_pos Q with h | h
      · subst h; simp at hq
      · exact_mod_cast h
    exact_mod_cast this
  have hQR : Q ≤ R := by
    have := (div_le_div_iff_of_pos_right hU).mp hqr
    exact_mod_cast this
  have hRQ : R ≤ 2 ^ 52 * Q := by
    have h1 : (R : ℚ) / unitsPerOne ≤ (2 ^ 52 * (Q : ℚ)) / unitsPerOne := by
      rw [mul_div_assoc]; exact hb
    have := (div_le_div_iff_of_pos_right hU).mp h1
    exact_mod_cast this
  have hs : 2 ^ spacing R ≤ Q := by
    rcases Nat.eq_zero_or_pos (spacing R) with h0 | hpos
    · rw [h0]; simpa using hQ1
    · have h1 := le_of_spacing_pos hpos
      have h2 : 2 ^ 52 * 2 ^ spacing R ≤ 2 ^ 52 * Q := by
        rw [← pow_add]; exact le_trans h1 hRQ
      exact Nat.le_of_mul_le_mul_left h2 (by positivity)
  have hsR : 2 ^ spacing R ≤ R := le_trans hs hQR
  have hPlt : R - 2 ^ spacing R < R := Nat.sub_lt (by omega) (by positivity)
  have hP := isDouble_of_onGrid (onGrid_sub hR) (lt_trans hPlt hRlt)
  have hx0 : (0 : ℚ) ≤ (R : ℚ) / unitsPerOne - (Q : ℚ) / unitsPerOne := by linarith
  have hxP : (R : ℚ) / unitsPerOne - (Q : ℚ) / unitsPerOne
      ≤ ((R - 2 ^ spacing R : Nat) : ℚ) / unitsPerOne := by
    rw [← sub_div]
    apply div_le_div_of_nonneg_right _ hU.le
    rw [Nat.cast_sub hsR]
    have : ((2 ^ spacing R : Nat) : ℚ) ≤ (Q : ℚ) := by exact_mod_cast hs
    linarith
  obtain ⟨r', e, h0, hle, hd⟩ := round64_le hx0 hP hxP
  refine ⟨r', e, h0, lt_of_le_of_lt hle ?_, hd⟩
  apply div_lt_div_of_pos_right _ hU
  exact_mod_cast hPlt

/-- Adding 1 to a binary64 number below `2 ^ 53` gives, after rounding, a larger number. -/
theorem round64_add_one_gt {c : ℚ} (hc : 0 ≤ c) (hd : IsDouble c) (hlt : c < 2 ^ 53) :
    round64 (c + 1) = FloatVal.posInf
      ∨ ∃ c', round64 (c + 1) = FloatVal.num c' ∧ c < c' ∧ IsDouble c' := by
  have hU := unitsPerOne_pos
  obtain ⟨C, hC, hClt, rfl⟩ := isDouble_units hc hd
  obtain ⟨e, E, hUe, hB, heE⟩ := units_facts
  have hC1 : C < 2 ^ (53 + e) := by
    have h1 : (C : ℚ) < 2 ^ 53 * (unitsPerOne : ℚ) := (div_lt_iff₀ hU).mp hlt
    have h2 : C < 2 ^ 53 * unitsPerOne := by exact_mod_cast h1
    rw [hUe, ← pow_add] at h2
    exact h2
  have hs : spacing C ≤ e := spacing_le_of_lt_pow hC1
  have hsU : 2 ^ spacing C ≤ unitsPerOne := by
    rw [hUe]
    exact Nat.pow_le_pow_right (by norm_num) hs
  have hSlt : C + 2 ^ spacing C < unitsBound := by
    have h0 : 2 ^ spacing C ≤ 2 ^ (53 + e) :=
      Nat.pow_le_pow_right (by norm_num) (by omega)
    have h1 : C + 2 ^ spacing C < 2 ^ (53 + e) + 2 ^ (53 + e) := Nat.add_lt_add_of_lt_of_le hC1 h0
    have h3 : 2 ^ (53 + e) + 2 ^ (53 + e) = 2 ^ (53 + e + 1) := by
      rw [pow_succ]; ring
    have h4 : 2 ^ (53 + e + 1) ≤ 2 ^ E := Nat.pow_le_pow_right (by norm_num) (by omega)
    rw [hB]
    exact lt_of_lt_of_le (h3 ▸ h1) h4
  have hS := isDouble_of_onGrid (onGrid_add hC) hSlt
  have hS0 : (0 : ℚ) ≤ ((C + 2 ^ spacing C : Nat) : ℚ) / unitsPerOne :=
    div_nonneg (Nat.cast_nonneg _) hU.le
  have hSx : ((C + 2 ^ spacing C : Nat) : ℚ) / unitsPerOne ≤ (C : ℚ) / unitsPerOne + 1 := by
    rw [div_add' _ _ _ (ne_of_gt hU)]
    apply div_le_div_of_nonneg_right _ hU.le
    have : ((2 ^ spacing C : Nat) : ℚ) ≤ (unitsPerOne : ℚ) := by exact_mod_cast hsU
    rw [Nat.cast_add]
    linarith
  have hgt : (C : ℚ) / unitsPerOne < ((C + 2 ^ spacing C : Nat) : ℚ) / unitsPerOne := by
    apply div_lt_div_of_pos_right _ hU
    have : C < C + 2 ^ spacing C := Nat.lt_add_of_pos_right (by positivity)
    exact_mod_cast this
  rcases round64_ge hS0 hS hSx with e | ⟨c', e, hle, hd'⟩
  · exact Or.inl e
  · exact Or.inr ⟨c', e, lt_of_lt_of_le hgt hle, hd'⟩

/-! ## The heap of the priority queue keeps its entries -/

theorem set_set_perm {l : List Nat} {i j : Nat} (hi : i < l.length) (hj : j < l.length)
    (hij : i ≠ j) (x : Nat) :
    ((l.set i (l.getD j 0)).set j x).Perm (l.set i x) := by
  rw [List.perm_iff_count]
  intro y
  have hj' : j < (l.set i (l.getD j 0)).length := by rw [List.length_set]; exact hj
  rw [List.count_set _ _ _ _ hj', List.count_set _ _ _ _ hi, List.count_set _ _ _ _ hi]
  have e1 : (l.set i (l.getD j 0))[j] = l[j] := by
    rw [List.getElem_set_ne hij]
  have e2 : l.getD j 0 = l[j] := List.getD_eq_getElem l 0 hj
  rw [e1, e2]
  split_ifs <;> omega

theorem pushHeap_perm (comp : Nat → Nat → Bool) (topIndex value : Nat) :
    ∀ (fuel : Nat) (c : List Nat) (holeIndex : Nat), holeIndex < c.length →
      (pushHeap comp fuel c holeIndex topIndex value).Perm (c.set holeIndex value) := by
  intro fuel
  induction fuel with
  | zero => intro c holeIndex _; exact List.Perm.refl _
  | succ fuel ih =>
    intro c holeIndex hlt
    unfold pushHeap
    simp only
    split
    · have hp : (holeIndex - 1) / 2 < c.length := by omega
      have hp' : (holeIndex - 1) / 2 < (c.set holeIndex (c.getD ((holeIndex - 1) / 2) 0)).length := by
        rw [List.length_set]; exact hp
      refine (ih _ _ hp').trans ?_
      by_cases he : holeIndex = (holeIndex - 1) / 2
      · rw [← he, List.set_set]
      · exact set_set_perm hlt hp he value
    · exact List.Perm.refl _

theorem adjustLoop_perm (comp : Nat → Nat → Bool) (len : Nat) :
    ∀ (fuel : Nat) (c : List Nat) (holeIndex : Nat), holeIndex < len → len ≤ c.length →
      (adjustLoop comp len fuel c holeIndex).2 < len
      ∧ (adjustLoop comp len fuel c holeIndex).1.length = c.length
      ∧ ∀ value, ((adjustLoop comp len fuel c holeIndex).1.set
          (adjustLoop comp len fuel c holeIndex).2 value).Perm (c.set holeIndex value) := by
  intro fuel
  induction fuel with
  | zero => intro c holeIndex h1 _; exact ⟨h1, rfl, fun _ => List.Perm.refl _⟩
  | succ fuel ih =>
    intro c holeIndex h1 h2
    unfold adjustLoop
    by_cases hc : holeIndex < (len - 1) / 2
    · rw [if_pos hc]
      simp only
      by_cases hcmp : comp (c.getD (2 * (holeIndex + 1)) 0) (c.getD (2 * (holeIndex + 1) - 1) 0) = true
      · simp only [hcmp, if_true]
        have hs : 2 * (holeIndex + 1) - 1 < len := by omega
        have h2' : len ≤ (c.set holeIndex (c.getD (2 * (holeIndex + 1) - 1) 0)).length := by
          rw [List.length_set]; exact h2
        obtain ⟨a, b, d⟩ := ih _ _ hs h2'
        refine ⟨a, by rw [b, List.length_set], fun value => (d value).trans ?_⟩
        exact set_set_perm (by omega) (by omega) (by omega) value
      · simp only [hcmp, Bool.false_eq_true, if_false]
        have hs : 2 * (holeIndex + 1) < len := by omega
        have h2' : len ≤ (c.set holeIndex (c.getD (2 * (holeIndex + 1)) 0)).length := by
          rw [List.length_set]; exact h2
        obtain ⟨a, b, d⟩ := ih _ _ hs h2'
        refine ⟨a, by rw [b, List.length_set], fun value => (d value).trans ?_⟩
        exact set_set_perm (by omega) (by omega) (by omega) value
    · rw [if_neg hc]
      exact ⟨h1, rfl, fun _ => List.Perm.refl _⟩

theorem adjustHeap_perm (comp : Nat → Nat → Bool) {c : List Nat} {len : Nat} (h0 : 0 < len)
    (hlen : len ≤ c.length) (value : Nat) :
    (adjustHeap comp c len value).Perm (c.set 0 value) := by
  obtain ⟨a, b, d⟩ := adjustLoop_perm comp len len c 0 h0 hlen
  unfold adjustHeap
  generalize adjustLoop comp len len c 0 = r at a b d
  obtain ⟨c1, hole1⟩ := r
  simp only at a b d ⊢
  by_cases hc : len % 2 = 0 ∧ len ≠ 0 ∧ hole1 = (len - 2) / 2
  · rw [if_pos hc]
    simp only
    obtain ⟨hev, hne, hh⟩ := hc
    have hs : 2 * (hole1 + 1) - 1 < c1.length := by omega
    have hs' : 2 * (hole1 + 1) - 1 < (c1.set hole1 (c1.getD (2 * (hole1 + 1) - 1) 0)).length := by
      rw [List.length_set]; exact hs
    refine (pushHeap_perm comp 0 value _ _ _ hs').trans ?_
    refine (set_set_perm (by omega) hs (by omega) value).trans (d value)
  · rw [if_neg hc]
    simp only
    exact (pushHeap_perm comp 0 value _ _ _ (by omega)).trans (d value)

theorem pqPush_perm (comp : Nat → Nat → Bool) (c : List Nat) (x : Nat) :
    (pqPush comp c x).Perm (c ++ [x]) := by
  unfold pqPush
  have h := pushHeap_perm comp 0 x c.length (c ++ [x]) c.length (by simp)
  have e : (c ++ [x]).set c.length x = c ++ [x] := by
    rw [List.set_append_right _ _ (le_refl _)]
    simp
  rw [e] at h
  exact h

theorem pqPop_perm (comp : Nat → Nat → Bool) (p : Nat) (rest : List Nat) :
    (p :: pqPop comp (p :: rest)).Perm (p :: rest) := by
  unfold pqPop
  cases rest with
  | nil => simp
  | cons q rest' =>
    have hlen : 1 < (p :: q :: rest').length := by simp
    rw [if_pos hlen]
    have hne : q :: rest' ≠ [] := by simp
    have hd : (p :: q :: rest').dropLast = p :: (q :: rest').dropLast := by
      simp [List.dropLast]
    have hl : (p :: q :: rest').getD ((p :: q :: rest').length - 1) 0
        = (q :: rest').getLast hne := by
      rw [List.getD_eq_getElem _ _ (by simp), List.getLast_eq_getElem]
      simp
    have h := @adjustHeap_perm comp ((p :: q :: rest').dropLast)
      ((p :: q :: rest').length - 1) (by simp) (by simp)
      ((p :: q :: rest').getD ((p :: q :: rest').length - 1) 0)
    rw [hl, hd, List.set_cons_zero] at h
    rw [hl, hd]
    apply List.Perm.cons
    refine h.trans ?_
    have e := List.dropLast_append_getLast (l := q :: rest') hne
    calc ((q :: rest').getLast hne :: (q :: rest').dropLast).Perm
          ((q :: rest').dropLast ++ [(q :: rest').getLast hne]) :=
            (List.perm_append_singleton _ _).symm
      _ = q :: rest' := e

/-! ## The ledger in binary64: lemmas on the data model -/

theorem jobAt64_cons_zero (j : Job64) (js : List Job64) : jobAt64 (j :: js) 0 = j := rfl

theorem jobAt64_cons_succ (j : Job64) (js : List Job64) (i : Nat) :
    jobAt64 (j :: js) (i + 1) = jobAt64 js i := rfl

theorem jobAt64_set_self {jobs : List Job64} {p : Nat} (h : p < jobs.length) (j : Job64) :
    jobAt64 (jobs.set p j) p = j := by
  simp [jobAt64, List.getD_eq_getElem, h]

theorem jobAt64_set_ne {jobs : List Job64} {p i : Nat} (h : p ≠ i) (j : Job64) :
    jobAt64 (jobs.set p j) i = jobAt64 jobs i := by
  simp [jobAt64, List.getD_eq_getElem?_getD, List.getElem?_set_ne h]

/-! ## SJF in binary64: one iteration and the invariant -/

theorem sjfAdmit64_perm (jobs : List Job64) (flags : List Bool) (t : FloatVal) :
    ∀ (ps c : List Nat), (sjfAdmit64 jobs flags t ps c).Perm
      (c ++ ps.filter (fun p => !flagAt flags (jobAt64 jobs p).id
        && FloatVal.le (jobAt64 jobs p).arrivalTime t)) := by
  intro ps
  induction ps with
  | nil => intro c; simp [sjfAdmit64]
  | cons p ps ih =>
    intro c
    unfold sjfAdmit64
    by_cases he : (!flagAt flags (jobAt64 jobs p).id
        && FloatVal.le (jobAt64 jobs p).arrivalTime t) = true
    · rw [if_pos he, List.filter_cons]
      simp only [he, if_true]
      refine (ih _).trans ?_
      have := (pqPush_perm (compareBurst jobs) c p).append_right
        (ps.filter (fun p => !flagAt flags (jobAt64 jobs p).id
          && FloatVal.le (jobAt64 jobs p).arrivalTime t))
      simpa using this
    · rw [if_neg he, List.filter_cons]
      simp only [he, Bool.false_eq_true, if_false]
      exact ih _

theorem sjfAdmitted64_perm (s : SJFState64) :
    (sjfAdmitted64 s).Perm (s.jobQueue ++ sjfNew64 s) :=
  sjfAdmit64_perm _ _ _ _ _

theorem sjfIter64_finished {s : SJFState64} (hf : s.finished = true) :
    sjfIter64 s = (SJFEvent.halted, s) := by
  simp [sjfIter64, hf]

theorem sjfIter64_idle {s : SJFState64} (hf : s.finished = false)
    (hq : sjfAdmitted64 s = []) :
    sjfIter64 s = (SJFEvent.idle,
      { s with jobQueue := [], current_time := FloatVal.add s.current_time (FloatVal.num 1) }) := by
  simp only [sjfIter64, hf, Bool.false_eq_true, if_false]
  rw [hq]

theorem sjfIter64_dispatch {s : SJFState64} (hf : s.finished = false) {p : Nat}
    {rest : List Nat} (hq : sjfAdmitted64 s = p :: rest) :
    sjfIter64 s = (SJFEvent.dispatch p,
      { jobs := s.jobs.set p { jobAt64 s.jobs p with
            completionTime := FloatVal.add s.current_time (jobAt64 s.jobs p).burstTime
            turnaroundTime := FloatVal.sub
              (FloatVal.add s.current_time (jobAt64 s.jobs p).burstTime)
              (jobAt64 s.jobs p).arrivalTime
            waitingTime := FloatVal.sub (FloatVal.sub
              (FloatVal.add s.current_time (jobAt64 s.jobs p).burstTime)
              (jobAt64 s.jobs p).arrivalTime) (jobAt64 s.jobs p).burstTime }
        jobQueue := pqPop (compareBurst s.jobs) (p :: rest)
        isCompleted := s.isCompleted.set (jobAt64 s.jobs p).id true
        current_time := FloatVal.add s.current_time (jobAt64 s.jobs p).burstTime
        finished := allSet (s.isCompleted.set (jobAt64 s.jobs p).id true) }) := by
  simp only [sjfIter64, hf, Bool.false_eq_true, if_false]
  rw [hq]

theorem mem_sjfNew64 {orig : List Job64} (hv : Valid64 orig) {s : SJFState64}
    (inv : SJFInv64 orig s) (p : Nat) :
    p ∈ sjfNew64 s ↔ p < orig.length ∧ flagAt s.isCompleted p = false
      ∧ FloatVal.le (jobAt64 orig p).arrivalTime s.current_time = true := by
  unfold sjfNew64
  rw [List.mem_filter, List.mem_range, inv.len]
  constructor
  · rintro ⟨hp, hc⟩
    have hidp : (jobAt64 s.jobs p).id = p := by rw [(inv.same p hp).1]; exact (hv p hp).1
    simp only [hidp, (inv.same p hp).2.1, Bool.and_eq_true, Bool.not_eq_true'] at hc
    exact ⟨hp, hc.1, hc.2⟩
  · rintro ⟨hp, hc, ha⟩
    have hidp : (jobAt64 s.jobs p).id = p := by rw [(inv.same p hp).1]; exact (hv p hp).1
    refine ⟨hp, ?_⟩
    simp [hidp, (inv.same p hp).2.1, hc, ha]

theorem sjfInv64_init {orig : List Job64} (hne : orig ≠ []) : SJFInv64 orig (sjfInit64 orig) where
  len := rfl
  flags := by simp [sjfInit64]
  same := by intro p _; simp [sjfInit64]
  queue := by simp [sjfInit64]
  clock := FloatVal.isTime_zero.nonNeg
  done := by
    intro p _ h
    simp [sjfInit64, flagAt_replicate] at h
  live := by
    show false = allSet (List.replicate orig.length false)
    rw [allSet_replicate_false (List.length_pos.mpr hne)]

theorem sjfAdmitted64_mem {orig : List Job64} (hv : Valid64 orig) {s : SJFState64}
    (inv : SJFInv64 orig s) {q : Nat} (hq : q ∈ sjfAdmitted64 s) :
    q < orig.length ∧ FloatVal.le (jobAt64 orig q).arrivalTime s.current_time = true := by
  have := (sjfAdmitted64_perm s).mem_iff.mp hq
  rcases List.mem_append.mp this with h | h
  · exact inv.queue q h
  · have := (mem_sjfNew64 hv inv q).mp h
    exact ⟨this.1, this.2.2⟩

theorem sjfInv64_step {orig : List Job64} (hv : Valid64 orig) {s : SJFState64}
    (inv : SJFInv64 orig s) : SJFInv64 orig (sjfStep64 s) := by
  unfold sjfStep64
  cases hf : s.finished with
  | true => rw [sjfIter64_finished hf]; exact inv
  | false =>
    cases hq : sjfAdmitted64 s with
    | nil =>
      rw [sjfIter64_idle hf hq]
      exact
        { len := inv.len
          flags := inv.flags
          same := inv.same
          queue := by intro q hq'; simp at hq'
          clock := FloatVal.add_nonNeg inv.clock (FloatVal.isTime_num zero_le_one isDouble_one).nonNeg
          done := inv.done
          live := inv.live }
    | cons p rest =>
      rw [sjfIter64_dispatch hf hq]
      have hpq : p ∈ sjfAdmitted64 s := by rw [hq]; exact List.mem_cons_self _ _
      have hpa := sjfAdmitted64_mem hv inv hpq
      have hp : p < orig.length := hpa.1
      have hps : p < s.jobs.length := by rw [inv.len]; exact hp
      have hidp : (jobAt64 s.jobs p).id = p := by rw [(inv.same p hp).1]; exact (hv p hp).1
      have harr : (jobAt64 orig p).arrivalTime.IsTime := (hv p hp).2.1
      have hburst : (jobAt64 orig p).burstTime.IsTime := (hv p hp).2.2.1
      have hclock' : (FloatVal.add s.current_time (jobAt64 orig p).burstTime).NonNeg :=
        FloatVal.add_nonNeg inv.clock hburst.nonNeg
      have hmono : FloatVal.le s.current_time
          (FloatVal.add s.current_time (jobAt64 orig p).burstTime) = true :=
        FloatVal.le_add_right inv.clock hburst.nonNeg
      refine
        { len := by simp [inv.len]
          flags := by simp [inv.flags]
          same := ?_
          queue := ?_
          clock := by rw [(inv.same p hp).2.2]; exact hclock'
          done := ?_
          live := rfl }
      · intro i hi
        by_cases hpi : p = i
        · subst hpi
          simp only [jobAt64_set_self hps]
          exact inv.same p hp
        · simp only [jobAt64_set_ne hpi]
          exact inv.same i hi
      · intro q hq'
        have hq2 : q ∈ p :: pqPop (compareBurst s.jobs) (p :: rest) :=
          List.mem_cons_of_mem _ hq'
        have hq3 : q ∈ sjfAdmitted64 s := by
          rw [hq]
          exact (pqPop_perm _ p rest).mem_iff.mp hq2
        have := sjfAdmitted64_mem hv inv hq3
        refine ⟨this.1, ?_⟩
        rw [(inv.same p hp).2.2]
        exact FloatVal.le_trans_of_nonNeg (hv q this.1).2.1.nonNeg inv.clock hclock' this.2 hmono
      · intro i hi hflag
        by_cases hpi : p = i
        · subst hpi
          simp only [jobAt64_set_self hps]
          rw [(inv.same p hp).2.1, (inv.same p hp).2.2]
          exact ⟨FloatVal.le_trans_of_nonNeg harr.nonNeg inv.clock hclock' hpa.2 hmono,
            hclock', rfl, rfl⟩
        · simp only [jobAt64_set_ne hpi]
          simp only [hidp, flagAt_set_ne hpi] at hflag
          exact inv.done i hi hflag

theorem sjfInv64_run {orig : List Job64} (hne : orig ≠ []) (hv : Valid64 orig) (n : Nat) :
    SJFInv64 orig (sjfRun64 n (sjfInit64 orig)) := by
  induction n with
  | zero => exact sjfInv64_init hne
  | succ k ih =>
    unfold sjfRun64 at ih ⊢
    rw [Function.iterate_succ_apply']
    exact sjfInv64_step hv ih

/-! ## SJF in binary64: runs -/

theorem sjfStep64_of_finished {s : SJFState64} (hf : s.finished = true) : sjfStep64 s = s := by
  unfold sjfStep64
  rw [sjfIter64_finished hf]

theorem sjfRun64_of_finished {s : SJFState64} (hf : s.finished = true) (n : Nat) :
    sjfRun64 n s = s := by
  induction n with
  | zero => rfl
  | succ k ih =>
    unfold sjfRun64 at ih ⊢
    rw [Function.iterate_succ_apply', ih, sjfStep64_of_finished hf]

theorem sjfRun64_add (m n : Nat) (s : SJFState64) :
    sjfRun64 (m + n) s = sjfRun64 n (sjfRun64 m s) := by
  unfold sjfRun64
  rw [Nat.add_comm, Function.iterate_add_apply]

theorem sjfRun64_succ (n : Nat) (s : SJFState64) :
    sjfRun64 (n + 1) s = sjfRun64 n (sjfStep64 s) := by
  unfold sjfRun64
  rw [Function.iterate_succ_apply]

theorem sjfRun64_succ_last (n : Nat) (s : SJFState64) :
    sjfRun64 (n + 1) s = sjfStep64 (sjfRun64 n s) := by
  unfold sjfRun64
  rw [Function.iterate_succ_apply']

theorem performSJF64_finished {jobs : List Job64} {fuel : Nat} {r : List Job64}
    (h : performSJF64 fuel jobs = some r) :
    (sjfRun64 fuel (sjfInit64 jobs)).finished = true
      ∧ r = (sjfRun64 fuel (sjfInit64 jobs)).jobs := by
  unfold performSJF64 at h
  by_cases hf : (sjfRun64 fuel (sjfInit64 jobs)).finished = true
  · simp only [hf, if_true, Option.some.injEq] at h
    exact ⟨hf, h.symm⟩
  · simp [hf] at h

theorem performSJF64_of_finished {jobs : List Job64} {fuel : Nat}
    (hf : (sjfRun64 fuel (sjfInit64 jobs)).finished = true) :
    performSJF64 fuel jobs = some (sjfRun64 fuel (sjfInit64 jobs)).jobs := by
  unfold performSJF64
  simp only [hf, if_true]

/-- Once the loop is left, more iterations change nothing. -/
theorem sjf64_fuel_irrelevant {s : SJFState64} {m n : Nat} (hmn : m ≤ n)
    (hf : (sjfRun64 m s).finished = true) : sjfRun64 n s = sjfRun64 m s := by
  obtain ⟨k, rfl⟩ := Nat.exists_eq_add_of_le hmn
  rw [sjfRun64_add, sjfRun64_of_finished hf]

/-- What `performSJF` returns does not depend on the number of iterations allowed. -/
theorem performSJF64_unique {jobs : List Job64} {f1 f2 : Nat} {r1 r2 : List Job64}
    (h1 : performSJF64 f1 jobs = some r1) (h2 : performSJF64 f2 jobs = some r2) : r1 = r2 := by
  obtain ⟨hf1, e1⟩ := performSJF64_finished h1
  obtain ⟨hf2, e2⟩ := performSJF64_finished h2
  rcases Nat.le_total f1 f2 with h | h
  · rw [e1, e2, sjf64_fuel_irrelevant h hf1]
  · rw [e1, e2, sjf64_fuel_irrelevant h hf2]

/-! ## SJF in binary64: termination -/

theorem floor_units {q : ℚ} (h0 : 0 ≤ q) (hd : IsDouble q) :
    ((⌊q * unitsPerOne⌋₊ : Nat) : ℚ) = q * unitsPerOne := by
  obtain ⟨k, -, -, rfl⟩ := isDouble_units h0 hd
  rw [div_mul_cancel₀ _ (ne_of_gt unitsPerOne_pos), Nat.floor_natCast]

theorem floor_units_lt {a b : ℚ} (ha : 0 ≤ a) (hda : IsDouble a) (hdb : IsDouble b)
    (h : a < b) : ⌊a * unitsPerOne⌋₊ < ⌊b * unitsPerOne⌋₊ := by
  have h1 := floor_units ha hda
  have h2 := floor_units (le_trans ha h.le) hdb
  have h3 : a * unitsPerOne < b * unitsPerOne := mul_lt_mul_of_pos_right h unitsPerOne_pos
  have : ((⌊a * unitsPerOne⌋₊ : Nat) : ℚ) < ((⌊b * unitsPerOne⌋₊ : Nat) : ℚ) := by
    rw [h1, h2]; exact h3
  exact_mod_cast this

/-- An idle step taken below `2 ^ 53` brings the clock nearer to `2 ^ 53`. -/
theorem idleBudget64_step {c : ℚ} (h0 : 0 ≤ c) (hd : IsDouble c) (hlt : c < 2 ^ 53) :
    idleBudget64 (FloatVal.add (FloatVal.num c) (FloatVal.num 1))
      < idleBudget64 (FloatVal.num c) := by
  have hpos : ⌊c * unitsPerOne⌋₊ < 2 ^ 53 * unitsPerOne := by
    have h1 := floor_units h0 hd
    have h2 : c * unitsPerOne < 2 ^ 53 * (unitsPerOne : ℚ) :=
      mul_lt_mul_of_pos_right hlt unitsPerOne_pos
    have : ((⌊c * unitsPerOne⌋₊ : Nat) : ℚ) < ((2 ^ 53 * unitsPerOne : Nat) : ℚ) := by
      rw [h1]; push_cast; exact h2
    exact_mod_cast this
  rw [FloatVal.add_num]
  rcases round64_add_one_gt h0 hd hlt with e | ⟨c', e, hgt, hd'⟩
  · rw [e]
    show 0 < 2 ^ 53 * unitsPerOne - ⌊c * unitsPerOne⌋₊
    exact Nat.sub_pos_of_lt hpos
  · rw [e]
    show 2 ^ 53 * unitsPerOne - ⌊c' * unitsPerOne⌋₊ < 2 ^ 53 * unitsPerOne - ⌊c * unitsPerOne⌋₊
    have := floor_units_lt h0 hd hd' hgt
    exact Nat.sub_lt_sub_left hpos this

/-- With the queue empty and a job that has not arrived, the clock is a number below the
arrival time of that job. -/
theorem clock_lt_of_not_arrived {a t : FloatVal} (ha : a.IsTime) (ht : t.NonNeg)
    (hb : FloatVal.le a (FloatVal.num (2 ^ 53)) = true) (h : FloatVal.le a t = false) :
    ∃ c, t = FloatVal.num c ∧ 0 ≤ c ∧ IsDouble c ∧ c < 2 ^ 53 := by
  obtain ⟨x, rfl, -, -⟩ := ha.cases_isTime
  rcases ht.cases_nonNeg with rfl | ⟨c, rfl, hc, hd⟩
  · simp [FloatVal.le] at h
  · rw [FloatVal.le_num] at h hb
    have h1 : c < x := by simpa using h
    have h2 : x ≤ 2 ^ 53 := by simpa using hb
    exact ⟨c, rfl, hc, hd, lt_of_lt_of_le h1 h2⟩

/-- An iteration of the running loop makes progress: it completes a job, or it removes from
the queue an entry of a completed job, or it is idle and brings the clock nearer to the next
arrival. -/
theorem sjf64_progress {orig : List Job64} (hv : Valid64 orig) (hb : ArrivalsReachable orig)
    {s : SJFState64} (inv : SJFInv64 orig s) (hf : s.finished = false) :
    sjfOpen64 (sjfStep64 s) < sjfOpen64 s
    ∨ (sjfOpen64 (sjfStep64 s) = sjfOpen64 s ∧ sjfStale64 (sjfStep64 s) < sjfStale64 s)
    ∨ (sjfOpen64 (sjfStep64 s) = sjfOpen64 s ∧ sjfStale64 (sjfStep64 s) = sjfStale64 s
      ∧ idleBudget64 (sjfStep64 s).current_time < idleBudget64 s.current_time) := by
  unfold sjfStep64
  cases hq : sjfAdmitted64 s with
  | nil =>
    right; right
    rw [sjfIter64_idle hf hq]
    have hperm := sjfAdmitted64_perm s
    rw [hq] at hperm
    have hnil : s.jobQueue ++ sjfNew64 s = [] := (List.Perm.nil_eq hperm).symm
    have hq0 : s.jobQueue = [] := (List.append_eq_nil.mp hnil).1
    have hnew : sjfNew64 s = [] := (List.append_eq_nil.mp hnil).2
    refine ⟨rfl, ?_, ?_⟩
    · simp [sjfStale64, hq0]
    · have hall : allSet s.isCompleted = false := by rw [← inv.live]; exact hf
      obtain ⟨p, hp, hflag⟩ := exists_not_completed hall
      rw [inv.flags] at hp
      have hlate : FloatVal.le (jobAt64 orig p).arrivalTime s.current_time = false := by
        cases h : FloatVal.le (jobAt64 orig p).arrivalTime s.current_time with
        | false => rfl
        | true =>
          have hmem := (mem_sjfNew64 hv inv p).mpr ⟨hp, hflag, h⟩
          rw [hnew] at hmem
          simp at hmem
      obtain ⟨c, hc, h0, hd, hlt⟩ :=
        clock_lt_of_not_arrived (hv p hp).2.1 inv.clock (hb p hp) hlate
      show idleBudget64 (FloatVal.add s.current_time (FloatVal.num 1)) < idleBudget64 s.current_time
      rw [hc]
      exact idleBudget64_step h0 hd hlt
  | cons p rest =>
    rw [sjfIter64_dispatch hf hq]
    have hpq : p ∈ sjfAdmitted64 s := by rw [hq]; exact List.mem_cons_self _ _
    have hp : p < orig.length := (sjfAdmitted64_mem hv inv hpq).1
    have hps : p < s.jobs.length := by rw [inv.len]; exact hp
    have hpf : p < s.isCompleted.length := by rw [inv.flags]; exact hp
    have hidp : (jobAt64 s.jobs p).id = p := by rw [(inv.same p hp).1]; exact (hv p hp).1
    cases hflag : flagAt s.isCompleted p with
    | false =>
      left
      unfold sjfOpen64
      simp only [List.length_set, hidp]
      apply Finset.sum_lt_sum
      · intro i _
        by_cases hpi : p = i
        · subst hpi
          simp [flagAt_set_self hpf]
        · simp [flagAt_set_ne hpi]
      · exact ⟨p, Finset.mem_range.mpr hps, by simp [flagAt_set_self hpf, hflag]⟩
    | true =>
      right; left
      have hsame : ∀ i, flagAt (s.isCompleted.set p true) i = flagAt s.isCompleted i := by
        intro i
        by_cases hpi : p = i
        · subst hpi
          rw [flagAt_set_self hpf, hflag]
        · exact flagAt_set_ne hpi
      constructor
      · unfold sjfOpen64
        simp only [List.length_set, hidp, hsame]
      · unfold sjfStale64
        simp only [hidp, hsame]
        have hnew : (sjfNew64 s).countP (fun q => flagAt s.isCompleted q) = 0 := by
          rw [List.countP_eq_zero]
          intro q hq'
          have := ((mem_sjfNew64 hv inv q).mp hq').2.1
          simp [this]
        have h1 : (sjfAdmitted64 s).countP (fun q => flagAt s.isCompleted q)
            = s.jobQueue.countP (fun q => flagAt s.isCompleted q) := by
          rw [(sjfAdmitted64_perm s).countP_eq, List.countP_append, hnew, Nat.add_zero]
        have h1' : (p :: rest).countP (fun q => flagAt s.isCompleted q)
            = s.jobQueue.countP (fun q => flagAt s.isCompleted q) := by
          rw [← hq]; exact h1
        have h2 := (pqPop_perm (compareBurst s.jobs) p rest).countP_eq
          (fun q => flagAt s.isCompleted q)
        rw [List.countP_cons_of_pos _ _ hflag, h1'] at h2
        rw [← h2]
        exact Nat.lt_succ_self _

theorem sjf64_terminates_from {orig : List Job64} (hv : Valid64 orig)
    (hb : ArrivalsReachable orig) :
    ∀ (a b c : Nat) (s : SJFState64), SJFInv64 orig s → sjfOpen64 s = a →
      sjfStale64 s = b → idleBudget64 s.current_time = c →
      ∃ n, (sjfRun64 n s).finished = true := by
  intro a
  induction a using Nat.strong_induction_on with
  | _ a iha =>
    intro b
    induction b using Nat.strong_induction_on with
    | _ b ihb =>
      intro c
      induction c using Nat.strong_induction_on with
      | _ c ihc =>
        intro s inv ha hb' hc
        cases hf : s.finished with
        | true => exact ⟨0, by simpa [sjfRun64] using hf⟩
        | false =>
          have inv' := sjfInv64_step hv inv
          rcases sjf64_progress hv hb inv hf with h | ⟨h1, h2⟩ | ⟨h1, h2, h3⟩
          · obtain ⟨n, hn⟩ := iha _ (by rw [← ha]; exact h) _ _ _ inv' rfl rfl rfl
            exact ⟨n + 1, by rw [sjfRun64_succ]; exact hn⟩
          · obtain ⟨n, hn⟩ := ihb _ (by rw [← hb']; exact h2) _ _ inv'
              (by rw [h1, ha]) rfl rfl
            exact ⟨n + 1, by rw [sjfRun64_succ]; exact hn⟩
          · obtain ⟨n, hn⟩ := ihc _ (by rw [← hc]; exact h3) _ inv'
              (by rw [h1, ha]) (by rw [h2, hb']) rfl
            exact ⟨n + 1, by rw [sjfRun64_succ]; exact hn⟩

/-- On a non-empty valid ledger whose arrival times are at most `2 ^ 53`, `performSJF`
returns. -/
theorem performSJF64_terminates {orig : List Job64} (hne : orig ≠ []) (hv : Valid64 orig)
    (hb : ArrivalsReachable orig) : ∃ fuel r, performSJF64 fuel orig = some r := by
  obtain ⟨n, hn⟩ := sjf64_terminates_from hv hb _ _ _ _ (sjfInv64_init hne) rfl rfl rfl
  exact ⟨n, _, performSJF64_of_finished hn⟩

/-! ## Round-Robin in binary64: the quantum -/

theorem isDouble_inv_1024 : IsDouble (1 / 1024) := by decide!

theorem quantum64_nonNeg {timeSlice : Int} (h : 0 ≤ timeSlice) : (quantum64 timeSlice).NonNeg := by
  unfold quantum64 FloatVal.ofInt
  have h0 : (0 : ℚ) ≤ (timeSlice : ℚ) := by exact_mod_cast h
  rcases (round64_nonneg h0).cases_nonNeg with e | ⟨a, e, ha, -⟩
  · rw [e]
    simp [FloatVal.div, FloatVal.NonNeg]
  · rw [e]
    have e2 : FloatVal.div (FloatVal.num a) (FloatVal.num 1000) = round64 (a / 1000) := by
      simp [FloatVal.div]
    rw [e2]
    exact round64_nonneg (by positivity)

/-- A positive `timeSlice` gives a positive quantum: an infinity, or a number of at least
`1 / 1024`. -/
theorem quantum64_pos {timeSlice : Int} (h : 0 < timeSlice) :
    quantum64 timeSlice = FloatVal.posInf
      ∨ ∃ q, quantum64 timeSlice = FloatVal.num q ∧ 1 / 1024 ≤ q ∧ IsDouble q := by
  unfold quantum64 FloatVal.ofInt
  have h1 : (1 : ℚ) ≤ (timeSlice : ℚ) := by exact_mod_cast h
  rcases round64_ge zero_le_one isDouble_one h1 with e | ⟨a, e, ha, -⟩
  · left
    rw [e]
    simp [FloatVal.div]
  · rw [e]
    have e2 : FloatVal.div (FloatVal.num a) (FloatVal.num 1000) = round64 (a / 1000) := by
      simp [FloatVal.div]
    rw [e2]
    have h2 : (1 : ℚ) / 1024 ≤ a / 1000 := by
      rw [div_le_div_iff₀ (by norm_num) (by norm_num)]
      linarith
    rcases round64_ge (by norm_num) isDouble_inv_1024 h2 with e3 | ⟨q, e3, hq, hd⟩
    · exact Or.inl e3
    · exact Or.inr ⟨q, e3, hq, hd⟩

/-! ## Round-Robin in binary64: the admission scan -/

theorem rrAdmit64_length (jobs : List Job64) (c : List Bool) (t : FloatVal) :
    ∀ (ps q : List Nat) (inq : List Bool),
      (rrAdmit64 jobs c t ps (q, inq)).2.length = inq.length := by
  intro ps
  induction ps with
  | nil => intro q inq; rfl
  | cons p ps ih =>
    intro q inq
    simp only [rrAdmit64]
    split
    · rw [ih]; simp
    · rw [ih]

theorem rrEligible64_congr {jobs : List Job64} {c inq inq' : List Bool} {t : FloatVal} {p : Nat}
    (h : flagAt inq' (jobAt64 jobs p).id = flagAt inq (jobAt64 jobs p).id) :
    rrEligible64 jobs c inq' t p = rrEligible64 jobs c inq t p := by
  simp [rrEligible64, h]

/-- With ids equal to positions, the admission scan appends to the queue exactly the scanned
positions that pass the admission test on entry to the scan. -/
theorem rrAdmit64_queue (jobs : List Job64) (c : List Bool) (t : FloatVal) :
    ∀ (ps q : List Nat) (inq : List Bool), ps.Nodup → (∀ p ∈ ps, (jobAt64 jobs p).id = p) →
      (rrAdmit64 jobs c t ps (q, inq)).1 = q ++ ps.filter (rrEligible64 jobs c inq t) := by
  intro ps
  induction ps with
  | nil => intro q inq _ _; simp [rrAdmit64]
  | cons p ps ih =>
    intro q inq hnd hid
    have hnd' : ps.Nodup := (List.nodup_cons.mp hnd).2
    have hp : p ∉ ps := (List.nodup_cons.mp hnd).1
    have hid' : ∀ x ∈ ps, (jobAt64 jobs x).id = x := fun x hx => hid x (List.mem_cons_of_mem _ hx)
    simp only [rrAdmit64]
    by_cases he : rrEligible64 jobs c inq t p = true
    · simp only [he, if_true, List.filter_cons_of_pos]
      rw [ih _ _ hnd' hid', List.append_assoc]
      congr 1
      simp only [List.singleton_append]
      congr 1
      apply List.filter_congr
      intro x hx
      apply rrEligible64_congr
      rw [hid' x hx, hid p (List.mem_cons_self _ _)]
      exact flagAt_set_ne (fun h => hp (h ▸ hx))
    · simp only [he, Bool.false_eq_true, if_false]
      rw [ih _ _ hnd' hid']
      simp [he]

/-- With ids equal to positions, the admission scan flags exactly the positions it pushes. -/
theorem rrAdmit64_flag (jobs : List Job64) (c : List Bool) (t : FloatVal) :
    ∀ (ps q : List Nat) (inq : List Bool), ps.Nodup → (∀ p ∈ ps, (jobAt64 jobs p).id = p) →
      (∀ p ∈ ps, p < inq.length) → ∀ i,
      (flagAt (rrAdmit64 jobs c t ps (q, inq)).2 i = true
        ↔ flagAt inq i = true ∨ i ∈ ps.filter (rrEligible64 jobs c inq t)) := by
  intro ps
  induction ps with
  | nil => intro q inq _ _ _ i; simp [rrAdmit64]
  | cons p ps ih =>
    intro q inq hnd hid hlt i
    have hnd' : ps.Nodup := (List.nodup_cons.mp hnd).2
    have hp : p ∉ ps := (List.nodup_cons.mp hnd).1
    have hid' : ∀ x ∈ ps, (jobAt64 jobs x).id = x := fun x hx => hid x (List.mem_cons_of_mem _ hx)
    have hidp : (jobAt64 jobs p).id = p := hid p (List.mem_cons_self _ _)
    have hpl : p < inq.length := hlt p (List.mem_cons_self _ _)
    simp only [rrAdmit64]
    by_cases he : rrEligible64 jobs c inq t p = true
    · simp only [he, if_true, List.filter_cons_of_pos]
      have hlt' : ∀ x ∈ ps, x < (inq.set (jobAt64 jobs p).id true).length := by
        intro x hx
        rw [List.length_set]
        exact hlt x (List.mem_cons_of_mem _ hx)
      rw [ih _ _ hnd' hid' hlt' i]
      have hfilt : ps.filter (rrEligible64 jobs c (inq.set (jobAt64 jobs p).id true) t)
          = ps.filter (rrEligible64 jobs c inq t) := by
        apply List.filter_congr
        intro x hx
        apply rrEligible64_congr
        rw [hid' x hx, hidp]
        exact flagAt_set_ne (fun h => hp (h ▸ hx))
      rw [hfilt, hidp, flagAt_set]
      by_cases hpi : p = i
      · subst hpi
        simp [hpl]
      · simp [hpi, Ne.symm hpi]
    · simp only [he, Bool.false_eq_true, if_false]
      rw [ih _ _ hnd' hid' (fun x hx => hlt x (List.mem_cons_of_mem _ hx)) i]
      simp [he]

/-! ## Round-Robin in binary64: one iteration -/

theorem rrIter64_finished (timeSlice overheadTime : Int) {s : RRState64}
    (hf : s.finished = true) :
    rrIter64 timeSlice overheadTime s = (RREvent.halted, s) := by
  simp [rrIter64, hf]

theorem rrIter64_idle (timeSlice overheadTime : Int) {s : RRState64} (hf : s.finished = false)
    (hq : (rrAdmitted64 s).1 = []) :
    rrIter64 timeSlice overheadTime s = (RREvent.idle,
      { s with
          readyJobs := []
          inQueue := (rrAdmitted64 s).2
          current_time := FloatVal.add s.current_time (FloatVal.num 1)
          queueLengthSum := FloatVal.add s.queueLengthSum
            (FloatVal.ofNat (rrAdmitted64 s).1.length)
          queueLengthCount := wrap32 (s.queueLengthCount + 1)
          maxQueueLength := max s.maxQueueLength
            (wrap32 (((rrAdmitted64 s).1.length : Nat) : Int)) }) := by
  simp only [rrIter64, hf, Bool.false_eq_true, if_false]
  rw [hq]

theorem rrIter64_final (timeSlice overheadTime : Int) {s : RRState64} (hf : s.finished = false)
    {p : Nat} {rest : List Nat} (hq : (rrAdmitted64 s).1 = p :: rest)
    (hr : FloatVal.le (rrLeft64 timeSlice s p) (FloatVal.num 0) = true) :
    rrIter64 timeSlice overheadTime s = (RREvent.finalSlice p,
      { jobs := s.jobs.set p { jobAt64 s.jobs p with
            remainingTime := rrLeft64 timeSlice s p
            completionTime := FloatVal.add s.current_time
              (FloatVal.min (quantum64 timeSlice) (jobAt64 s.jobs p).remainingTime)
            turnaroundTime := FloatVal.sub (FloatVal.add s.current_time
              (FloatVal.min (quantum64 timeSlice) (jobAt64 s.jobs p).remainingTime))
              (jobAt64 s.jobs p).arrivalTime
            waitingTime := FloatVal.sub (FloatVal.sub (FloatVal.add s.current_time
              (FloatVal.min (quantum64 timeSlice) (jobAt64 s.jobs p).remainingTime))
              (jobAt64 s.jobs p).arrivalTime) (jobAt64 s.jobs p).burstTime }
        readyJobs := rest
        current_time := FloatVal.add s.current_time
          (FloatVal.min (quantum64 timeSlice) (jobAt64 s.jobs p).remainingTime)
        completedJobs := s.completedJobs.set (jobAt64 s.jobs p).id true
        inQueue := (rrAdmitted64 s).2
        queueLengthSum := FloatVal.add s.queueLengthSum
          (FloatVal.ofNat (rrAdmitted64 s).1.length)
        queueLengthCount := wrap32 (s.queueLengthCount + 1)
        maxQueueLength := max s.maxQueueLength
          (wrap32 (((rrAdmitted64 s).1.length : Nat) : Int))
        finished := allSet (s.completedJobs.set (jobAt64 s.jobs p).id true) }) := by
  unfold rrLeft64 at hr
  simp only [rrIter64, hf, Bool.false_eq_true, if_false]
  rw [hq]
  simp only [hr, if_true, rrLeft64]

theorem rrIter64_preempt (timeSlice overheadTime : Int) {s : RRState64}
    (hf : s.finished = false) {p : Nat} {rest : List Nat}
    (hq : (rrAdmitted64 s).1 = p :: rest)
    (hr : FloatVal.le (rrLeft64 timeSlice s p) (FloatVal.num 0) = false) :
    rrIter64 timeSlice overheadTime s = (RREvent.preempted p,
      { jobs := s.jobs.set p { jobAt64 s.jobs p with remainingTime := rrLeft64 timeSlice s p }
        readyJobs := rest ++ [p]
        current_time := FloatVal.add (FloatVal.add s.current_time
          (FloatVal.min (quantum64 timeSlice) (jobAt64 s.jobs p).remainingTime))
          (quantum64 overheadTime)
        completedJobs := s.completedJobs
        inQueue := (rrAdmitted64 s).2
        queueLengthSum := FloatVal.add s.queueLengthSum
          (FloatVal.ofNat (rrAdmitted64 s).1.length)
        queueLengthCount := wrap32 (s.queueLengthCount + 1)
        maxQueueLength := max s.maxQueueLength
          (wrap32 (((rrAdmitted64 s).1.length : Nat) : Int))
        finished := allSet s.completedJobs }) := by
  unfold rrLeft64 at hr
  simp only [rrIter64, hf, Bool.false_eq_true, if_false]
  rw [hq]
  simp only [hr, Bool.false_eq_true, if_false, rrLeft64]

theorem rrCase64 (timeSlice : Int) (s : RRState64) : RRCase64 timeSlice s := by
  cases hf : s.finished with
  | true => exact RRCase64.finished hf
  | false =>
    cases hq : (rrAdmitted64 s).1 with
    | nil => exact RRCase64.idle hf hq
    | cons p rest =>
      cases hr : FloatVal.le (rrLeft64 timeSlice s p) (FloatVal.num 0) with
      | true => exact RRCase64.final hf p rest hq hr
      | false => exact RRCase64.preempt hf p rest hq hr

/-! ## Round-Robin in binary64: the invariant -/

theorem rrInv64_init {orig : List Job64} (hne : orig ≠ []) (hv : Valid64 orig) (m : Int) :
    RRInv64 orig (rrInit64 orig m) where
  len := rfl
  clen := by simp [rrInit64]
  qlen := by simp [rrInit64]
  same := by intro p _; simp [rrInit64]
  queue := by simp [rrInit64]
  nodup := by simp [rrInit64]
  queued := by
    intro p _ h
    simp [rrInit64, flagAt_replicate] at h
  doneq := by
    intro p _ h
    simp [rrInit64, flagAt_replicate] at h
  live := by
    show false = allSet (List.replicate orig.length false)
    rw [allSet_replicate_false (List.length_pos.mpr hne)]
  clock := FloatVal.isTime_zero.nonNeg
  rem := by
    intro p hp
    show (jobAt64 orig p).remainingTime.IsTime
      ∧ FloatVal.le (jobAt64 orig p).remainingTime (jobAt64 orig p).burstTime = true
    rw [(hv p hp).2.2.2]
    exact ⟨(hv p hp).2.2.1, FloatVal.le_refl_of_nonNeg (hv p hp).2.2.1.nonNeg⟩
  arrived := by
    intro p _ h
    simp [rrInit64, flagAt_replicate] at h
  done := by
    intro p _ h
    simp [rrInit64, flagAt_replicate] at h

theorem rrInv64_ids {orig : List Job64} (hv : Valid64 orig) {s : RRState64}
    (inv : RRInv64 orig s) : ∀ p ∈ List.range s.jobs.length, (jobAt64 s.jobs p).id = p := by
  intro p hp
  rw [List.mem_range, inv.len] at hp
  rw [(inv.same p hp).1]
  exact (hv p hp).1

theorem rrAdmitted64_queue {orig : List Job64} (hv : Valid64 orig) {s : RRState64}
    (inv : RRInv64 orig s) : (rrAdmitted64 s).1 = s.readyJobs ++ rrNew64 s := by
  unfold rrAdmitted64 rrNew64
  exact rrAdmit64_queue _ _ _ _ _ _ (List.nodup_range _) (rrInv64_ids hv inv)

theorem rrAdmitted64_flag {orig : List Job64} (hv : Valid64 orig) {s : RRState64}
    (inv : RRInv64 orig s) (i : Nat) :
    flagAt (rrAdmitted64 s).2 i = true ↔ flagAt s.inQueue i = true ∨ i ∈ rrNew64 s := by
  unfold rrAdmitted64 rrNew64
  refine rrAdmit64_flag _ _ _ _ _ _ (List.nodup_range _) (rrInv64_ids hv inv) ?_ i
  intro p hp
  rw [List.mem_range] at hp
  rw [inv.qlen, ← inv.len]
  exact hp

theorem mem_rrNew64 {orig : List Job64} (hv : Valid64 orig) {s : RRState64}
    (inv : RRInv64 orig s) (i : Nat) :
    i ∈ rrNew64 s ↔ i < orig.length ∧ flagAt s.completedJobs i = false
      ∧ flagAt s.inQueue i = false
      ∧ FloatVal.le (jobAt64 orig i).arrivalTime s.current_time = true := by
  unfold rrNew64
  rw [List.mem_filter, List.mem_range, inv.len]
  constructor
  · rintro ⟨hi, he⟩
    have hidi : (jobAt64 s.jobs i).id = i := by rw [(inv.same i hi).1]; exact (hv i hi).1
    simp only [rrEligible64, hidi, (inv.same i hi).2.1, Bool.and_eq_true,
      Bool.not_eq_true'] at he
    exact ⟨hi, he.1.1, he.1.2, he.2⟩
  · rintro ⟨hi, hc, hq, ha⟩
    have hidi : (jobAt64 s.jobs i).id = i := by rw [(inv.same i hi).1]; exact (hv i hi).1
    refine ⟨hi, ?_⟩
    simp [rrEligible64, hidi, (inv.same i hi).2.1, hc, hq, ha]

/-- The invariant holds of the state in the middle of an iteration, after the admission scan. -/
theorem rrInv64_admitted {orig : List Job64} (hv : Valid64 orig) {s : RRState64}
    (inv : RRInv64 orig s) :
    RRInv64 orig { s with readyJobs := (rrAdmitted64 s).1, inQueue := (rrAdmitted64 s).2 } where
  len := inv.len
  clen := inv.clen
  qlen := by
    show (rrAdmitted64 s).2.length = orig.length
    unfold rrAdmitted64
    rw [rrAdmit64_length, inv.qlen]
  same := inv.same
  queue := by
    intro p hp
    show p < orig.length ∧ flagAt (rrAdmitted64 s).2 p = true ∧ flagAt s.completedJobs p = false
    have hp' : p ∈ s.readyJobs ++ rrNew64 s := by
      rw [← rrAdmitted64_queue hv inv]; exact hp
    rw [rrAdmitted64_flag hv inv]
    rcases List.mem_append.mp hp' with h | h
    · exact ⟨(inv.queue p h).1, Or.inl (inv.queue p h).2.1, (inv.queue p h).2.2⟩
    · have := (mem_rrNew64 hv inv p).mp h
      exact ⟨this.1, Or.inr h, this.2.1⟩
  nodup := by
    show (rrAdmitted64 s).1.Nodup
    rw [rrAdmitted64_queue hv inv, List.nodup_append]
    refine ⟨inv.nodup, (List.nodup_range _).filter _, ?_⟩
    intro x hx hx'
    have h1 := (inv.queue x hx).2.1
    have h2 := ((mem_rrNew64 hv inv x).mp hx').2.2.1
    rw [h1] at h2
    exact absurd h2 (by decide)
  queued := by
    intro p hp hq hc
    show p ∈ (rrAdmitted64 s).1
    have hq' : flagAt (rrAdmitted64 s).2 p = true := hq
    rw [rrAdmitted64_queue hv inv]
    rcases (rrAdmitted64_flag hv inv p).mp hq' with h | h
    · exact List.mem_append_left _ (inv.queued p hp h hc)
    · exact List.mem_append_right _ h
  doneq := by
    intro p hp hc
    show flagAt (rrAdmitted64 s).2 p = true
    rw [rrAdmitted64_flag hv inv]
    exact Or.inl (inv.doneq p hp hc)
  live := inv.live
  clock := inv.clock
  rem := inv.rem
  arrived := by
    intro p hp hq
    have hq' : flagAt (rrAdmitted64 s).2 p = true := hq
    show FloatVal.le (jobAt64 orig p).arrivalTime s.current_time = true
    rcases (rrAdmitted64_flag hv inv p).mp hq' with h | h
    · exact inv.arrived p hp h
    · exact ((mem_rrNew64 hv inv p).mp h).2.2.2
  done := inv.done

/-- The slice an iteration gives to a job of the ledger, and what it leaves of the job. -/
theorem rrSlice64 {orig : List Job64} (hv : Valid64 orig) {s : RRState64}
    (inv : RRInv64 orig s) {timeSlice : Int} (hq : 0 ≤ timeSlice) {p : Nat}
    (hp : p < orig.length) :
    (FloatVal.min (quantum64 timeSlice) (jobAt64 s.jobs p).remainingTime).IsTime
    ∧ (rrLeft64 timeSlice s p).IsTime
    ∧ FloatVal.le (rrLeft64 timeSlice s p) (jobAt64 s.jobs p).remainingTime = true
    ∧ FloatVal.le (rrLeft64 timeSlice s p) (jobAt64 orig p).burstTime = true := by
  have hr := inv.rem p hp
  have hm := FloatVal.min_isTime (quantum64_nonNeg hq) hr.1
  have hs := FloatVal.sub_isTime hr.1 hm.1 hm.2.1
  exact ⟨hm.1, hs.1, hs.2,
    FloatVal.le_trans_of_nonNeg hs.1.nonNeg hr.1.nonNeg (hv p hp).2.2.1.nonNeg hs.2 hr.2⟩

theorem FloatVal.eq_zero_of_le_zero {v : FloatVal} (hv : v.IsTime)
    (h : FloatVal.le v (FloatVal.num 0) = true) : v = FloatVal.num 0 := by
  obtain ⟨q, rfl, h0, -⟩ := hv.cases_isTime
  rw [FloatVal.le_num] at h
  have : q ≤ 0 := by simpa using h
  rw [le_antisymm this h0]

theorem rrInv64_step {orig : List Job64} (hv : Valid64 orig) {timeSlice overheadTime : Int}
    (hq : 0 ≤ timeSlice) (ho : 0 ≤ overheadTime) {s : RRState64} (inv : RRInv64 orig s) :
    RRInv64 orig (rrStep64 timeSlice overheadTime s) := by
  have mid := rrInv64_admitted hv inv
  unfold rrStep64
  rcases rrCase64 timeSlice s with hf | ⟨hf, hq'⟩ | ⟨hf, p, rest, hq', hr⟩ | ⟨hf, p, rest, hq', hr⟩
  · rw [rrIter64_finished _ _ hf]; exact inv
  · rw [rrIter64_idle _ _ hf hq']
    have hone : (FloatVal.num 1).NonNeg := (FloatVal.isTime_num zero_le_one isDouble_one).nonNeg
    have hc' : (FloatVal.add s.current_time (FloatVal.num 1)).NonNeg :=
      FloatVal.add_nonNeg inv.clock hone
    have hmono : FloatVal.le s.current_time (FloatVal.add s.current_time (FloatVal.num 1)) = true :=
      FloatVal.le_add_right inv.clock hone
    exact
      { len := mid.len
        clen := mid.clen
        qlen := mid.qlen
        same := mid.same
        queue := by intro p hp; simp at hp
        nodup := List.nodup_nil
        queued := by
          intro p hp h1 h2
          have := mid.queued p hp h1 h2
          simp only [hq'] at this
          exact this
        doneq := mid.doneq
        live := inv.live
        clock := hc'
        rem := inv.rem
        arrived := fun p hp h =>
          FloatVal.le_trans_of_nonNeg (hv p hp).2.1.nonNeg inv.clock hc' (mid.arrived p hp h) hmono
        done := fun p hp h =>
          ⟨(inv.done p hp h).1, (inv.done p hp h).2.1,
            FloatVal.le_trans_of_nonNeg (inv.done p hp h).2.2.2.1 inv.clock hc'
              (inv.done p hp h).2.2.1 hmono,
            (inv.done p hp h).2.2.2⟩ }
  · rw [rrIter64_final _ _ hf hq' hr]
    have hmem : p ∈ (rrAdmitted64 s).1 := by rw [hq']; exact List.mem_cons_self _ _
    have hp := mid.queue p hmem
    have hps : p < s.jobs.length := by rw [inv.len]; exact hp.1
    have hidp : (jobAt64 s.jobs p).id = p := by rw [(inv.same p hp.1).1]; exact (hv p hp.1).1
    have hnd : (p :: rest).Nodup := by rw [← hq']; exact mid.nodup
    have hsl := rrSlice64 hv inv hq hp.1
    have hc' : (FloatVal.add s.current_time
        (FloatVal.min (quantum64 timeSlice) (jobAt64 s.jobs p).remainingTime)).NonNeg :=
      FloatVal.add_nonNeg inv.clock hsl.1.nonNeg
    have hmono : FloatVal.le s.current_time (FloatVal.add s.current_time
        (FloatVal.min (quantum64 timeSlice) (jobAt64 s.jobs p).remainingTime)) = true :=
      FloatVal.le_add_right inv.clock hsl.1.nonNeg
    refine
      { len := by simp [inv.len]
        clen := by simp [inv.clen]
        qlen := mid.qlen
        same := ?_
        queue := ?_
        nodup := (List.nodup_cons.mp hnd).2
        queued := ?_
        doneq := ?_
        live := rfl
        clock := hc'
        rem := ?_
        arrived := fun x hx h =>
          FloatVal.le_trans_of_nonNeg (hv x hx).2.1.nonNeg inv.clock hc' (mid.arrived x hx h) hmono
        done := ?_ }
    · intro i hi
      by_cases hpi : p = i
      · subst hpi
        simp only [jobAt64_set_self hps]
        exact inv.same p hi
      · simp only [jobAt64_set_ne hpi]
        exact inv.same i hi
    · intro x hx
      have hx' : x ∈ (rrAdmitted64 s).1 := by rw [hq']; exact List.mem_cons_of_mem _ hx
      have hne : p ≠ x := fun h => (List.nodup_cons.mp hnd).1 (h ▸ hx)
      have := mid.queue x hx'
      refine ⟨this.1, this.2.1, ?_⟩
      simp only [hidp, flagAt_set_ne hne]
      exact this.2.2
    · intro x hx h1 h2
      simp only [hidp] at h2
      have hne : p ≠ x := by
        intro h
        subst h
        rw [flagAt_set_self (by rw [inv.clen]; exact hx)] at h2
        exact absurd h2 (by decide)
      rw [flagAt_set_ne hne] at h2
      have := mid.queued x hx h1 h2
      simp only [hq', List.mem_cons] at this
      rcases this with h | h
      · exact absurd h.symm hne
      · exact h
    · intro x hx h1
      simp only [hidp] at h1
      by_cases hpx : p = x
      · subst hpx
        exact hp.2.1
      · rw [flagAt_set_ne hpx] at h1
        exact mid.doneq x hx h1
    · intro x hx
      by_cases hpx : p = x
      · subst hpx
        simp only [jobAt64_set_self hps]
        exact ⟨hsl.2.1, hsl.2.2.2⟩
      · simp only [jobAt64_set_ne hpx]
        exact inv.rem x hx
    · intro x hx h1
      simp only [hidp] at h1
      by_cases hpx : p = x
      · subst hpx
        simp only [jobAt64_set_self hps]
        rw [(inv.same p hx).2.1, (inv.same p hx).2.2]
        exact ⟨FloatVal.eq_zero_of_le_zero hsl.2.1 hr,
          FloatVal.le_trans_of_nonNeg (hv p hx).2.1.nonNeg inv.clock hc'
            (mid.arrived p hx hp.2.1) hmono,
          FloatVal.le_refl_of_nonNeg hc', hc', rfl, rfl⟩
      · rw [flagAt_set_ne hpx] at h1
        simp only [jobAt64_set_ne hpx]
        exact ⟨(inv.done x hx h1).1, (inv.done x hx h1).2.1,
          FloatVal.le_trans_of_nonNeg (inv.done x hx h1).2.2.2.1 inv.clock hc'
            (inv.done x hx h1).2.2.1 hmono,
          (inv.done x hx h1).2.2.2⟩
  · rw [rrIter64_preempt _ _ hf hq' hr]
    have hmem : p ∈ (rrAdmitted64 s).1 := by rw [hq']; exact List.mem_cons_self _ _
    have hp := mid.queue p hmem
    have hps : p < s.jobs.length := by rw [inv.len]; exact hp.1
    have hnd : (p :: rest).Nodup := by rw [← hq']; exact mid.nodup
    have hperm : ∀ x, x ∈ rest ++ [p] ↔ x ∈ (rrAdmitted64 s).1 := by
      intro x
      rw [hq']
      simp [or_comm]
    have hsl := rrSlice64 hv inv hq hp.1
    have hc1 : (FloatVal.add s.current_time
        (FloatVal.min (quantum64 timeSlice) (jobAt64 s.jobs p).remainingTime)).NonNeg :=
      FloatVal.add_nonNeg inv.clock hsl.1.nonNeg
    have hmono1 : FloatVal.le s.current_time (FloatVal.add s.current_time
        (FloatVal.min (quantum64 timeSlice) (jobAt64 s.jobs p).remainingTime)) = true :=
      FloatVal.le_add_right inv.clock hsl.1.nonNeg
    have hc' : (FloatVal.add (FloatVal.add s.current_time
        (FloatVal.min (quantum64 timeSlice) (jobAt64 s.jobs p).remainingTime))
        (quantum64 overheadTime)).NonNeg :=
      FloatVal.add_nonNeg hc1 (quantum64_nonNeg ho)
    have hmono : FloatVal.le s.current_time (FloatVal.add (FloatVal.add s.current_time
        (FloatVal.min (quantum64 timeSlice) (jobAt64 s.jobs p).remainingTime))
        (quantum64 overheadTime)) = true :=
      FloatVal.le_trans_of_nonNeg inv.clock hc1 hc' hmono1
        (FloatVal.le_add_right hc1 (quantum64_nonNeg ho))
    refine
      { len := by simp [inv.len]
        clen := inv.clen
        qlen := mid.qlen
        same := ?_
        queue := fun x hx => mid.queue x ((hperm x).mp hx)
        nodup := ?_
        queued := fun x hx h1 h2 => (hperm x).mpr (mid.queued x hx h1 h2)
        doneq := mid.doneq
        live := rfl
        clock := hc'
        rem := ?_
        arrived := fun x hx h =>
          FloatVal.le_trans_of_nonNeg (hv x hx).2.1.nonNeg inv.clock hc' (mid.arrived x hx h) hmono
        done := ?_ }
    · intro i hi
      by_cases hpi : p = i
      · subst hpi
        simp only [jobAt64_set_self hps]
        exact inv.same p hi
      · simp only [jobAt64_set_ne hpi]
        exact inv.same i hi
    · rw [List.nodup_append]
      refine ⟨(List.nodup_cons.mp hnd).2, List.nodup_singleton p, ?_⟩
      intro x hx hx'
      rw [List.mem_singleton] at hx'
      subst hx'
      exact (List.nodup_cons.mp hnd).1 hx
    · intro x hx
      by_cases hpx : p = x
      · subst hpx
        simp only [jobAt64_set_self hps]
        exact ⟨hsl.2.1, hsl.2.2.2⟩
      · simp only [jobAt64_set_ne hpx]
        exact inv.rem x hx
    · intro x hx h1
      have h1' : flagAt s.completedJobs x = true := h1
      by_cases hpx : p = x
      · subst hpx
        rw [hp.2.2] at h1'
        exact absurd h1' (by decide)
      · simp only [jobAt64_set_ne hpx]
        exact ⟨(inv.done x hx h1').1, (inv.done x hx h1').2.1,
          FloatVal.le_trans_of_nonNeg (inv.done x hx h1').2.2.2.1 inv.clock hc'
            (inv.done x hx h1').2.2.1 hmono,
          (inv.done x hx h1').2.2.2⟩

theorem rrInv64_run {orig : List Job64} (hne : orig ≠ []) (hv : Valid64 orig)
    {timeSlice overheadTime : Int} (hq : 0 ≤ timeSlice) (ho : 0 ≤ overheadTime) (m : Int)
    (n : Nat) : RRInv64 orig (rrRun64 timeSlice overheadTime n (rrInit64 orig m)) := by
  induction n with
  | zero => exact rrInv64_init hne hv m
  | succ k ih =>
    unfold rrRun64 at ih ⊢
    rw [Function.iterate_succ_apply']
    exact rrInv64_step hv hq ho ih

/-! ## Round-Robin in binary64: runs -/

theorem rrStep64_of_finished (timeSlice overheadTime : Int) {s : RRState64}
    (hf : s.finished = true) : rrStep64 timeSlice overheadTime s = s := by
  unfold rrStep64
  rw [rrIter64_finished _ _ hf]

theorem rrRun64_of_finished (timeSlice overheadTime : Int) {s : RRState64}
    (hf : s.finished = true) (n : Nat) : rrRun64 timeSlice overheadTime n s = s := by
  induction n with
  | zero => rfl
  | succ k ih =>
    unfold rrRun64 at ih ⊢
    rw [Function.iterate_succ_apply', ih, rrStep64_of_finished _ _ hf]

theorem rrRun64_add (timeSlice overheadTime : Int) (m n : Nat) (s : RRState64) :
    rrRun64 timeSlice overheadTime (m + n) s
      = rrRun64 timeSlice overheadTime n (rrRun64 timeSlice overheadTime m s) := by
  unfold rrRun64
  rw [Nat.add_comm, Function.iterate_add_apply]

theorem rrRun64_succ (timeSlice overheadTime : Int) (n : Nat) (s : RRState64) :
    rrRun64 timeSlice overheadTime (n + 1) s
      = rrRun64 timeSlice overheadTime n (rrStep64 timeSlice overheadTime s) := by
  unfold rrRun64
  rw [Function.iterate_succ_apply]

theorem rrRun64_succ_last (timeSlice overheadTime : Int) (n : Nat) (s : RRState64) :
    rrRun64 timeSlice overheadTime (n + 1) s
      = rrStep64 timeSlice overheadTime (rrRun64 timeSlice overheadTime n s) := by
  unfold rrRun64
  rw [Function.iterate_succ_apply']

theorem handleRoundRobin64_finished {jobs : List Job64} {timeSlice overheadTime m : Int}
    {fuel : Nat} {r : RRResult64}
    (h : handleRoundRobin64 fuel jobs timeSlice overheadTime m = some r) :
    (rrRun64 timeSlice overheadTime fuel (rrInit64 jobs m)).finished = true
    ∧ r.jobs = (rrRun64 timeSlice overheadTime fuel (rrInit64 jobs m)).jobs
    ∧ r.totalSimulationTime
        = (rrRun64 timeSlice overheadTime fuel (rrInit64 jobs m)).current_time
    ∧ r.avgQueueLength
        = FloatVal.div (rrRun64 timeSlice overheadTime fuel (rrInit64 jobs m)).queueLengthSum
            (FloatVal.ofInt
              (rrRun64 timeSlice overheadTime fuel (rrInit64 jobs m)).queueLengthCount)
    ∧ r.maxQueueLength
        = (rrRun64 timeSlice overheadTime fuel (rrInit64 jobs m)).maxQueueLength := by
  unfold handleRoundRobin64 at h
  by_cases hf : (rrRun64 timeSlice overheadTime fuel (rrInit64 jobs m)).finished = true
  · simp only [hf, if_true, Option.some.injEq] at h
    subst h
    exact ⟨hf, rfl, rfl, rfl, rfl⟩
  · simp [hf] at h

theorem handleRoundRobin64_of_finished {jobs : List Job64} {timeSlice overheadTime m : Int}
    {fuel : Nat}
    (hf : (rrRun64 timeSlice overheadTime fuel (rrInit64 jobs m)).finished = true) :
    (handleRoundRobin64 fuel jobs timeSlice overheadTime m).isSome = true := by
  unfold handleRoundRobin64
  simp only [hf, if_true, Option.isSome_some]

/-- Once the loop is left, more iterations change nothing. -/
theorem rr64_fuel_irrelevant (timeSlice overheadTime : Int) {s : RRState64} {m n : Nat}
    (hmn : m ≤ n) (hf : (rrRun64 timeSlice overheadTime m s).finished = true) :
    rrRun64 timeSlice overheadTime n s = rrRun64 timeSlice overheadTime m s := by
  obtain ⟨k, rfl⟩ := Nat.exists_eq_add_of_le hmn
  rw [rrRun64_add, rrRun64_of_finished _ _ hf]

/-- What `handleRoundRobin` returns does not depend on the number of iterations allowed. -/
theorem handleRoundRobin64_unique {jobs : List Job64} {timeSlice overheadTime m : Int}
    {f1 f2 : Nat} {r1 r2 : RRResult64}
    (h1 : handleRoundRobin64 f1 jobs timeSlice overheadTime m = some r1)
    (h2 : handleRoundRobin64 f2 jobs timeSlice overheadTime m = some r2) : r1 = r2 := by
  have hf1 := (handleRoundRobin64_finished h1).1
  have hf2 := (handleRoundRobin64_finished h2).1
  unfold handleRoundRobin64 at h1 h2
  rcases Nat.le_total f1 f2 with h | h
  · rw [rr64_fuel_irrelevant _ _ h hf1] at h2
    rw [h1] at h2
    exact Option.some.inj h2
  · rw [rr64_fuel_irrelevant _ _ h hf2] at h1
    rw [h1] at h2
    exact Option.some.inj h2

/-! ## Round-Robin in binary64: termination -/

/-- A slice that does not finish the job takes a whole quantum off a remaining time that is
larger than the quantum, and leaves a smaller remaining time. -/
theorem rrLeft64_lt {r b Q : FloatVal} (hr : r.IsTime) (hrb : FloatVal.le r b = true)
    (hreach : FloatVal.Reach b Q)
    (hpos : Q = FloatVal.posInf ∨ ∃ q, Q = FloatVal.num q ∧ 1 / 1024 ≤ q ∧ IsDouble q)
    (hleft : FloatVal.le (FloatVal.sub r (FloatVal.min Q r)) (FloatVal.num 0) = false) :
    unitsOf (FloatVal.sub r (FloatVal.min Q r)) < unitsOf r := by
  obtain ⟨x, rfl, hx, hdx⟩ := hr.cases_isTime
  rcases hpos with rfl | ⟨q, rfl, hq, hdq⟩
  · exfalso
    have : FloatVal.min FloatVal.posInf (FloatVal.num x) = FloatVal.num x := by
      simp [FloatVal.min_eq, FloatVal.lt]
    rw [this, FloatVal.sub_same (FloatVal.isTime_num hx hdx)] at hleft
    simp [FloatVal.le_num] at hleft
  · have hq0 : (0 : ℚ) < q := lt_of_lt_of_le (by norm_num) hq
    by_cases hlt : x < q
    · exfalso
      have : FloatVal.min (FloatVal.num q) (FloatVal.num x) = FloatVal.num x := by
        simp [FloatVal.min_eq, FloatVal.lt_num, hlt]
      rw [this, FloatVal.sub_same (FloatVal.isTime_num hx hdx)] at hleft
      simp [FloatVal.le_num] at hleft
    · have hmin : FloatVal.min (FloatVal.num q) (FloatVal.num x) = FloatVal.num q := by
        simp [FloatVal.min_eq, FloatVal.lt_num, hlt]
      rw [hmin, FloatVal.sub_num] at hleft ⊢
      have hqx : q ≤ x := not_lt.mp hlt
      have hxb : x ≤ 2 ^ 52 * q := by
        cases b with
        | num y =>
          rw [FloatVal.le_num] at hrb
          have h1 : x ≤ y := by simpa using hrb
          have h2 : y ≤ 2 ^ 52 * q := hreach
          exact le_trans h1 h2
        | posInf => exact absurd hreach (by simp [FloatVal.Reach])
        | negInf => exact absurd hreach (by simp [FloatVal.Reach])
        | nan => exact absurd hreach (by simp [FloatVal.Reach])
      obtain ⟨r', e, h0, hlt', hd'⟩ := round64_sub_lt hq0 hdq hdx hqx hxb
      rw [e]
      exact floor_units_lt h0 hd' hdx hlt'

/-- An iteration of the running loop makes progress: it brings a job nearer to completion, or
it is idle and brings the clock nearer to `2 ^ 53`. -/
theorem rr64_progress {orig : List Job64} (hv : Valid64 orig) (hb : ArrivalsReachable orig)
    {timeSlice : Int} (hq : 0 < timeSlice) (overheadTime : Int)
    (hreach : BurstsReachable orig timeSlice) {s : RRState64} (inv : RRInv64 orig s)
    (hf : s.finished = false) :
    rrPending64 (rrStep64 timeSlice overheadTime s) < rrPending64 s
    ∨ (rrPending64 (rrStep64 timeSlice overheadTime s) = rrPending64 s
      ∧ idleBudget64 (rrStep64 timeSlice overheadTime s).current_time
          < idleBudget64 s.current_time) := by
  have mid := rrInv64_admitted hv inv
  unfold rrStep64
  rcases rrCase64 timeSlice s with hf' | ⟨_, hq'⟩ | ⟨_, x, rest, hq', hr⟩ | ⟨_, x, rest, hq', hr⟩
  · rw [hf] at hf'; exact absurd hf' (by decide)
  · -- idle: some job is not completed, and it has not arrived
    right
    rw [rrIter64_idle _ _ hf hq']
    refine ⟨rfl, ?_⟩
    have hall : allSet s.completedJobs = false := by rw [← inv.live]; exact hf
    obtain ⟨p, hp, hflag⟩ := exists_not_completed hall
    rw [inv.clen] at hp
    have hnotq : ¬ flagAt (rrAdmitted64 s).2 p = true := by
      intro h
      have := mid.queued p hp h hflag
      have hmem : p ∈ (rrAdmitted64 s).1 := this
      rw [hq'] at hmem
      simp at hmem
    rw [rrAdmitted64_flag hv inv] at hnotq
    have hnq : flagAt s.inQueue p = false := by
      cases h : flagAt s.inQueue p with
      | false => rfl
      | true => exact absurd (Or.inl h) hnotq
    have hlate : FloatVal.le (jobAt64 orig p).arrivalTime s.current_time = false := by
      cases h : FloatVal.le (jobAt64 orig p).arrivalTime s.current_time with
      | false => rfl
      | true => exact absurd (Or.inr ((mem_rrNew64 hv inv p).mpr ⟨hp, hflag, hnq, h⟩)) hnotq
    obtain ⟨c, hc, h0, hd, hlt⟩ :=
      clock_lt_of_not_arrived (hv p hp).2.1 inv.clock (hb p hp) hlate
    show idleBudget64 (FloatVal.add s.current_time (FloatVal.num 1)) < idleBudget64 s.current_time
    rw [hc]
    exact idleBudget64_step h0 hd hlt
  · -- final slice: the job leaves the sum
    left
    rw [rrIter64_final _ _ hf hq' hr]
    have hx := mid.queue x (by show x ∈ (rrAdmitted64 s).1; rw [hq']; exact List.mem_cons_self _ _)
    have hxs : x < s.jobs.length := by rw [inv.len]; exact hx.1
    have hidx : (jobAt64 s.jobs x).id = x := by rw [(inv.same x hx.1).1]; exact (hv x hx.1).1
    unfold rrPending64
    simp only [List.length_set]
    apply Finset.sum_lt_sum
    · intro i _
      by_cases hxi : x = i
      · subst hxi
        simp [rrPendingAt64, hidx, flagAt_set_self (show x < s.completedJobs.length by
          rw [inv.clen]; exact hx.1)]
      · simp [rrPendingAt64, hidx, flagAt_set_ne hxi, jobAt64_set_ne hxi]
    · refine ⟨x, Finset.mem_range.mpr hxs, ?_⟩
      have hflag : flagAt s.completedJobs x = false := hx.2.2
      simp [rrPendingAt64, hidx, hflag, flagAt_set_self (show x < s.completedJobs.length by
        rw [inv.clen]; exact hx.1)]
  · -- preemption: the remaining time of the job is smaller
    left
    rw [rrIter64_preempt _ _ hf hq' hr]
    have hx := mid.queue x (by show x ∈ (rrAdmitted64 s).1; rw [hq']; exact List.mem_cons_self _ _)
    have hxs : x < s.jobs.length := by rw [inv.len]; exact hx.1
    have hflag : flagAt s.completedJobs x = false := hx.2.2
    have hlt : unitsOf (rrLeft64 timeSlice s x) < unitsOf (jobAt64 s.jobs x).remainingTime :=
      rrLeft64_lt (inv.rem x hx.1).1 (inv.rem x hx.1).2 (hreach x hx.1) (quantum64_pos hq) hr
    unfold rrPending64
    simp only [List.length_set]
    apply Finset.sum_lt_sum
    · intro i _
      by_cases hxi : x = i
      · subst hxi
        simp only [rrPendingAt64, hflag, jobAt64_set_self hxs]
        simp only [Bool.false_eq_true, if_false]
        omega
      · simp [rrPendingAt64, jobAt64_set_ne hxi]
    · refine ⟨x, Finset.mem_range.mpr hxs, ?_⟩
      simp only [rrPendingAt64, hflag, jobAt64_set_self hxs]
      simp only [Bool.false_eq_true, if_false]
      omega

/-- From every state the loop can reach, the loop is left after finitely many more
iterations. -/
theorem rr64_terminates_from {orig : List Job64} (hv : Valid64 orig)
    (hb : ArrivalsReachable orig) {timeSlice overheadTime : Int} (hq : 0 < timeSlice)
    (ho : 0 ≤ overheadTime) (hreach : BurstsReachable orig timeSlice) :
    ∀ (a b : Nat) (s : RRState64), RRInv64 orig s → rrPending64 s = a →
      idleBudget64 s.current_time = b →
      ∃ n, (rrRun64 timeSlice overheadTime n s).finished = true := by
  intro a
  induction a using Nat.strong_induction_on with
  | _ a iha =>
    intro b
    induction b using Nat.strong_induction_on with
    | _ b ihb =>
      intro s inv ha hb'
      cases hf : s.finished with
      | true => exact ⟨0, by simpa [rrRun64] using hf⟩
      | false =>
        have inv' : RRInv64 orig (rrStep64 timeSlice overheadTime s) :=
          rrInv64_step hv hq.le ho inv
        rcases rr64_progress hv hb hq overheadTime hreach inv hf with hlt | ⟨heq, hlt⟩
        · obtain ⟨n, hn⟩ := iha _ (by rw [← ha]; exact hlt) _ _ inv' rfl rfl
          exact ⟨n + 1, by rw [rrRun64_succ]; exact hn⟩
        · obtain ⟨n, hn⟩ := ihb _ (by rw [← hb']; exact hlt) _ inv' (by rw [heq, ha]) rfl
          exact ⟨n + 1, by rw [rrRun64_succ]; exact hn⟩

/-- On a non-empty valid ledger whose arrival times are at most `2 ^ 53` and whose burst times
are at most `2 ^ 52` quanta, `handleRoundRobin` returns. -/
theorem handleRoundRobin64_terminates {orig : List Job64} (hne : orig ≠ [])
    (hv : Valid64 orig) (hb : ArrivalsReachable orig) {timeSlice overheadTime : Int}
    (hq : 0 < timeSlice) (ho : 0 ≤ overheadTime) (hreach : BurstsReachable orig timeSlice)
    (m : Int) : ∃ fuel r, handleRoundRobin64 fuel orig timeSlice overheadTime m = some r := by
  obtain ⟨n, hn⟩ := rr64_terminates_from hv hb hq ho hreach _ _ _ (rrInv64_init hne hv m)
    rfl rfl
  exact ⟨n, Option.isSome_iff_exists.mp (handleRoundRobin64_of_finished hn)⟩

/-! ## Binary64: no job completes before its arrival -/

theorem FloatVal.le_of_not_lt {a b : FloatVal} (ha : a.NonNeg) (hb : b.NonNeg)
    (h : FloatVal.lt a b = false) : FloatVal.le b a = true := by
  cases hle : FloatVal.le b a with
  | true => rfl
  | false =>
    have := (FloatVal.lt_iff_not_le ha hb).mpr hle
    rw [this] at h
    exact absurd h (by decide)

theorem FloatVal.zero_le {a : FloatVal} (ha : a.NonNeg) :
    FloatVal.le (FloatVal.num 0) a = true := by
  rcases ha.cases_nonNeg with rfl | ⟨x, rfl, hx, -⟩
  · rfl
  · rw [FloatVal.le_num]
    simpa using hx

theorem fcfsLoop64_length (c : FloatVal) (jobs : List Job64) :
    (fcfsLoop64 c jobs).length = jobs.length := by
  induction jobs generalizing c with
  | nil => rfl
  | cons j js ih => simp [fcfsLoop64, ih]

/-- In the FCFS loop started at a clock that is not negative, every job completes no earlier
than it arrives, and its turnaround time is not negative. -/
theorem fcfsLoop64_arrived (jobs : List Job64) : ∀ (c : FloatVal), c.NonNeg →
    (∀ p, p < jobs.length → (jobAt64 jobs p).arrivalTime.IsTime
      ∧ (jobAt64 jobs p).burstTime.IsTime) →
    ∀ i, i < jobs.length →
      FloatVal.le (jobAt64 jobs i).arrivalTime (jobAt64 (fcfsLoop64 c jobs) i).completionTime
        = true
      ∧ FloatVal.le (FloatVal.num 0) (jobAt64 (fcfsLoop64 c jobs) i).turnaroundTime = true := by
  induction jobs with
  | nil => intro c _ _ i h; simp at h
  | cons j js ih =>
    intro c hc hv i hi
    have hj := hv 0 (by simp)
    simp only [jobAt64_cons_zero] at hj
    have hstart : (if FloatVal.lt c j.arrivalTime then j.arrivalTime else c).NonNeg
        ∧ FloatVal.le j.arrivalTime (if FloatVal.lt c j.arrivalTime then j.arrivalTime else c)
          = true := by
      cases hlt : FloatVal.lt c j.arrivalTime with
      | true =>
        simp only [if_true]
        exact ⟨hj.1.nonNeg, FloatVal.le_refl_of_nonNeg hj.1.nonNeg⟩
      | false =>
        simp only [Bool.false_eq_true, if_false]
        exact ⟨hc, FloatVal.le_of_not_lt hc hj.1.nonNeg hlt⟩
    have hcomp : (FloatVal.add (if FloatVal.lt c j.arrivalTime then j.arrivalTime else c)
        j.burstTime).NonNeg := FloatVal.add_nonNeg hstart.1 hj.2.nonNeg
    have hle : FloatVal.le j.arrivalTime
        (FloatVal.add (if FloatVal.lt c j.arrivalTime then j.arrivalTime else c) j.burstTime)
        = true :=
      FloatVal.le_trans_of_nonNeg hj.1.nonNeg hstart.1 hcomp hstart.2
        (FloatVal.le_add_right hstart.1 hj.2.nonNeg)
    cases i with
    | zero =>
      simp only [fcfsLoop64, jobAt64_cons_zero]
      exact ⟨hle, FloatVal.zero_le (FloatVal.sub_nonNeg hcomp hj.1 hle)⟩
    | succ k =>
      have hk : k < js.length := by simpa using hi
      simp only [fcfsLoop64, jobAt64_cons_succ]
      exact ih _ hcomp (fun p hp => by
        have := hv (p + 1) (by simpa using hp)
        simpa only [jobAt64_cons_succ] using this) k hk

/-! ## Binary64: a single job that arrives at 0 -/

theorem fcfs64_single (j : Job64) (ha : j.arrivalTime = FloatVal.num 0)
    (hb : j.burstTime.IsTime) :
    executeFCFS64 [j] = [{ j with completionTime := j.burstTime
                                  turnaroundTime := j.burstTime
                                  waitingTime := FloatVal.num 0 }] := by
  unfold executeFCFS64
  simp only [fcfsLoop64, ha]
  have h1 : FloatVal.lt (FloatVal.num 0) (FloatVal.num 0) = false := by
    simp [FloatVal.lt_num]
  simp only [h1, Bool.false_eq_true, if_false, FloatVal.add_zero_left hb.nonNeg,
    FloatVal.sub_zero_right hb.nonNeg, FloatVal.sub_same hb]

theorem sjf64_single (j : Job64) (hid : j.id = 0) (ha : j.arrivalTime = FloatVal.num 0)
    (hb : j.burstTime.IsTime) :
    performSJF64 1 [j] = some [{ j with completionTime := j.burstTime
                                        turnaroundTime := j.burstTime
                                        waitingTime := FloatVal.num 0 }] := by
  have hadm : sjfAdmitted64 (sjfInit64 [j]) = 0 :: [] := by
    simp [sjfAdmitted64, sjfAdmit64, sjfInit64, List.range, List.range.loop, flagAt, jobAt64,
      hid, ha, FloatVal.le_num, pqPush, pushHeap]
  have hstep := sjfIter64_dispatch (s := sjfInit64 [j]) rfl hadm
  have hjob : jobAt64 (sjfInit64 [j]).jobs 0 = j := rfl
  have hrun : sjfRun64 1 (sjfInit64 [j]) = (sjfIter64 (sjfInit64 [j])).2 := rfl
  unfold performSJF64
  simp only [hrun, hstep, hjob, hid, ha]
  simp [sjfInit64, allSet, FloatVal.add_zero_left hb.nonNeg, FloatVal.sub_zero_right hb.nonNeg,
    FloatVal.sub_same hb]

theorem FloatVal.min_of_le {b Q : FloatVal} (hb : b.IsTime) (hQ : Q.NonNeg)
    (h : FloatVal.le b Q = true) : FloatVal.min Q b = b := by
  obtain ⟨x, rfl, -, -⟩ := hb.cases_isTime
  rcases hQ.cases_nonNeg with rfl | ⟨q, rfl, -, -⟩
  · simp [FloatVal.min_eq, FloatVal.lt]
  · rw [FloatVal.le_num] at h
    have hxq : x ≤ q := by simpa using h
    rw [FloatVal.min_eq, FloatVal.lt_num]
    by_cases hlt : x < q
    · simp [hlt]
    · have : q = x := le_antisymm (not_lt.mp hlt) hxq
      simp [this]

theorem rr64_single (j : Job64) (hid : j.id = 0) (ha : j.arrivalTime = FloatVal.num 0)
    (hb : j.burstTime.IsTime) (hfresh : j.remainingTime = j.burstTime)
    (timeSlice overheadTime m : Int) (hq : 0 ≤ timeSlice)
    (hfit : FloatVal.le j.burstTime (quantum64 timeSlice) = true) :
    (rrRun64 timeSlice overheadTime 1 (rrInit64 [j] m)).finished = true
    ∧ (rrRun64 timeSlice overheadTime 1 (rrInit64 [j] m)).jobs
        = [{ j with remainingTime := FloatVal.num 0
                    completionTime := j.burstTime
                    turnaroundTime := j.burstTime
                    waitingTime := FloatVal.num 0 }] := by
  have hadm : (rrAdmitted64 (rrInit64 [j] m)).1 = 0 :: [] := by
    simp [rrAdmitted64, rrAdmit64, rrEligible64, rrInit64, List.range, List.range.loop, flagAt,
      jobAt64, hid, ha, FloatVal.le_num]
  have hjob : jobAt64 (rrInit64 [j] m).jobs 0 = j := rfl
  have hmin : FloatVal.min (quantum64 timeSlice) j.remainingTime = j.burstTime := by
    rw [hfresh]
    exact FloatVal.min_of_le hb (quantum64_nonNeg hq) hfit
  have hleft : rrLeft64 timeSlice (rrInit64 [j] m) 0 = FloatVal.num 0 := by
    unfold rrLeft64
    rw [hjob, hmin, hfresh, FloatVal.sub_same hb]
  have hr : FloatVal.le (rrLeft64 timeSlice (rrInit64 [j] m) 0) (FloatVal.num 0) = true := by
    rw [hleft]
    simp [FloatVal.le_num]
  have hstep := rrIter64_final timeSlice overheadTime (s := rrInit64 [j] m) rfl hadm hr
  have hrun : rrRun64 timeSlice overheadTime 1 (rrInit64 [j] m)
      = (rrIter64 timeSlice overheadTime (rrInit64 [j] m)).2 := rfl
  rw [hrun, hstep]
  simp only [hjob, hleft, hmin, hid, ha]
  have hc : (rrInit64 [j] m).current_time = FloatVal.num 0 := rfl
  have hcj : (rrInit64 [j] m).completedJobs = [false] := rfl
  have hjs : (rrInit64 [j] m).jobs = [j] := rfl
  simp [hc, hcj, hjs, allSet, FloatVal.add_zero_left hb.nonNeg, FloatVal.sub_zero_right hb.nonNeg,
    FloatVal.sub_same hb]

/-! ## Round-Robin in binary64: what one iteration adds to the clock -/

theorem rrAdmitted64_length_le {orig : List Job64} (hv : Valid64 orig) {s : RRState64}
    (inv : RRInv64 orig s) : (rrAdmitted64 s).1.length ≤ orig.length := by
  have mid := rrInv64_admitted hv inv
  exact length_le_of_nodup_lt mid.nodup (fun x hx => (mid.queue x hx).1)

/-- The counters after a running iteration: one more sample, of the length of the admitted
queue. -/
theorem rrStep64_stats (timeSlice overheadTime : Int) {s : RRState64}
    (hf : s.finished = false) :
    (rrStep64 timeSlice overheadTime s).queueLengthCount = wrap32 (s.queueLengthCount + 1)
    ∧ (rrStep64 timeSlice overheadTime s).queueLengthSum
        = FloatVal.add s.queueLengthSum (FloatVal.ofNat (rrAdmitted64 s).1.length)
    ∧ (rrStep64 timeSlice overheadTime s).maxQueueLength
        = max s.maxQueueLength (wrap32 (((rrAdmitted64 s).1.length : Nat) : Int))
    ∧ ((rrStep64 timeSlice overheadTime s).finished = true → (rrAdmitted64 s).1 ≠ []) := by
  unfold rrStep64
  rcases rrCase64 timeSlice s with hf' | ⟨_, hq⟩ | ⟨_, x, rest, hq, hr⟩ | ⟨_, x, rest, hq, hr⟩
  · rw [hf] at hf'; exact absurd hf' (by decide)
  · rw [rrIter64_idle _ _ hf hq]
    refine ⟨rfl, rfl, rfl, fun h => ?_⟩
    rw [hf] at h
    exact absurd h (by decide)
  · rw [rrIter64_final _ _ hf hq hr]
    exact ⟨rfl, rfl, rfl, fun _ => by rw [hq]; simp⟩
  · rw [rrIter64_preempt _ _ hf hq hr]
    exact ⟨rfl, rfl, rfl, fun _ => by rw [hq]; simp⟩

theorem wrap32_of_lt {i : Int} (h0 : 0 ≤ i) (h : i < 2 ^ 31) : wrap32 i = i := by
  unfold wrap32
  have h1 : (2 : Int) ^ 31 = 2147483648 := by norm_num
  have h2 : (2 : Int) ^ 32 = 4294967296 := by norm_num
  rw [h1] at h
  rw [h1, h2]
  omega

theorem rrEvents64_succ_last (timeSlice overheadTime : Int) :
    ∀ (n : Nat) (s : RRState64),
      rrEvents64 timeSlice overheadTime (n + 1) s
        = rrEvents64 timeSlice overheadTime n s
          ++ (if (rrRun64 timeSlice overheadTime n s).finished then []
              else [(rrIter64 timeSlice overheadTime (rrRun64 timeSlice overheadTime n s)).1]) := by
  intro n
  induction n with
  | zero =>
    intro s
    cases hf : s.finished <;> simp [rrEvents64, rrRun64, hf]
  | succ k ih =>
    intro s
    cases hf : s.finished with
    | true =>
      have hrun := rrRun64_of_finished timeSlice overheadTime hf (k + 1)
      rw [hrun]
      simp [rrEvents64, hf]
    | false =>
      have h1 : rrEvents64 timeSlice overheadTime (k + 1 + 1) s
          = (rrIter64 timeSlice overheadTime s).1
            :: rrEvents64 timeSlice overheadTime (k + 1) (rrStep64 timeSlice overheadTime s) := by
        simp [rrEvents64, hf]
      have h2 : rrEvents64 timeSlice overheadTime (k + 1) s
          = (rrIter64 timeSlice overheadTime s).1
            :: rrEvents64 timeSlice overheadTime k (rrStep64 timeSlice overheadTime s) := by
        simp [rrEvents64, hf]
      rw [h1, h2, ih (rrStep64 timeSlice overheadTime s), rrRun64_succ]
      simp

/-- The statistics after `k` iterations, as long as the counter has not wrapped and the sum of
the samples is exact: the counter holds the number `c` of iterations run, the sum is the sum
of the `c` samples, the maximum is at most the number of jobs, the sum is at most `c` times
the maximum, and once the loop is left some sample was positive. -/
theorem rrStats64_run {orig : List Job64} (hne : orig ≠ []) (hv : Valid64 orig)
    {timeSlice overheadTime : Int} (hq : 0 ≤ timeSlice) (ho : 0 ≤ overheadTime)
    (hn : orig.length < 2 ^ 31) {bound : Nat} (hT : bound < 2 ^ 31)
    (hTn : bound * orig.length ≤ 2 ^ 53) :
    ∀ k, k ≤ bound →
      ∃ c S M : Nat,
        c = (rrEvents64 timeSlice overheadTime k (rrInit64 orig 0)).length
        ∧ c ≤ k
        ∧ ((rrRun64 timeSlice overheadTime k (rrInit64 orig 0)).finished = false → c = k)
        ∧ (rrRun64 timeSlice overheadTime k (rrInit64 orig 0)).queueLengthCount = (c : Int)
        ∧ (rrRun64 timeSlice overheadTime k (rrInit64 orig 0)).queueLengthSum
            = FloatVal.num (S : ℚ)
        ∧ S = rrSamples64 timeSlice overheadTime (rrInit64 orig 0) c
        ∧ (rrRun64 timeSlice overheadTime k (rrInit64 orig 0)).maxQueueLength = (M : Int)
        ∧ M ≤ orig.length
        ∧ S ≤ c * M
        ∧ ((rrRun64 timeSlice overheadTime k (rrInit64 orig 0)).finished = true →
            1 ≤ M ∧ 1 ≤ S ∧ 1 ≤ c) := by
  intro k
  induction k with
  | zero =>
    intro _
    refine ⟨0, 0, 0, ?_, le_refl _, fun _ => rfl, rfl, ?_, ?_, rfl, Nat.zero_le _, le_refl _, ?_⟩
    · simp [rrEvents64]
    · simp [rrRun64, rrInit64]
    · simp [rrSamples64]
    · intro h
      have := (rrInv64_init hne hv 0).live
      have h2 : (rrInit64 orig 0).finished = false := rfl
      simp [rrRun64] at h
      rw [h2] at h
      exact absurd h (by decide)
  | succ k ih =>
    intro hk
    obtain ⟨c, S, M, hc, hck, hrun, hcount, hsum, hS, hmax, hMn, hSle, hfin⟩ := ih (by omega)
    cases hf : (rrRun64 timeSlice overheadTime k (rrInit64 orig 0)).finished with
    | true =>
      have hsame : rrRun64 timeSlice overheadTime (k + 1) (rrInit64 orig 0)
          = rrRun64 timeSlice overheadTime k (rrInit64 orig 0) := by
        rw [rrRun64_succ_last, rrStep64_of_finished _ _ hf]
      refine ⟨c, S, M, ?_, by omega, ?_, ?_, ?_, hS, ?_, hMn, hSle, ?_⟩
      · rw [rrEvents64_succ_last, hf]
        simpa using hc
      · rw [hsame, hf]; intro h; exact absurd h (by decide)
      · rw [hsame]; exact hcount
      · rw [hsame]; exact hsum
      · rw [hsame]; exact hmax
      · rw [hsame]; exact hfin
    | false =>
      have hck' : c = k := hrun hf
      have inv := rrInv64_run hne hv hq ho 0 k
      obtain ⟨h1, h2, h3, h4⟩ := rrStep64_stats timeSlice overheadTime hf
      have hlen := rrAdmitted64_length_le hv inv
      set L := (rrAdmitted64 (rrRun64 timeSlice overheadTime k (rrInit64 orig 0))).1.length
        with hL
      have e31 : (2 : Nat) ^ 31 = 2147483648 := by norm_num
      have i31 : (2 : Int) ^ 31 = 2147483648 := by norm_num
      rw [e31] at hn hT
      have hLwrap : wrap32 ((L : Nat) : Int) = (L : Int) := by
        apply wrap32_of_lt (Int.natCast_nonneg _)
        rw [i31]
        have : L < 2147483648 := lt_of_le_of_lt hlen hn
        omega
      have hcwrap : wrap32 ((c : Int) + 1) = ((c + 1 : Nat) : Int) := by
        have h0 : (0 : Int) ≤ (c : Int) + 1 := by omega
        have : ((c : Int) + 1) < 2 ^ 31 := by
          rw [i31]
          omega
        rw [wrap32_of_lt h0 this]
        push_cast
        rfl
      have hSL : S + L ≤ (c + 1) * orig.length := by
        have h5 : c * M ≤ c * orig.length := Nat.mul_le_mul_left _ hMn
        have h6 : (c + 1) * orig.length = c * orig.length + orig.length := by ring
        rw [h6]
        exact Nat.add_le_add (le_trans hSle h5) hlen
      have hSL53 : S + L ≤ 2 ^ 53 := by
        have h7 : (c + 1) * orig.length ≤ bound * orig.length :=
          Nat.mul_le_mul_right orig.length (show c + 1 ≤ bound by rw [hck']; exact hk)
        exact Nat.le_trans hSL (Nat.le_trans h7 hTn)
      have hL53 : L ≤ 2 ^ 53 := Nat.le_trans (Nat.le_add_left L S) hSL53
      have hsum' : FloatVal.add (FloatVal.num (S : ℚ)) (FloatVal.ofNat L)
          = FloatVal.num ((S + L : Nat) : ℚ) := by
        unfold FloatVal.ofNat
        rw [isDouble_natCast hL53, FloatVal.add_num]
        have := isDouble_natCast hSL53
        rw [Nat.cast_add] at this
        rw [Nat.cast_add]
        exact this
      refine ⟨c + 1, S + L, max M L, ?_, by omega, fun _ => by omega, ?_, ?_, ?_, ?_, ?_, ?_, ?_⟩
      · rw [rrEvents64_succ_last, hf]
        simp [← hc]
      · rw [rrRun64_succ_last, h1, hcount, hcwrap]
      · rw [rrRun64_succ_last, h2, hsum, hsum']
      · unfold rrSamples64
        rw [Finset.sum_range_succ]
        unfold rrSamples64 at hS
        rw [← hS, hck']
        rfl
      · rw [rrRun64_succ_last, h3, hmax, hLwrap]
        push_cast
        rfl
      · exact max_le hMn hlen
      · calc S + L ≤ c * M + L := Nat.add_le_add_right hSle _
          _ ≤ c * max M L + max M L :=
            Nat.add_le_add (Nat.mul_le_mul_left _ (le_max_left _ _)) (le_max_right _ _)
          _ = (c + 1) * max M L := by ring
      · intro hfin'
        rw [rrRun64_succ_last] at hfin'
        have hne' := h4 hfin'
        have hL1 : 1 ≤ L := by
          rw [hL]
          exact List.length_pos.mpr hne'
        exact ⟨le_trans hL1 (le_max_right _ _), le_trans hL1 (Nat.le_add_left L S),
          Nat.le_add_left 1 c⟩

theorem wrap32_succ (i : Int) : wrap32 (wrap32 i + 1) = wrap32 (i + 1) := by
  unfold wrap32
  have h1 : (2 : Int) ^ 31 = 2147483648 := by norm_num
  have h2 : (2 : Int) ^ 32 = 4294967296 := by norm_num
  rw [h1, h2]
  omega

theorem wrapJob_eq : wrapJob = [⟨0, FloatVal.num 2147483648, FloatVal.num (1 / 2),
    FloatVal.num (1 / 2), FloatVal.num 0, FloatVal.num 0, FloatVal.num 0⟩] := by
  decide!

/-- An idle iteration of `handleRoundRobin` on `wrapJob` before the clock reaches the
arrival. -/
theorem wrapIdle_step (k : Nat) (hk : k < 2147483648) :
    rrStep64 500 0 (wrapIdle k) = wrapIdle (k + 1) := by
  have hlt : ¬ ((2147483648 : ℚ) ≤ (k : ℚ)) := by
    have : (k : ℚ) < 2147483648 := by exact_mod_cast hk
    linarith
  have hadm : rrAdmitted64 (wrapIdle k) = ([], [false]) := by
    simp [rrAdmitted64, rrAdmit64, rrEligible64, wrapIdle, wrapJob_eq, List.range,
      List.range.loop, flagAt, jobAt64, FloatVal.le, hlt]
  have hq : (rrAdmitted64 (wrapIdle k)).1 = [] := by rw [hadm]
  have h53 : k + 1 ≤ 2 ^ 53 := by
    have e : (2 : Nat) ^ 53 = 9007199254740992 := by norm_num
    rw [e]
    omega
  have hclock : FloatVal.add (FloatVal.num (k : ℚ)) (FloatVal.num 1)
      = FloatVal.num ((k + 1 : Nat) : ℚ) := by
    rw [FloatVal.add_num]
    have := isDouble_natCast h53
    rw [Nat.cast_add, Nat.cast_one] at this
    rw [Nat.cast_add, Nat.cast_one]
    exact this
  have hsum : FloatVal.add (FloatVal.num 0) (FloatVal.ofNat 0) = FloatVal.num 0 := by
    decide!
  have hmax : max (0 : Int) (wrap32 ((0 : Nat) : Int)) = 0 := by decide
  unfold rrStep64
  rw [rrIter64_idle 500 0 rfl hq, hadm]
  show ({ jobs := wrapJob, readyJobs := [],
          current_time := FloatVal.add (FloatVal.num (k : ℚ)) (FloatVal.num 1),
          completedJobs := [false], inQueue := [false],
          queueLengthSum := FloatVal.add (FloatVal.num 0) (FloatVal.ofNat 0),
          queueLengthCount := wrap32 (wrap32 (k : Int) + 1),
          maxQueueLength := max 0 (wrap32 ((0 : Nat) : Int)),
          finished := false } : RRState64) = wrapIdle (k + 1)
  rw [hclock, hsum, hmax, wrap32_succ]
  unfold wrapIdle
  push_cast
  rfl

/-- The run of `handleRoundRobin` on `wrapJob` is idle until the clock reaches the arrival at
`2 ^ 31`. -/
theorem wrapIdle_run : ∀ k, k ≤ 2147483648 →
    rrRun64 500 0 k (rrInit64 wrapJob 0) = wrapIdle k := by
  intro k
  induction k with
  | zero =>
    intro _
    show rrInit64 wrapJob 0 = wrapIdle 0
    decide!
  | succ n ih =>
    intro hn
    rw [rrRun64_succ_last, ih (by omega)]
    exact wrapIdle_step n (by omega)

/-! ## SJF in binary64: unit stepping and jumping agree on whole-number times -/

theorem earliest64_eq_none : ∀ (l : List FloatVal), earliest64 l = none → l = [] := by
  intro l
  cases l with
  | nil => intro _; rfl
  | cons a rest =>
    intro h
    simp only [earliest64] at h
    cases hr : earliest64 rest with
    | none => rw [hr] at h; cases h
    | some b => rw [hr] at h; cases h

theorem earliest64_spec : ∀ (l : List FloatVal), (∀ x ∈ l, x.IsTime) →
    ∀ a, earliest64 l = some a → a ∈ l ∧ ∀ x ∈ l, FloatVal.le a x = true := by
  intro l
  induction l with
  | nil => intro _ a h; cases h
  | cons b rest ih =>
    intro hall a h
    have hb : b.IsTime := hall b (List.mem_cons_self _ _)
    have hrest : ∀ x ∈ rest, x.IsTime := fun x hx => hall x (List.mem_cons_of_mem _ hx)
    simp only [earliest64] at h
    cases hr : earliest64 rest with
    | none =>
      rw [hr] at h
      simp only [Option.some.injEq] at h
      subst h
      have := earliest64_eq_none rest hr
      subst this
      refine ⟨List.mem_cons_self _ _, fun x hx => ?_⟩
      rw [List.mem_singleton] at hx
      subst hx
      exact FloatVal.le_refl_of_nonNeg hb.nonNeg
    | some c =>
      rw [hr] at h
      simp only [Option.some.injEq] at h
      obtain ⟨hc, hmin⟩ := ih hrest c hr
      have hct : c.IsTime := hrest c hc
      rw [FloatVal.min_eq] at h
      by_cases hlt : FloatVal.lt c b = true
      · rw [if_pos hlt] at h
        subst h
        refine ⟨List.mem_cons_of_mem _ hc, fun x hx => ?_⟩
        rcases List.mem_cons.mp hx with hx | hx
        · subst hx
          obtain ⟨vc, rfl, -, -⟩ := hct.cases_isTime
          obtain ⟨vb, rfl, -, -⟩ := hb.cases_isTime
          rw [FloatVal.lt_num] at hlt
          rw [FloatVal.le_num]
          have : vc < vb := by simpa using hlt
          simpa using this.le
        · exact hmin x hx
      · rw [if_neg hlt] at h
        subst h
        have hbc : FloatVal.le b c = true := by
          obtain ⟨vc, rfl, -, -⟩ := hct.cases_isTime
          obtain ⟨vb, rfl, -, -⟩ := hb.cases_isTime
          rw [FloatVal.lt_num] at hlt
          rw [FloatVal.le_num]
          have : ¬ vc < vb := by simpa using hlt
          simpa using not_lt.mp this
        refine ⟨List.mem_cons_self _ _, fun x hx => ?_⟩
        rcases List.mem_cons.mp hx with hx | hx
        · subst hx
          exact FloatVal.le_refl_of_nonNeg hb.nonNeg
        · exact FloatVal.le_trans_of_nonNeg hb.nonNeg hct.nonNeg (hrest x hx).nonNeg hbc
            (hmin x hx)

theorem sjfEvents64_of_finished (n : Nat) {s : SJFState64} (hf : s.finished = true) :
    sjfEvents64 n s = [] := by
  cases n with
  | zero => rfl
  | succ k => simp [sjfEvents64, hf]

theorem sjfEvents64_add (a b : Nat) : ∀ (s : SJFState64),
    sjfEvents64 (a + b) s = sjfEvents64 a s ++ sjfEvents64 b (sjfRun64 a s) := by
  induction a with
  | zero => intro s; simp [sjfEvents64, sjfRun64]
  | succ k ih =>
    intro s
    rw [show k + 1 + b = (k + b) + 1 by omega]
    cases hf : s.finished with
    | true =>
      rw [sjfRun64_of_finished hf, sjfEvents64_of_finished _ hf, sjfEvents64_of_finished _ hf,
        sjfEvents64_of_finished _ hf]
      rfl
    | false =>
      simp only [sjfEvents64, hf, Bool.false_eq_true, if_false, List.cons_append]
      rw [ih, sjfRun64_succ]

theorem sjfDispatches64_add (a b : Nat) (s : SJFState64) :
    sjfDispatches64 (a + b) s = sjfDispatches64 a s ++ sjfDispatches64 b (sjfRun64 a s) := by
  unfold sjfDispatches64
  rw [sjfEvents64_add, List.filterMap_append]

theorem sjfIterJump64_finished {s : SJFState64} (hf : s.finished = true) :
    sjfIterJump64 s = (SJFEvent.halted, s) := by
  unfold sjfIterJump64
  rw [sjfIter64_finished hf]

theorem sjfIterJump64_idle {s : SJFState64} (hf : s.finished = false)
    (hq : sjfAdmitted64 s = []) :
    sjfIterJump64 s = (SJFEvent.idle,
      { jobs := s.jobs, jobQueue := [], isCompleted := s.isCompleted,
        current_time := sjfNextArrival64 s, finished := s.finished }) := by
  unfold sjfIterJump64
  rw [sjfIter64_idle hf hq]

theorem sjfIterJump64_dispatch {s : SJFState64} (hf : s.finished = false) {p : Nat}
    {rest : List Nat} (hq : sjfAdmitted64 s = p :: rest) : sjfIterJump64 s = sjfIter64 s := by
  unfold sjfIterJump64
  rw [sjfIter64_dispatch hf hq]

theorem sjfStepJump64_of_finished {s : SJFState64} (hf : s.finished = true) :
    sjfStepJump64 s = s := by
  unfold sjfStepJump64
  rw [sjfIterJump64_finished hf]

theorem sjfRunJump64_of_finished (n : Nat) {s : SJFState64} (hf : s.finished = true) :
    sjfRunJump64 n s = s := by
  unfold sjfRunJump64
  exact Function.iterate_fixed (sjfStepJump64_of_finished hf) n

theorem sjfRunJump64_add (a b : Nat) (s : SJFState64) :
    sjfRunJump64 (a + b) s = sjfRunJump64 b (sjfRunJump64 a s) := by
  unfold sjfRunJump64
  rw [Nat.add_comm, Function.iterate_add_apply]

theorem sjfRunJump64_succ (n : Nat) (s : SJFState64) :
    sjfRunJump64 (n + 1) s = sjfRunJump64 n (sjfStepJump64 s) := by
  unfold sjfRunJump64
  rw [Function.iterate_succ_apply]

theorem sjfRunJump64_succ_last (n : Nat) (s : SJFState64) :
    sjfRunJump64 (n + 1) s = sjfStepJump64 (sjfRunJump64 n s) := by
  unfold sjfRunJump64
  rw [Function.iterate_succ_apply']

theorem sjfEventsJump64_of_finished (n : Nat) {s : SJFState64} (hf : s.finished = true) :
    sjfEventsJump64 n s = [] := by
  cases n with
  | zero => rfl
  | succ k => simp [sjfEventsJump64, hf]

theorem sjfEventsJump64_add (a b : Nat) : ∀ (s : SJFState64),
    sjfEventsJump64 (a + b) s
      = sjfEventsJump64 a s ++ sjfEventsJump64 b (sjfRunJump64 a s) := by
  induction a with
  | zero => intro s; simp [sjfEventsJump64, sjfRunJump64]
  | succ k ih =>
    intro s
    rw [show k + 1 + b = (k + b) + 1 by omega]
    cases hf : s.finished with
    | true =>
      rw [sjfRunJump64_of_finished _ hf, sjfEventsJump64_of_finished _ hf,
        sjfEventsJump64_of_finished _ hf, sjfEventsJump64_of_finished _ hf]
      rfl
    | false =>
      simp only [sjfEventsJump64, hf, Bool.false_eq_true, if_false, List.cons_append]
      rw [ih, sjfRunJump64_succ]

theorem sjfDispatchesJump64_add (a b : Nat) (s : SJFState64) :
    sjfDispatchesJump64 (a + b) s
      = sjfDispatchesJump64 a s ++ sjfDispatchesJump64 b (sjfRunJump64 a s) := by
  unfold sjfDispatchesJump64
  rw [sjfEventsJump64_add, List.filterMap_append]

theorem performSJFJump64_finished {orig r : List Job64} {fuel : Nat}
    (h : performSJFJump64 fuel orig = some r) :
    (sjfRunJump64 fuel (sjfInit64 orig)).finished = true
    ∧ r = (sjfRunJump64 fuel (sjfInit64 orig)).jobs := by
  unfold performSJFJump64 at h
  by_cases hf : (sjfRunJump64 fuel (sjfInit64 orig)).finished = true
  · simp only [hf, if_true, Option.some.injEq] at h
    exact ⟨hf, h.symm⟩
  · simp [hf] at h

theorem performSJFJump64_of_finished {orig : List Job64} {fuel : Nat}
    (hf : (sjfRunJump64 fuel (sjfInit64 orig)).finished = true) :
    performSJFJump64 fuel orig = some (sjfRunJump64 fuel (sjfInit64 orig)).jobs := by
  unfold performSJFJump64
  simp only [hf, if_true]

/-- Once the loop is left, more fuel changes neither the state nor the dispatches. -/
theorem sjf64_dispatches_fuel_irrelevant {s : SJFState64} {f1 f2 : Nat} (hle : f1 ≤ f2)
    (hf : (sjfRun64 f1 s).finished = true) :
    sjfRun64 f2 s = sjfRun64 f1 s ∧ sjfDispatches64 f2 s = sjfDispatches64 f1 s := by
  rw [show f2 = f1 + (f2 - f1) by omega, sjfRun64_add, sjfDispatches64_add,
    sjfRun64_of_finished hf]
  unfold sjfDispatches64
  rw [sjfEvents64_of_finished _ hf]
  simp

theorem sjfJump64_fuel_irrelevant {s : SJFState64} {f1 f2 : Nat} (hle : f1 ≤ f2)
    (hf : (sjfRunJump64 f1 s).finished = true) :
    sjfRunJump64 f2 s = sjfRunJump64 f1 s
      ∧ sjfDispatchesJump64 f2 s = sjfDispatchesJump64 f1 s := by
  rw [show f2 = f1 + (f2 - f1) by omega, sjfRunJump64_add, sjfDispatchesJump64_add,
    sjfRunJump64_of_finished _ hf]
  unfold sjfDispatchesJump64
  rw [sjfEventsJump64_of_finished _ hf]
  simp

/-- On `stallJobs` the loop of `performSJF` is never left. -/
theorem performSJF64_stallJobs (fuel : Nat) : performSJF64 fuel stallJobs = none := by
  have h1 : sjfRun64 1 (sjfInit64 stallJobs) = stallState := by decide!
  have h2 : sjfStep64 stallState = stallState := by decide!
  have h3 : ∀ n, sjfRun64 (n + 1) (sjfInit64 stallJobs) = stallState := by
    intro n
    induction n with
    | zero => exact h1
    | succ k ih => rw [sjfRun64_succ_last, ih, h2]
  unfold performSJF64
  cases fuel with
  | zero => rfl
  | succ n => rw [h3 n]; rfl

theorem exists_nat_of_whole {q : ℚ} (h0 : 0 ≤ q) (hd : q.den = 1) : ∃ n : Nat, q = (n : ℚ) := by
  have hq : q = (q.num : ℚ) := (Rat.coe_int_num_of_den_eq_one hd).symm
  have hnum : 0 ≤ q.num := Rat.num_nonneg.mpr h0
  obtain ⟨n, hn⟩ := Int.eq_ofNat_of_zero_le hnum
  refine ⟨n, ?_⟩
  rw [hq, hn]
  simp

theorem isDouble_two_pow_53 : IsDouble ((2 : ℚ) ^ 53) := by
  have h := isDouble_natCast (le_refl (2 ^ 53))
  rw [Nat.cast_pow, Nat.cast_ofNat] at h
  exact h

/-- The sum of a value that is at least `2 ^ 53` after rounding. -/
theorem round64_wholeOrLate {x : ℚ} (hx : (2 : ℚ) ^ 53 ≤ x) : (round64 x).WholeOrLate := by
  rcases round64_ge (by positivity) isDouble_two_pow_53 hx with e | ⟨q, e, hq, -⟩
  · rw [e]; trivial
  · rw [e]; exact Or.inr hq

/-- Adding a whole number to a clock that is whole or at least `2 ^ 53` leaves such a
clock. -/
theorem FloatVal.wholeOrLate_add {a b : FloatVal} (ha : a.WholeOrLate) (hna : a.NonNeg)
    (hb : b.IsWhole) (htb : b.IsTime) : (FloatVal.add a b).WholeOrLate := by
  obtain ⟨vb, rfl, hvb0, -⟩ := htb.cases_isTime
  rcases hna.cases_nonNeg with rfl | ⟨c, rfl, hc0, hcd⟩
  · trivial
  · rw [FloatVal.add_num]
    have ha2 : c.den = 1 ∨ (2 : ℚ) ^ 53 ≤ c := ha
    have hb2 : vb.den = 1 := hb
    rcases ha2 with hw | hl
    · obtain ⟨n, rfl⟩ := exists_nat_of_whole hc0 hw
      obtain ⟨m, rfl⟩ := exists_nat_of_whole hvb0 hb2
      by_cases hsum : n + m ≤ 2 ^ 53
      · have hd := isDouble_natCast hsum
        rw [Nat.cast_add] at hd
        have hd2 : round64 ((n : ℚ) + (m : ℚ)) = FloatVal.num ((n : ℚ) + (m : ℚ)) := hd
        rw [hd2]
        left
        rw [← Nat.cast_add]
        exact Rat.den_natCast _
      · apply round64_wholeOrLate
        have h1 : 2 ^ 53 ≤ n + m := Nat.le_of_lt (Nat.lt_of_not_le hsum)
        have h2 : ((2 ^ 53 : Nat) : ℚ) ≤ ((n + m : Nat) : ℚ) := Nat.cast_le.mpr h1
        rw [Nat.cast_pow, Nat.cast_ofNat, Nat.cast_add] at h2
        exact h2
    · apply round64_wholeOrLate
      linarith

/-- The clock of `performSJF` is a whole number, or at least `2 ^ 53`, when the times of the
ledger are whole numbers. -/
theorem sjfWhole64_step {orig : List Job64} (hv : Valid64 orig) (hw : WholeTimes64 orig)
    {s : SJFState64} (inv : SJFInv64 orig s) (hc : s.current_time.WholeOrLate) :
    (sjfStep64 s).current_time.WholeOrLate := by
  unfold sjfStep64
  cases hf : s.finished with
  | true => rw [sjfIter64_finished hf]; exact hc
  | false =>
    cases hq : sjfAdmitted64 s with
    | nil =>
      rw [sjfIter64_idle hf hq]
      exact FloatVal.wholeOrLate_add hc inv.clock (show (1 : ℚ).den = 1 from rfl)
        (FloatVal.isTime_num (by norm_num) isDouble_one)
    | cons p rest =>
      rw [sjfIter64_dispatch hf hq]
      have hp : p < orig.length :=
        (sjfAdmitted64_mem hv inv (by rw [hq]; exact List.mem_cons_self _ _)).1
      show (FloatVal.add s.current_time (jobAt64 s.jobs p).burstTime).WholeOrLate
      rw [(inv.same p hp).2.2]
      exact FloatVal.wholeOrLate_add hc inv.clock (hw p hp).2 (hv p hp).2.2.1

theorem sjfWhole64_run {orig : List Job64} (hne : orig ≠ []) (hv : Valid64 orig)
    (hw : WholeTimes64 orig) (n : Nat) :
    (sjfRun64 n (sjfInit64 orig)).current_time.WholeOrLate := by
  induction n with
  | zero => exact Or.inl rfl
  | succ k ih =>
    rw [sjfRun64_succ_last]
    exact sjfWhole64_step hv hw (sjfInv64_run hne hv k) ih

theorem mem_sjfUncompleted64 {orig : List Job64} (hv : Valid64 orig) {s : SJFState64}
    (inv : SJFInv64 orig s) (p : Nat) :
    p ∈ sjfUncompleted64 s ↔ p < orig.length ∧ flagAt s.isCompleted p = false := by
  unfold sjfUncompleted64
  rw [List.mem_filter, List.mem_range, inv.len]
  constructor
  · rintro ⟨hp, hc⟩
    have hidp : (jobAt64 s.jobs p).id = p := by rw [(inv.same p hp).1]; exact (hv p hp).1
    simp only [hidp, Bool.not_eq_true'] at hc
    exact ⟨hp, hc⟩
  · rintro ⟨hp, hc⟩
    have hidp : (jobAt64 s.jobs p).id = p := by rw [(inv.same p hp).1]; exact (hv p hp).1
    exact ⟨hp, by simp [hidp, hc]⟩

/-- In a running state some job is not completed, and the next arrival is the arrival time of
such a job and is not later than the arrival of any other. -/
theorem sjfNextArrival64_spec {orig : List Job64} (hv : Valid64 orig) {s : SJFState64}
    (inv : SJFInv64 orig s) (hf : s.finished = false) :
    (∃ p, p < orig.length ∧ flagAt s.isCompleted p = false
      ∧ (jobAt64 orig p).arrivalTime = sjfNextArrival64 s)
    ∧ ∀ p, p < orig.length → flagAt s.isCompleted p = false →
      FloatVal.le (sjfNextArrival64 s) (jobAt64 orig p).arrivalTime = true := by
  have hall : allSet s.isCompleted = false := by rw [← inv.live]; exact hf
  obtain ⟨p0, hp0, hflag0⟩ := exists_not_completed hall
  rw [inv.flags] at hp0
  have hmem0 : p0 ∈ sjfUncompleted64 s := (mem_sjfUncompleted64 hv inv p0).mpr ⟨hp0, hflag0⟩
  have htimes : ∀ x ∈ (sjfUncompleted64 s).map (fun p => (jobAt64 s.jobs p).arrivalTime),
      x.IsTime := by
    intro x hx
    obtain ⟨p, hp, rfl⟩ := List.mem_map.mp hx
    have hp2 := (mem_sjfUncompleted64 hv inv p).mp hp
    show (jobAt64 s.jobs p).arrivalTime.IsTime
    rw [(inv.same p hp2.1).2.1]
    exact (hv p hp2.1).2.1
  cases he : earliest64 ((sjfUncompleted64 s).map (fun p => (jobAt64 s.jobs p).arrivalTime)) with
  | none =>
    have := earliest64_eq_none _ he
    rw [List.map_eq_nil_iff] at this
    rw [this] at hmem0
    simp at hmem0
  | some a =>
    have hnext : sjfNextArrival64 s = a := by
      unfold sjfNextArrival64
      rw [he]
    obtain ⟨hin, hmin⟩ := earliest64_spec _ htimes a he
    rw [hnext]
    constructor
    · obtain ⟨p, hp, hpa⟩ := List.mem_map.mp hin
      have hp2 := (mem_sjfUncompleted64 hv inv p).mp hp
      exact ⟨p, hp2.1, hp2.2, by rw [← (inv.same p hp2.1).2.1]; exact hpa⟩
    · intro p hp hflag
      have hmem := (mem_sjfUncompleted64 hv inv p).mpr ⟨hp, hflag⟩
      have := hmin _ (List.mem_map.mpr ⟨p, hmem, rfl⟩)
      rw [(inv.same p hp).2.1] at this
      exact this

theorem sjfIter64_idleAt {orig : List Job64} (hv : Valid64 orig) {s : SJFState64}
    (inv : SJFInv64 orig s) {c : FloatVal}
    (hlate : ∀ p, p < orig.length → flagAt s.isCompleted p = false →
      FloatVal.le (jobAt64 orig p).arrivalTime c = false) :
    sjfIter64 (sjfIdleAt64 s c)
      = (SJFEvent.idle, sjfIdleAt64 s (FloatVal.add c (FloatVal.num 1))) := by
  have hnew : sjfNew64 (sjfIdleAt64 s c) = [] := by
    unfold sjfNew64 sjfIdleAt64
    rw [List.filter_eq_nil_iff]
    intro p hp hcon
    rw [List.mem_range] at hp
    have hp2 : p < orig.length := by rw [← inv.len]; exact hp
    have hidp : (jobAt64 s.jobs p).id = p := by rw [(inv.same p hp2).1]; exact (hv p hp2).1
    simp only [hidp, (inv.same p hp2).2.1, Bool.and_eq_true, Bool.not_eq_true'] at hcon
    rw [hlate p hp2 hcon.1] at hcon
    exact absurd hcon.2 (by decide)
  have hadm : sjfAdmitted64 (sjfIdleAt64 s c) = [] := by
    have hperm := sjfAdmitted64_perm (sjfIdleAt64 s c)
    rw [hnew] at hperm
    exact List.Perm.eq_nil hperm
  have hf : (sjfIdleAt64 s c).finished = false := rfl
  rw [sjfIter64_idle hf hadm]
  rfl

/-- With whole-number times and arrivals up to `2 ^ 53`, an idle stretch of the unit-stepping
loop ends exactly where the jumping variant puts the clock: some number of idle iterations of
`performSJF` lead to the state one idle iteration of the variant leads to. -/
theorem sjf64_idle_catch_up {orig : List Job64} (hv : Valid64 orig) (hw : WholeTimes64 orig)
    (hb : ArrivalsReachable orig) {s : SJFState64} (inv : SJFInv64 orig s)
    (hc : s.current_time.WholeOrLate) (hf : s.finished = false)
    (hq : sjfAdmitted64 s = []) :
    ∃ k, 1 ≤ k ∧ sjfRun64 k s = sjfStepJump64 s ∧ sjfDispatches64 k s = [] := by
  have hperm := sjfAdmitted64_perm s
  rw [hq] at hperm
  have happ : s.jobQueue ++ sjfNew64 s = [] := List.Perm.nil_eq hperm |>.symm
  have hqueue : s.jobQueue = [] := (List.append_eq_nil.mp happ).1
  have hnew : sjfNew64 s = [] := (List.append_eq_nil.mp happ).2
  obtain ⟨⟨pa, hpa, hflaga, harra⟩, hmin⟩ := sjfNextArrival64_spec hv inv hf
  -- no job that is not completed has arrived
  have hlate : ∀ p, p < orig.length → flagAt s.isCompleted p = false →
      FloatVal.le (jobAt64 orig p).arrivalTime s.current_time = false := by
    intro p hp hflag
    by_contra hcon
    have hcon2 : FloatVal.le (jobAt64 orig p).arrivalTime s.current_time = true := by
      cases h : FloatVal.le (jobAt64 orig p).arrivalTime s.current_time with
      | true => rfl
      | false => exact absurd h hcon
    have hmem := (mem_sjfNew64 hv inv p).mpr ⟨hp, hflag, hcon2⟩
    rw [hnew] at hmem
    simp at hmem
  -- the clock and the next arrival are whole numbers, the clock the smaller
  obtain ⟨a, haeq, ha0, -⟩ := (hv pa hpa).2.1.cases_isTime
  have hawhole : a.den = 1 := by
    have := (hw pa hpa).1
    rw [haeq] at this
    exact this
  have ha53 : a ≤ 2 ^ 53 := by
    have := hb pa hpa
    rw [haeq, FloatVal.le_num] at this
    simpa using this
  obtain ⟨c, hceq, hc0, -, -⟩ :=
    clock_lt_of_not_arrived (hv pa hpa).2.1 inv.clock (hb pa hpa) (hlate pa hpa hflaga)
  have hca : c < a := by
    have := hlate pa hpa hflaga
    rw [haeq, hceq, FloatVal.le_num] at this
    simpa using this
  have hcwhole : c.den = 1 := by
    rw [hceq] at hc
    have hc2 : c.den = 1 ∨ (2 : ℚ) ^ 53 ≤ c := hc
    rcases hc2 with h | h
    · exact h
    · linarith
  obtain ⟨A, rfl⟩ := exists_nat_of_whole ha0 hawhole
  obtain ⟨C, rfl⟩ := exists_nat_of_whole hc0 hcwhole
  have hCA : C < A := by exact_mod_cast hca
  have hA53 : A ≤ 2 ^ 53 := by
    have h1 : ((A : Nat) : ℚ) ≤ ((2 ^ 53 : Nat) : ℚ) := by
      rw [Nat.cast_pow, Nat.cast_ofNat]
      exact ha53
    exact Nat.cast_le.mp h1
  have hnext : sjfNextArrival64 s = FloatVal.num (A : ℚ) := by rw [← harra, haeq]
  have hs0 : s = sjfIdleAt64 s (FloatVal.num (C : ℚ)) := by
    cases s
    simp only [sjfIdleAt64] at hqueue hf hceq ⊢
    simp_all
  -- the states of the idle stretch
  have hstretch : ∀ j, C + j ≤ A →
      sjfRun64 j s = sjfIdleAt64 s (FloatVal.num ((C + j : Nat) : ℚ))
        ∧ sjfDispatches64 j s = [] := by
    intro j
    induction j with
    | zero =>
      intro _
      refine ⟨?_, rfl⟩
      show s = _
      rw [Nat.add_zero]
      exact hs0
    | succ j ih =>
      intro hj
      obtain ⟨hrun, hdis⟩ := ih (Nat.le_of_succ_le hj)
      have hjA : C + j < A := hj
      have hstep := sjfIter64_idleAt hv inv (c := FloatVal.num ((C + j : Nat) : ℚ)) (by
        intro p hp hflag
        have h1 := hmin p hp hflag
        obtain ⟨x, hx, -, -⟩ := (hv p hp).2.1.cases_isTime
        rw [hnext, hx, FloatVal.le_num] at h1
        have h2 : (A : ℚ) ≤ x := by simpa using h1
        have h3 : ((C + j : Nat) : ℚ) < (A : ℚ) := Nat.cast_lt.mpr hjA
        rw [hx, FloatVal.le_num]
        have : ¬ x ≤ ((C + j : Nat) : ℚ) := by linarith
        simpa using this)
      have hexact : FloatVal.add (FloatVal.num ((C + j : Nat) : ℚ)) (FloatVal.num 1)
          = FloatVal.num ((C + (j + 1) : Nat) : ℚ) := by
        rw [FloatVal.add_num]
        have hd := isDouble_natCast (Nat.le_trans hj hA53)
        have e : ((C + (j + 1) : Nat) : ℚ) = ((C + j : Nat) : ℚ) + 1 := by
          push_cast
          ring
        rw [e] at hd
        rw [e]
        exact hd
      constructor
      · rw [sjfRun64_succ_last, hrun]
        unfold sjfStep64
        rw [hstep, hexact]
      · rw [sjfDispatches64_add, hdis, hrun]
        unfold sjfDispatches64
        simp only [sjfEvents64, hstep]
        rfl
  obtain ⟨d, hd⟩ := Nat.exists_eq_add_of_lt hCA
  have hCd : C + (d + 1) = A := by omega
  refine ⟨d + 1, Nat.le_add_left 1 d, ?_, (hstretch (d + 1) (le_of_eq hCd)).2⟩
  rw [(hstretch (d + 1) (le_of_eq hCd)).1, hCd]
  unfold sjfStepJump64
  rw [sjfIterJump64_idle hf hq, hf, hnext]
  rfl

/-- One iteration of the jumping variant is matched by one or more iterations of
`performSJF`, with the same dispatches. -/
theorem sjf64_jump_matched {orig : List Job64} (hv : Valid64 orig) (hw : WholeTimes64 orig)
    (hb : ArrivalsReachable orig) {s : SJFState64} (inv : SJFInv64 orig s)
    (hc : s.current_time.WholeOrLate) :
    ∃ k, 1 ≤ k ∧ sjfRun64 k s = sjfStepJump64 s
      ∧ sjfDispatches64 k s = sjfDispatchesJump64 1 s := by
  cases hf : s.finished with
  | true =>
    refine ⟨1, le_refl 1, ?_, ?_⟩
    · rw [sjfRun64_of_finished hf, sjfStepJump64_of_finished hf]
    · unfold sjfDispatches64 sjfDispatchesJump64
      rw [sjfEvents64_of_finished _ hf, sjfEventsJump64_of_finished _ hf]
  | false =>
    cases hq : sjfAdmitted64 s with
    | nil =>
      obtain ⟨k, hk, hrun, hdis⟩ := sjf64_idle_catch_up hv hw hb inv hc hf hq
      refine ⟨k, hk, hrun, ?_⟩
      rw [hdis]
      unfold sjfDispatchesJump64
      simp only [sjfEventsJump64, hf, Bool.false_eq_true, if_false, sjfIterJump64_idle hf hq]
      rfl
    | cons p rest =>
      have hj := sjfIterJump64_dispatch hf hq
      refine ⟨1, le_refl 1, ?_, ?_⟩
      · unfold sjfRun64 sjfStepJump64 sjfStep64
        rw [Function.iterate_one, hj]
      · unfold sjfDispatches64 sjfDispatchesJump64
        simp only [sjfEvents64, sjfEventsJump64, hf, Bool.false_eq_true, if_false, hj]

/-- The state the jumping variant reaches in `n` iterations is reached by `performSJF` in at
least `n` iterations, with the same dispatches. -/
theorem sjf64_jump_simulated {orig : List Job64} (hne : orig ≠ []) (hv : Valid64 orig)
    (hw : WholeTimes64 orig) (hb : ArrivalsReachable orig) (n : Nat) :
    ∃ m, n ≤ m ∧ sjfRun64 m (sjfInit64 orig) = sjfRunJump64 n (sjfInit64 orig)
      ∧ sjfDispatches64 m (sjfInit64 orig) = sjfDispatchesJump64 n (sjfInit64 orig) := by
  induction n with
  | zero => exact ⟨0, le_refl 0, rfl, rfl⟩
  | succ n ih =>
    obtain ⟨m, hm, hrun, hdis⟩ := ih
    obtain ⟨k, hk, hkrun, hkdis⟩ := sjf64_jump_matched hv hw hb (sjfInv64_run hne hv m)
      (sjfWhole64_run hne hv hw m)
    refine ⟨m + k, by omega, ?_, ?_⟩
    · rw [sjfRun64_add, hkrun, hrun, sjfRunJump64_succ_last]
    · rw [sjfDispatches64_add, hkdis, hdis, hrun, sjfDispatchesJump64_add]

/-! ## Claims -/

/-- C1 (the code departs from the claim). On the scenario ledger `performSJF` leaves its loop
after five dispatches, not four: it dispatches job 3 a second time before job 2, so the
dispatch order is 0, 1, 3, 3, 2, the completion times of jobs 0..3 are 5, 8, 28, 20, the
waiting times are 0, 4, 18, 11, and the averages are 8.25 (waiting) and 13.75 (turnaround),
where the claim has order 0, 1, 3, 2, completions 5, 8, 14, 22, waiting times 0, 4, 5, 12 and
averages 5.25 and 10.75. -/
theorem C1_sjf_scenario :
    performSJF 4 scenario = none
    ∧ sjfDispatches 5 (sjfInit scenario) = [0, 1, 3, 3, 2]
    ∧ (performSJF 5 scenario).map (fun js => js.map (fun j => j.completionTime))
        = some [5, 8, 28, 20]
    ∧ (performSJF 5 scenario).map (fun js => js.map (fun j => j.waitingTime))
        = some [0, 4, 18, 11]
    ∧ (performSJF 5 scenario).map computePerformanceMetrics
        = some (Except.ok ⟨FloatVal.num (33 / 4), FloatVal.num (55 / 4)⟩) := by
  decide!

/-- C2 (the code departs from the claim). On the scenario ledger the fourth iteration of
`performSJF` starts at clock 14 with job 3 already flagged completed and job 2 arrived and not
completed, and it dispatches job 3 again. -/
theorem C2_sjf_dispatches_completed_job :
    (sjfRun 3 (sjfInit scenario)).finished = false
    ∧ (sjfRun 3 (sjfInit scenario)).current_time = 14
    ∧ flagAt (sjfRun 3 (sjfInit scenario)).isCompleted 3 = true
    ∧ flagAt (sjfRun 3 (sjfInit scenario)).isCompleted 2 = false
    ∧ (jobAt scenario 2).arrivalTime ≤ 14
    ∧ (sjfIter (sjfRun 3 (sjfInit scenario))).1 = SJFEvent.dispatch 3 := by
  decide!

/-- C3. `executeFCFS` keeps the ledger order and length and, in any ledger, the job at position
`i` completes at `max (completion of the job before it) (its arrival) + its burst`, the
completion before the first job being the initial clock 0; on the scenario ledger the
completions are 5, 8, 16, 22, the waiting times 0, 4, 6, 13 and the averages 5.75 and 11.25. -/
theorem C3_fcfs_recurrence (jobs : List Job) :
    (executeFCFS jobs).length = jobs.length
    ∧ (∀ i, i < jobs.length →
        (jobAt (executeFCFS jobs) i).id = (jobAt jobs i).id
        ∧ (jobAt (executeFCFS jobs) i).completionTime
          = max (if i = 0 then 0 else (jobAt (executeFCFS jobs) (i - 1)).completionTime)
              (jobAt jobs i).arrivalTime + (jobAt jobs i).burstTime)
    ∧ (executeFCFS scenario).map (fun j => j.completionTime) = [5, 8, 16, 22]
    ∧ (executeFCFS scenario).map (fun j => j.waitingTime) = [0, 4, 6, 13]
    ∧ computePerformanceMetrics (executeFCFS scenario)
        = Except.ok ⟨FloatVal.num (23 / 4), FloatVal.num (45 / 4)⟩ := by
  refine ⟨fcfsLoop_length 0 jobs, fun i hi => ⟨?_, ?_⟩, by decide!, by decide!, by decide!⟩
  · exact (fcfsLoop_fields jobs 0 i hi).2.2.2.2
  · exact fcfsLoop_completion jobs 0 i hi

/-- C3, at position 2 of the scenario ledger: job 2 completes at `max 8 2 + 8`. -/
theorem C3_fcfs_recurrence_witness :
    (jobAt (executeFCFS scenario) 2).completionTime
      = max (if 2 = 0 then 0 else (jobAt (executeFCFS scenario) (2 - 1)).completionTime)
          (jobAt scenario 2).arrivalTime + (jobAt scenario 2).burstTime :=
  ((C3_fcfs_recurrence scenario).2.1 2 (by decide)).2

/-- C5 (counterexample). Round-Robin with quantum 500 and overhead 5, a cell of the sweep
grid, on the single job arriving at 0 with burst 1: the job is preempted once after its first
slice of 0.5, the context switch is added to the clock, and the job is left with a waiting time
of `5629499534213 / 2 ^ 50`, about 0.005.  With quantum 100 and no overhead, the single job
arriving at 0 with the `double` nearest to 0.45 as burst time runs in five slices and is left
with the waiting time `-2 ^ (-54)`. -/
theorem C5_rr_single_job_waits :
    oneJob64 = [⟨0, FloatVal.num 0, FloatVal.num 1, FloatVal.num 1, FloatVal.num 0,
      FloatVal.num 0, FloatVal.num 0⟩]
    ∧ handleRoundRobin64 2 oneJob64 500 5 0 = some oneJobRR64
    ∧ (jobAt64 oneJobRR64.jobs 0).waitingTime
        = FloatVal.num (5629499534213 / 1125899906842624)
    ∧ (jobAt64 oneJobRR64.jobs 0).waitingTime ≠ FloatVal.num 0
    ∧ (handleRoundRobin64 5 fracJobAtZero 100 0 0).map
        (fun r => (jobAt64 r.jobs 0).waitingTime) = some (FloatVal.num (-1 / 2 ^ 54)) := by
  decide!

/-- C5 (amended). For a ledger of a single job with id 0, `arrivalTime = 0`, a burst time
that is a non-negative number and `remainingTime = burstTime`: `executeFCFS` leaves
`waitingTime = 0`; `performSJF` returns and leaves `waitingTime = 0`; and when the burst time
is at most the quantum `timeSlice / 1000.0`, `handleRoundRobin` returns and leaves
`waitingTime = 0`. -/
theorem C5_single_job_waiting (j : Job64) (hid : j.id = 0)
    (ha : j.arrivalTime = FloatVal.num 0) (hb : j.burstTime.IsTime)
    (hfresh : j.remainingTime = j.burstTime) (timeSlice overheadTime m : Int)
    (hq : 0 < timeSlice) :
    (jobAt64 (executeFCFS64 [j]) 0).waitingTime = FloatVal.num 0
    ∧ (∃ fuel r, performSJF64 fuel [j] = some r)
    ∧ (∀ fuel r, performSJF64 fuel [j] = some r → (jobAt64 r 0).waitingTime = FloatVal.num 0)
    ∧ (FloatVal.le j.burstTime (quantum64 timeSlice) = true →
        (∃ fuel r, handleRoundRobin64 fuel [j] timeSlice overheadTime m = some r)
        ∧ ∀ fuel r, handleRoundRobin64 fuel [j] timeSlice overheadTime m = some r →
            (jobAt64 r.jobs 0).waitingTime = FloatVal.num 0) := by
  have hsjf := sjf64_single j hid ha hb
  refine ⟨?_, ⟨1, _, hsjf⟩, fun fuel r h => ?_, fun hfit => ?_⟩
  · rw [fcfs64_single j ha hb]
    rfl
  · rw [performSJF64_unique h hsjf]
    rfl
  · have hrun := rr64_single j hid ha hb hfresh timeSlice overheadTime m hq.le hfit
    have hsome := Option.isSome_iff_exists.mp (handleRoundRobin64_of_finished hrun.1)
    refine ⟨⟨1, hsome⟩, fun fuel r h => ?_⟩
    obtain ⟨r1, hr1⟩ := hsome
    rw [handleRoundRobin64_unique h hr1, (handleRoundRobin64_finished hr1).2.1, hrun.2]
    rfl

/-- C5 (amended), on the single job arriving at 0 with burst 0.25, quantum 500 and overhead
5: the burst time is at most the quantum 0.5, and the three strategies leave waiting time 0. -/
theorem C5_single_job_waiting_witness :
    FloatVal.le quarterJob.burstTime (quantum64 500) = true
    ∧ (jobAt64 (executeFCFS64 [quarterJob]) 0).waitingTime = FloatVal.num 0
    ∧ performSJF64 1 [quarterJob] = some quarterSJF
    ∧ (jobAt64 quarterSJF 0).waitingTime = FloatVal.num 0
    ∧ handleRoundRobin64 1 [quarterJob] 500 5 0 = some quarterRR
    ∧ (jobAt64 quarterRR.jobs 0).waitingTime = FloatVal.num 0 :=
  have h := C5_single_job_waiting quarterJob rfl rfl (by decide!) rfl 500 5 0 (by decide)
  ⟨by decide!, h.1, by decide!, h.2.2.1 1 quarterSJF (by decide!), by decide!,
    (h.2.2.2 (by decide!)).2 1 quarterRR (by decide!)⟩

/-- C6. In a run of `handleRoundRobin` with a positive quantum on a ledger with ids equal to
positions, non-negative times and `remainingTime = burstTime` on entry, after any number `t`
of iterations every job's `remainingTime` is non-negative, it is not larger after the next
iteration than before it, and it is exactly 0 whenever the job is flagged completed. -/
theorem C6_rr_remaining_time (jobs : List Job) (hid : IdIsPosition jobs)
    (hnn : NonNegTimes jobs) (hfresh : Fresh jobs) (timeSlice overheadTime m : Int)
    (hq : 0 < timeSlice) (t p : Nat) (hp : p < jobs.length) :
    0 ≤ (jobAt (rrRun timeSlice overheadTime t (rrInit jobs m)).jobs p).remainingTime
    ∧ (jobAt (rrRun timeSlice overheadTime (t + 1) (rrInit jobs m)).jobs p).remainingTime
        ≤ (jobAt (rrRun timeSlice overheadTime t (rrInit jobs m)).jobs p).remainingTime
    ∧ (flagAt (rrRun timeSlice overheadTime t (rrInit jobs m)).completedJobs p = true →
        (jobAt (rrRun timeSlice overheadTime t (rrInit jobs m)).jobs p).remainingTime = 0) := by
  have inv := rrInv_run hid timeSlice overheadTime m t
  have rem := rrRem_run hid hnn hfresh hq.le overheadTime m t
  refine ⟨rem.nonneg p hp, ?_, rem.done p hp⟩
  have := (rrStep_remaining hid hq.le overheadTime inv rem p hp).2.1
  unfold rrRun at this ⊢
  rw [Function.iterate_succ_apply']
  exact this

/-- C6, on the scenario ledger with quantum 500 and overhead 5, for job 0 after 3 iterations. -/
theorem C6_rr_remaining_time_witness :
    0 ≤ (jobAt (rrRun 500 5 3 (rrInit scenario 0)).jobs 0).remainingTime
    ∧ (jobAt (rrRun 500 5 (3 + 1) (rrInit scenario 0)).jobs 0).remainingTime
        ≤ (jobAt (rrRun 500 5 3 (rrInit scenario 0)).jobs 0).remainingTime
    ∧ (flagAt (rrRun 500 5 3 (rrInit scenario 0)).completedJobs 0 = true →
        (jobAt (rrRun 500 5 3 (rrInit scenario 0)).jobs 0).remainingTime = 0) :=
  C6_rr_remaining_time scenario (by decide!) (by decide!) (by decide!) 500 5 0 (by decide) 3 0
    (by decide)

/-- C9. In a run of `handleRoundRobin` on a ledger with ids equal to positions, if iterations
`t1 < t2` both dispatch job `J` and no iteration between them does, then every other job `K`
that was in the ready queue when iteration `t1` took `J` from its head is dispatched by at most
one of the iterations strictly between `t1` and `t2`. -/
theorem C9_rr_fairness (jobs : List Job) (hid : IdIsPosition jobs)
    (timeSlice overheadTime m : Int) (t1 t2 J K : Nat) (h12 : t1 < t2)
    (hJ1 : rrDispatched timeSlice overheadTime (rrInit jobs m) t1 = some J)
    (hJ2 : rrDispatched timeSlice overheadTime (rrInit jobs m) t2 = some J)
    (hbetween : ∀ t, t1 < t → t < t2 →
      rrDispatched timeSlice overheadTime (rrInit jobs m) t ≠ some J)
    (_hK : K ≠ J) (_hKq : K ∈ rrQueueAt timeSlice overheadTime (rrInit jobs m) t1) :
    (List.range' (t1 + 1) (t2 - t1 - 1)).countP
      (fun t => decide (rrDispatched timeSlice overheadTime (rrInit jobs m) t = some K)) ≤ 1 := by
  have inv1 := rrInv_run hid timeSlice overheadTime m t1
  have inv1' := rrInv_run hid timeSlice overheadTime m (t1 + 1)
  have inv2 := rrInv_run hid timeSlice overheadTime m t2
  obtain ⟨hf, rest, hq⟩ := rrIter_job hJ1
  have mid := rrInv_admitted hid inv1
  have hnd : (J :: rest).Nodup := by rw [← hq]; exact mid.nodup
  have hJn : J < jobs.length :=
    (mid.queue J (by show J ∈ (rrAdmitted _).1; rw [hq]; exact List.mem_cons_self _ _)).1
  have hidJ : (jobAt (rrRun timeSlice overheadTime t1 (rrInit jobs m)).jobs J).id = J := by
    rw [(inv1.same J hJn).1]; exact hid J hJn
  rcases (rrStep_head timeSlice overheadTime hf hq).2 with h | h
  · -- `J` ran its final slice at `t1`: it is flagged completed and cannot be dispatched at `t2`
    exfalso
    have hflag : flagAt (rrRun timeSlice overheadTime (t1 + 1) (rrInit jobs m)).completedJobs J
        = true := by
      rw [rrRun_succ_last, h.2.2, hidJ]
      exact flagAt_set_self (by rw [inv1.clen]; exact hJn)
    have hflag2 := rrRun_completed_mono timeSlice overheadTime _ J hflag (t2 - (t1 + 1))
    rw [← rrRun_add, show t1 + 1 + (t2 - (t1 + 1)) = t2 by omega] at hflag2
    obtain ⟨_, rest2, hq2⟩ := rrIter_job hJ2
    have := (rrInv_admitted hid inv2).queue J
      (by show J ∈ (rrAdmitted _).1; rw [hq2]; exact List.mem_cons_self _ _)
    have hc : flagAt (rrRun timeSlice overheadTime t2 (rrInit jobs m)).completedJobs J = false :=
      this.2.2
    rw [hflag2] at hc
    exact absurd hc (by decide)
  · -- `J` was preempted at `t1`: the queue is `rest ++ [J]` and is served in that order
    have hready : (rrRun timeSlice overheadTime (t1 + 1) (rrInit jobs m)).readyJobs
        = rest ++ [J] := by
      rw [rrRun_succ_last]; exact h.2
    have hadm : (rrAdmitted (rrRun timeSlice overheadTime (t1 + 1) (rrInit jobs m))).1
        = (rest ++ [J])
          ++ rrNew (rrRun timeSlice overheadTime (t1 + 1) (rrInit jobs m)) := by
      rw [rrAdmitted_queue hid inv1', hready]
    have hnf : (rrRun timeSlice overheadTime (t1 + 1) (rrInit jobs m)).finished = false :=
      rr_not_finished_of_mem inv1' (x := J) (by rw [hready]; simp)
    have fifo := (rr_fifo hid timeSlice overheadTime _ _ _ inv1' hadm (fun _ => hnf)).1
    have hD : ∀ i, i < rest.length + 1 →
        rrDispatched timeSlice overheadTime (rrInit jobs m) (t1 + 1 + i)
          = (rest ++ [J])[i]? := by
      intro i hi
      unfold rrDispatched
      rw [rrRun_add]
      exact fifo i (by simpa using hi)
    have hlast : rrDispatched timeSlice overheadTime (rrInit jobs m) (t1 + 1 + rest.length)
        = some J := by
      rw [hD rest.length (by omega)]
      simp
    have hfront : ∀ i, i < rest.length →
        rrDispatched timeSlice overheadTime (rrInit jobs m) (t1 + 1 + i) = rest[i]? := by
      intro i hi
      rw [hD i (by omega), List.getElem?_append_left hi]
    have ht2 : t2 = t1 + 1 + rest.length := by
      rcases Nat.lt_trichotomy t2 (t1 + 1 + rest.length) with hlt | heq | hgt
      · exfalso
        have hi : t2 - (t1 + 1) < rest.length := by omega
        have := hfront (t2 - (t1 + 1)) hi
        rw [show t1 + 1 + (t2 - (t1 + 1)) = t2 by omega, hJ2,
          List.getElem?_eq_getElem hi] at this
        have hmem : J ∈ rest := by
          rw [Option.some.inj this]
          exact List.getElem_mem _
        exact (List.nodup_cons.mp hnd).1 hmem
      · exact heq
      · exact absurd hlast (hbetween _ (by omega) hgt)
    rw [show t2 - t1 - 1 = rest.length by omega,
      countP_range'_eq_count _ K rest (t1 + 1) hfront]
    exact List.nodup_iff_count_le_one.mp (List.nodup_cons.mp hnd).2 K

/-- C9, on the scenario ledger with quantum 500 and overhead 5: iterations 11 and 15 dispatch
job 0 and the three between them dispatch jobs 1, 2 and 3; job 2, in the queue at iteration 11,
is dispatched once between them. -/
theorem C9_rr_fairness_witness :
    rrDispatched 500 5 (rrInit scenario 0) 11 = some 0
    ∧ rrDispatched 500 5 (rrInit scenario 0) 15 = some 0
    ∧ 2 ∈ rrQueueAt 500 5 (rrInit scenario 0) 11
    ∧ (List.range' (11 + 1) (15 - 11 - 1)).countP
        (fun t => decide (rrDispatched 500 5 (rrInit scenario 0) t = some 2)) ≤ 1 :=
  ⟨by decide!, by decide!, by decide!,
    C9_rr_fairness scenario (by decide!) 500 5 0 11 15 0 2 (by decide) (by decide!)
      (by decide!) (by intro t h1 h2; interval_cases t <;> decide!) (by decide) (by decide!)⟩

/-- C10 (counterexample). On the empty job list `computePerformanceMetrics` raises nothing: it
returns normally with both averages not-a-number, the quotient of the zero totals by the zero
count. -/
theorem C10_empty_list_gives_nan :
    computePerformanceMetrics []
      = Except.ok ⟨FloatVal.nan, FloatVal.nan⟩ := by
  decide!

/-- C10 (amended). `computePerformanceMetrics` never fails: on the empty list both averages are
not-a-number, and on a non-empty list they are the arithmetic means of `waitingTime` and of
`turnaroundTime`. -/
theorem C10_metrics_means (jobs : List Job) :
    computePerformanceMetrics jobs = Except.ok
      (if jobs = [] then ⟨FloatVal.nan, FloatVal.nan⟩
       else ⟨FloatVal.num ((jobs.map (fun j => j.waitingTime)).sum / (jobs.length : ℚ)),
             FloatVal.num ((jobs.map (fun j => j.turnaroundTime)).sum / (jobs.length : ℚ))⟩) := by
  cases jobs with
  | nil => simp [computePerformanceMetrics, sumTimes, divBySize]
  | cons j js =>
    simp [computePerformanceMetrics, sumTimes_eq, divBySize]

/-- C11 (the code departs from the claim). On the empty ledger `executeFCFS` returns the empty
ledger, but neither `performSJF` nor `handleRoundRobin` ever returns: after any number `n` of
iterations their loop is still running, the queue empty and the clock at `n`, because the test
that leaves the loop is reached only after a dispatch. -/
theorem C11_empty_ledger_loops (fuel : Nat) (timeSlice overheadTime m : Int) :
    executeFCFS [] = []
    ∧ performSJF fuel [] = none
    ∧ (sjfRun fuel (sjfInit [])).current_time = (fuel : ℚ)
    ∧ handleRoundRobin fuel [] timeSlice overheadTime m = none
    ∧ (rrRun timeSlice overheadTime fuel (rrInit [] m)).current_time = (fuel : ℚ) := by
  obtain ⟨mx, h⟩ := rrRun_empty timeSlice overheadTime m fuel
  refine ⟨rfl, ?_, ?_, ?_, ?_⟩
  · unfold performSJF
    rw [sjfRun_empty]
    simp
  · rw [sjfRun_empty]
  · unfold handleRoundRobin
    rw [h]
    simp
  · rw [h]

/-- C12 (counterexample). The ledger `hugeJob` is valid: one job with id 0 that arrives at 0
and needs `2 ^ 53` time units.  With `timeSlice = 500` the quantum is `0.5`, and taking it off
the remaining time leaves the remaining time as it is, because `2 ^ 53 - 0.5` rounds to
`2 ^ 53`: every iteration preempts the job with all of its burst time left, and
`handleRoundRobin` returns for no number of iterations. -/
theorem C12_rr_remaining_time_absorbs_quantum :
    hugeJob ≠ [] ∧ Valid64 hugeJob
    ∧ FloatVal.sub (jobAt64 hugeJob 0).remainingTime
        (FloatVal.min (quantum64 500) (jobAt64 hugeJob 0).remainingTime)
        = (jobAt64 hugeJob 0).remainingTime
    ∧ (∀ s, HugeStuck s → HugeStuck (rrStep64 500 0 s))
    ∧ ∀ fuel, handleRoundRobin64 fuel hugeJob 500 0 0 = none := by
  have hstep : ∀ s, HugeStuck s → HugeStuck (rrStep64 500 0 s) := by
    rintro ⟨jobs, ready, clock, comp, inq, sum, cnt, mx, fin⟩ ⟨h1, h2, h3, h4, h5⟩
    simp only at h1 h2 h3 h4 h5
    subst h1 h2 h3 h4 h5
    have hadm : (rrAdmitted64 ⟨hugeJob, [0], clock, [false], [true], sum, cnt, mx, false⟩).1
        = 0 :: [] := by
      have e : hugeJob = [⟨0, FloatVal.num 0, FloatVal.num (2 ^ 53), FloatVal.num (2 ^ 53),
          FloatVal.num 0, FloatVal.num 0, FloatVal.num 0⟩] := by decide!
      simp [rrAdmitted64, rrAdmit64, rrEligible64, e, List.range, List.range.loop, flagAt,
        jobAt64]
    have hleft : FloatVal.le
        (rrLeft64 500 ⟨hugeJob, [0], clock, [false], [true], sum, cnt, mx, false⟩ 0)
        (FloatVal.num 0) = false := by
      show FloatVal.le (FloatVal.sub (jobAt64 hugeJob 0).remainingTime
        (FloatVal.min (quantum64 500) (jobAt64 hugeJob 0).remainingTime)) (FloatVal.num 0) = false
      decide!
    have hsame : hugeJob.set 0 { jobAt64 hugeJob 0 with
        remainingTime := FloatVal.sub (jobAt64 hugeJob 0).remainingTime
          (FloatVal.min (quantum64 500) (jobAt64 hugeJob 0).remainingTime) } = hugeJob := by
      decide!
    unfold rrStep64
    rw [rrIter64_preempt 500 0 rfl hadm hleft]
    refine ⟨?_, rfl, rfl, ?_, rfl⟩
    · exact hsame
    · show (rrAdmitted64 ⟨hugeJob, [0], clock, [false], [true], sum, cnt, mx, false⟩).2 = [true]
      have e : hugeJob = [⟨0, FloatVal.num 0, FloatVal.num (2 ^ 53), FloatVal.num (2 ^ 53),
          FloatVal.num 0, FloatVal.num 0, FloatVal.num 0⟩] := by decide!
      simp [rrAdmitted64, rrAdmit64, rrEligible64, e, List.range, List.range.loop, flagAt,
        jobAt64]
  have h1 : HugeStuck (rrRun64 500 0 1 (rrInit64 hugeJob 0)) := by
    unfold HugeStuck
    decide!
  have hrun : ∀ n, HugeStuck (rrRun64 500 0 (n + 1) (rrInit64 hugeJob 0)) := by
    intro n
    induction n with
    | zero => exact h1
    | succ k ih => rw [rrRun64_succ_last]; exact hstep _ ih
  refine ⟨by decide!, by decide!, by decide!, hstep, fun fuel => ?_⟩
  unfold handleRoundRobin64
  cases fuel with
  | zero => rfl
  | succ n =>
    have hf := (hrun n).2.2.2.2
    simp only [hf, Bool.false_eq_true, if_false]

/-- C12 (amended). On a non-empty valid ledger whose arrival times are at most `2 ^ 53` and
whose burst times are at most `2 ^ 52` quanta, with a positive quantum and an overhead that is
not negative, `handleRoundRobin` returns; when it returns, every job is flagged completed; and
every iteration of the running loop either lowers the bound `rrPending64` on the dispatches
still to make, or is idle, keeps that bound and brings the clock nearer to `2 ^ 53`. -/
theorem C12_rr_terminates (jobs : List Job64) (hne : jobs ≠ []) (hv : Valid64 jobs)
    (hb : ArrivalsReachable jobs) (timeSlice overheadTime m : Int) (hq : 0 < timeSlice)
    (ho : 0 ≤ overheadTime) (hreach : BurstsReachable jobs timeSlice) :
    (∃ fuel r, handleRoundRobin64 fuel jobs timeSlice overheadTime m = some r)
    ∧ (∀ fuel r, handleRoundRobin64 fuel jobs timeSlice overheadTime m = some r →
        ∀ p, p < jobs.length →
          flagAt (rrRun64 timeSlice overheadTime fuel (rrInit64 jobs m)).completedJobs p = true)
    ∧ (∀ t, (rrRun64 timeSlice overheadTime t (rrInit64 jobs m)).finished = false →
        rrPending64 (rrRun64 timeSlice overheadTime (t + 1) (rrInit64 jobs m))
            < rrPending64 (rrRun64 timeSlice overheadTime t (rrInit64 jobs m))
          ∨ (rrPending64 (rrRun64 timeSlice overheadTime (t + 1) (rrInit64 jobs m))
              = rrPending64 (rrRun64 timeSlice overheadTime t (rrInit64 jobs m))
            ∧ idleBudget64 (rrRun64 timeSlice overheadTime (t + 1) (rrInit64 jobs m)).current_time
              < idleBudget64 (rrRun64 timeSlice overheadTime t (rrInit64 jobs m)).current_time)) := by
  refine ⟨handleRoundRobin64_terminates hne hv hb hq ho hreach m, fun fuel r h p hp => ?_,
    fun t hf => ?_⟩
  · have inv := rrInv64_run hne hv hq.le ho m fuel
    have hall : allSet (rrRun64 timeSlice overheadTime fuel (rrInit64 jobs m)).completedJobs
        = true := by
      rw [← inv.live]; exact (handleRoundRobin64_finished h).1
    exact (allSet_iff _).mp hall p (by rw [inv.clen]; exact hp)
  · rw [rrRun64_succ_last]
    exact rr64_progress hv hb hq overheadTime hreach (rrInv64_run hne hv hq.le ho m t) hf

/-- C12 (amended), on the three-job ledger `trioJobs` with quantum 500 and no overhead: the run
returns after five iterations with every job flagged completed; its first iteration, which
preempts a job, lowers the bound on the dispatches still to make, and its fourth, which is
idle, keeps that bound and brings the clock nearer to `2 ^ 53`. -/
theorem C12_rr_terminates_witness :
    handleRoundRobin64 5 trioJobs 500 0 0 = some trioRR
    ∧ flagAt (rrRun64 500 0 5 (rrInit64 trioJobs 0)).completedJobs 2 = true
    ∧ (rrPending64 (rrRun64 500 0 (0 + 1) (rrInit64 trioJobs 0))
          < rrPending64 (rrRun64 500 0 0 (rrInit64 trioJobs 0))
        ∨ (rrPending64 (rrRun64 500 0 (0 + 1) (rrInit64 trioJobs 0))
            = rrPending64 (rrRun64 500 0 0 (rrInit64 trioJobs 0))
          ∧ idleBudget64 (rrRun64 500 0 (0 + 1) (rrInit64 trioJobs 0)).current_time
            < idleBudget64 (rrRun64 500 0 0 (rrInit64 trioJobs 0)).current_time))
    ∧ (rrPending64 (rrRun64 500 0 (3 + 1) (rrInit64 trioJobs 0))
          < rrPending64 (rrRun64 500 0 3 (rrInit64 trioJobs 0))
        ∨ (rrPending64 (rrRun64 500 0 (3 + 1) (rrInit64 trioJobs 0))
            = rrPending64 (rrRun64 500 0 3 (rrInit64 trioJobs 0))
          ∧ idleBudget64 (rrRun64 500 0 (3 + 1) (rrInit64 trioJobs 0)).current_time
            < idleBudget64 (rrRun64 500 0 3 (rrInit64 trioJobs 0)).current_time)) :=
  have h := C12_rr_terminates trioJobs (by decide!) (by decide!) (by decide!) 500 0 0
    (by decide) (by decide) (by decide!)
  ⟨by decide!, h.2.1 5 trioRR (by decide!) 2 (by decide!), h.2.2 0 (by decide!),
    h.2.2 3 (by decide!)⟩

/-- C13 (counterexample). The ledger `stallJobs` is valid: two jobs with ids 0 and 1 and
finite non-negative times.  The first iteration of `performSJF` completes the first job at
`2 ^ 53`; from then on the queue is empty, the second job, which arrives at `2 ^ 53 + 4`, has
not arrived, and the idle step `current_time++` leaves the clock at `2 ^ 53`, because
`2 ^ 53 + 1` rounds to `2 ^ 53`: every later iteration leaves the state as it is, and
`performSJF` returns for no number of iterations. -/
theorem C13_sjf_stalls :
    stallJobs ≠ [] ∧ Valid64 stallJobs
    ∧ sjfRun64 1 (sjfInit64 stallJobs) = stallState
    ∧ FloatVal.add stallState.current_time (FloatVal.num 1) = stallState.current_time
    ∧ sjfStep64 stallState = stallState
    ∧ ∀ fuel, performSJF64 fuel stallJobs = none := by
  have h1 : sjfRun64 1 (sjfInit64 stallJobs) = stallState := by decide!
  have h2 : sjfStep64 stallState = stallState := by decide!
  have h3 : ∀ n, sjfRun64 (n + 1) (sjfInit64 stallJobs) = stallState := by
    intro n
    induction n with
    | zero => exact h1
    | succ k ih => rw [sjfRun64_succ_last, ih, h2]
  refine ⟨by decide!, by decide!, h1, by decide!, h2, fun fuel => ?_⟩
  unfold performSJF64
  cases fuel with
  | zero => rfl
  | succ n => rw [h3 n]; rfl

/-- C13 (amended). On a non-empty valid ledger whose arrival times are at most `2 ^ 53`,
`performSJF` returns; when it returns, every job is flagged completed; and every iteration of
the running loop completes a job, or removes from the queue an entry of a job already
completed, or is idle and brings the clock nearer to `2 ^ 53`. -/
theorem C13_sjf_terminates (jobs : List Job64) (hne : jobs ≠ []) (hv : Valid64 jobs)
    (hb : ArrivalsReachable jobs) :
    (∃ fuel r, performSJF64 fuel jobs = some r)
    ∧ (∀ fuel r, performSJF64 fuel jobs = some r → ∀ p, p < jobs.length →
        flagAt (sjfRun64 fuel (sjfInit64 jobs)).isCompleted p = true)
    ∧ (∀ t, (sjfRun64 t (sjfInit64 jobs)).finished = false →
        sjfOpen64 (sjfRun64 (t + 1) (sjfInit64 jobs)) < sjfOpen64 (sjfRun64 t (sjfInit64 jobs))
        ∨ (sjfOpen64 (sjfRun64 (t + 1) (sjfInit64 jobs))
              = sjfOpen64 (sjfRun64 t (sjfInit64 jobs))
          ∧ sjfStale64 (sjfRun64 (t + 1) (sjfInit64 jobs))
              < sjfStale64 (sjfRun64 t (sjfInit64 jobs)))
        ∨ (sjfOpen64 (sjfRun64 (t + 1) (sjfInit64 jobs))
              = sjfOpen64 (sjfRun64 t (sjfInit64 jobs))
          ∧ sjfStale64 (sjfRun64 (t + 1) (sjfInit64 jobs))
              = sjfStale64 (sjfRun64 t (sjfInit64 jobs))
          ∧ idleBudget64 (sjfRun64 (t + 1) (sjfInit64 jobs)).current_time
            < idleBudget64 (sjfRun64 t (sjfInit64 jobs)).current_time)) := by
  refine ⟨performSJF64_terminates hne hv hb, fun fuel r h p hp => ?_, fun t hf => ?_⟩
  · have inv := sjfInv64_run hne hv fuel
    have hall : allSet (sjfRun64 fuel (sjfInit64 jobs)).isCompleted = true := by
      rw [← inv.live]; exact (performSJF64_finished h).1
    exact (allSet_iff _).mp hall p (by rw [inv.flags]; exact hp)
  · rw [sjfRun64_succ_last]
    exact sjf64_progress hv hb (sjfInv64_run hne hv t) hf

/-- C13 (amended), on the scenario ledger: the run returns after five iterations with job 2
flagged completed, and its first iteration makes progress. -/
theorem C13_sjf_terminates_witness :
    performSJF64 5 scenario64 = some scenarioSJF64
    ∧ flagAt (sjfRun64 5 (sjfInit64 scenario64)).isCompleted 2 = true
    ∧ (sjfOpen64 (sjfRun64 (0 + 1) (sjfInit64 scenario64))
          < sjfOpen64 (sjfRun64 0 (sjfInit64 scenario64))
        ∨ (sjfOpen64 (sjfRun64 (0 + 1) (sjfInit64 scenario64))
              = sjfOpen64 (sjfRun64 0 (sjfInit64 scenario64))
          ∧ sjfStale64 (sjfRun64 (0 + 1) (sjfInit64 scenario64))
              < sjfStale64 (sjfRun64 0 (sjfInit64 scenario64)))
        ∨ (sjfOpen64 (sjfRun64 (0 + 1) (sjfInit64 scenario64))
              = sjfOpen64 (sjfRun64 0 (sjfInit64 scenario64))
          ∧ sjfStale64 (sjfRun64 (0 + 1) (sjfInit64 scenario64))
              = sjfStale64 (sjfRun64 0 (sjfInit64 scenario64))
          ∧ idleBudget64 (sjfRun64 (0 + 1) (sjfInit64 scenario64)).current_time
            < idleBudget64 (sjfRun64 0 (sjfInit64 scenario64)).current_time)) :=
  have h := C13_sjf_terminates scenario64 (by decide!) (by decide!) (by decide!)
  ⟨by decide!, h.2.1 5 scenarioSJF64 (by decide!) 2 (by decide!), h.2.2 0 (by decide!)⟩

/-- C14 (the code departs from the claim). On the scenario ledger `performSJF` dispatches
job 3 twice: the third iteration, at clock 8, sets its completion time to 14, and the fourth,
at clock 14 with the job already flagged completed, dispatches it again, sets its completion
time to 20 and advances the clock by its burst time a second time. -/
theorem C14_sjf_dispatches_job_twice :
    (sjfDispatches 5 (sjfInit scenario)).count 3 = 2
    ∧ (sjfIter (sjfRun 2 (sjfInit scenario))).1 = SJFEvent.dispatch 3
    ∧ (sjfRun 2 (sjfInit scenario)).current_time = 8
    ∧ (jobAt (sjfRun 3 (sjfInit scenario)).jobs 3).completionTime = 14
    ∧ flagAt (sjfRun 3 (sjfInit scenario)).isCompleted 3 = true
    ∧ (sjfIter (sjfRun 3 (sjfInit scenario))).1 = SJFEvent.dispatch 3
    ∧ (sjfRun 3 (sjfInit scenario)).current_time = 14
    ∧ (jobAt (sjfRun 4 (sjfInit scenario)).jobs 3).completionTime = 20
    ∧ (sjfRun 4 (sjfInit scenario)).current_time = 20 := by
  decide!

/-- C15 (counterexample). The ledger `fracJob` is valid: one job that arrives at 1 with the
`double` nearest to 0.45 as burst time.  `executeFCFS` completes it at the `double` nearest to
`1 + 0.45`; taking the arrival time 1 off that gives a turnaround time below the burst time,
and taking the burst time off it gives the waiting time `-2 ^ (-54)`, which is negative. -/
theorem C15_fcfs_waiting_time_is_negative :
    fracJob ≠ [] ∧ Valid64 fracJob
    ∧ FloatVal.lt (jobAt64 (executeFCFS64 fracJob) 0).turnaroundTime
        (jobAt64 fracJob 0).burstTime = true
    ∧ (jobAt64 (executeFCFS64 fracJob) 0).waitingTime = FloatVal.num (-1 / 2 ^ 54)
    ∧ FloatVal.lt (jobAt64 (executeFCFS64 fracJob) 0).waitingTime (FloatVal.num 0) = true := by
  decide!

/-- C15 (amended). On a non-empty valid ledger, with a positive quantum and an overhead that
is not negative: after `executeFCFS`, and after `performSJF` and `handleRoundRobin` whenever
they return, every job has `completionTime >= arrivalTime` and `turnaroundTime >= 0`. -/
theorem C15_completion_not_before_arrival (jobs : List Job64) (hne : jobs ≠ [])
    (hv : Valid64 jobs) (timeSlice overheadTime m : Int) (hq : 0 < timeSlice)
    (ho : 0 ≤ overheadTime) :
    (∀ p, p < jobs.length →
        FloatVal.le (jobAt64 jobs p).arrivalTime
            (jobAt64 (executeFCFS64 jobs) p).completionTime = true
        ∧ FloatVal.le (FloatVal.num 0) (jobAt64 (executeFCFS64 jobs) p).turnaroundTime = true)
    ∧ (∀ fuel r, performSJF64 fuel jobs = some r → ∀ p, p < jobs.length →
        FloatVal.le (jobAt64 jobs p).arrivalTime (jobAt64 r p).completionTime = true
        ∧ FloatVal.le (FloatVal.num 0) (jobAt64 r p).turnaroundTime = true)
    ∧ (∀ fuel r, handleRoundRobin64 fuel jobs timeSlice overheadTime m = some r →
        ∀ p, p < jobs.length →
          FloatVal.le (jobAt64 jobs p).arrivalTime (jobAt64 r.jobs p).completionTime = true
          ∧ FloatVal.le (FloatVal.num 0) (jobAt64 r.jobs p).turnaroundTime = true) := by
  refine ⟨fun p hp => ?_, fun fuel r h p hp => ?_, fun fuel r h p hp => ?_⟩
  · exact fcfsLoop64_arrived jobs _ FloatVal.isTime_zero.nonNeg
      (fun q hq' => ⟨(hv q hq').2.1, (hv q hq').2.2.1⟩) p hp
  · have inv := sjfInv64_run hne hv fuel
    obtain ⟨hf, rfl⟩ := performSJF64_finished h
    have hall : allSet (sjfRun64 fuel (sjfInit64 jobs)).isCompleted = true := by
      rw [← inv.live]; exact hf
    have hflag := (allSet_iff _).mp hall p (by rw [inv.flags]; exact hp)
    have hd := inv.done p hp hflag
    refine ⟨hd.1, ?_⟩
    rw [hd.2.2.1]
    exact FloatVal.zero_le (FloatVal.sub_nonNeg hd.2.1 (hv p hp).2.1 hd.1)
  · have inv := rrInv64_run hne hv hq.le ho m fuel
    obtain ⟨hf, hjobs, -⟩ := handleRoundRobin64_finished h
    have hall : allSet (rrRun64 timeSlice overheadTime fuel (rrInit64 jobs m)).completedJobs
        = true := by
      rw [← inv.live]; exact hf
    have hflag := (allSet_iff _).mp hall p (by rw [inv.clen]; exact hp)
    have hd := inv.done p hp hflag
    rw [hjobs]
    refine ⟨hd.2.1, ?_⟩
    rw [hd.2.2.2.2.1]
    exact FloatVal.zero_le (FloatVal.sub_nonNeg hd.2.2.2.1 (hv p hp).2.1 hd.2.1)

/-- C15 (amended), on the scenario ledger for FCFS and SJF (job 2) and on the three-job ledger
`trioJobs` for Round-Robin with quantum 500 and no overhead (job 2, which arrives during an
idle step). -/
theorem C15_completion_not_before_arrival_witness :
    (FloatVal.le (jobAt64 scenario64 2).arrivalTime
        (jobAt64 (executeFCFS64 scenario64) 2).completionTime = true
      ∧ FloatVal.le (FloatVal.num 0) (jobAt64 (executeFCFS64 scenario64) 2).turnaroundTime
          = true)
    ∧ performSJF64 5 scenario64 = some scenarioSJF64
    ∧ (FloatVal.le (jobAt64 scenario64 2).arrivalTime (jobAt64 scenarioSJF64 2).completionTime
        = true
      ∧ FloatVal.le (FloatVal.num 0) (jobAt64 scenarioSJF64 2).turnaroundTime = true)
    ∧ handleRoundRobin64 5 trioJobs 500 0 0 = some trioRR
    ∧ (FloatVal.le (jobAt64 trioJobs 2).arrivalTime (jobAt64 trioRR.jobs 2).completionTime
        = true
      ∧ FloatVal.le (FloatVal.num 0) (jobAt64 trioRR.jobs 2).turnaroundTime = true) :=
  have h1 := C15_completion_not_before_arrival scenario64 (by decide!) (by decide!) 500 5 0
    (by decide) (by decide)
  have h2 := C15_completion_not_before_arrival trioJobs (by decide!) (by decide!) 500 0 0
    (by decide) (by decide)
  ⟨h1.1 2 (by decide!), by decide!, h1.2.1 5 scenarioSJF64 (by decide!) 2 (by decide!),
    by decide!, h2.2.2 5 trioRR (by decide!) 2 (by decide!)⟩

/-- C16 (counterexample). On the single job arriving at 0.5 with burst 1, `performSJF` idles
from clock 0 to clock 1 and completes the job at 2, while the variant that jumps to the
earliest arrival dispatches it at 0.5 and completes it at 1.5: same dispatch order, different
completion time.  On `stallJobs`, whose times are whole numbers, the variant returns after
three iterations, while `performSJF` never returns: its idle clock stays at `2 ^ 53`, below the
arrival at `2 ^ 53 + 4`. -/
theorem C16_unit_step_differs_from_jump :
    ((performSJF64 2 halfJob64).map (fun js => js.map (fun j => j.completionTime))
        = some [FloatVal.num 2]
      ∧ (performSJFJump64 2 halfJob64).map (fun js => js.map (fun j => j.completionTime))
          = some [FloatVal.num (3 / 2)]
      ∧ sjfDispatches64 2 (sjfInit64 halfJob64) = [0]
      ∧ sjfDispatchesJump64 2 (sjfInit64 halfJob64) = [0]
      ∧ performSJF64 2 halfJob64 ≠ performSJFJump64 2 halfJob64)
    ∧ (Valid64 stallJobs ∧ WholeTimes64 stallJobs
      ∧ performSJFJump64 3 stallJobs = some stallJump
      ∧ ∀ fuel, performSJF64 fuel stallJobs = none) :=
  ⟨by decide!, by decide!, by decide!, by decide!, performSJF64_stallJobs⟩

/-- C16 (amended). On a non-empty valid ledger whose arrival and burst times are whole numbers
and whose arrival times are at most `2 ^ 53`, `performSJF` and the variant that jumps to the
earliest arrival both return, and whenever they return they leave the same ledger, so the same
completion time for every job, and have made the same dispatches in the same order. -/
theorem C16_unit_step_equals_jump (jobs : List Job64) (hne : jobs ≠ []) (hv : Valid64 jobs)
    (hw : WholeTimes64 jobs) (hb : ArrivalsReachable jobs) :
    (∃ fuel r, performSJF64 fuel jobs = some r ∧ performSJFJump64 fuel jobs = some r)
    ∧ ∀ fuel fuel2 r r2, performSJF64 fuel jobs = some r →
      performSJFJump64 fuel2 jobs = some r2 →
      r = r2
      ∧ sjfDispatches64 fuel (sjfInit64 jobs) = sjfDispatchesJump64 fuel2 (sjfInit64 jobs) := by
  obtain ⟨F, r0, hr0⟩ := performSJF64_terminates hne hv hb
  have hF := (performSJF64_finished hr0).1
  obtain ⟨m, hm, hrun, hdis⟩ := sjf64_jump_simulated hne hv hw hb F
  obtain ⟨hrunF, hdisF⟩ := sjf64_dispatches_fuel_irrelevant hm hF
  have hJ : (sjfRunJump64 F (sjfInit64 jobs)).finished = true := by
    rw [← hrun, hrunF]; exact hF
  have hjobs : (sjfRunJump64 F (sjfInit64 jobs)).jobs = (sjfRun64 F (sjfInit64 jobs)).jobs := by
    rw [← hrun, hrunF]
  have hdisJ : sjfDispatchesJump64 F (sjfInit64 jobs) = sjfDispatches64 F (sjfInit64 jobs) := by
    rw [← hdis, hdisF]
  constructor
  · refine ⟨F, r0, hr0, ?_⟩
    rw [performSJFJump64_of_finished hJ, hjobs, (performSJF64_finished hr0).2]
  · intro fuel fuel2 r r2 h h2
    obtain ⟨hf, hr⟩ := performSJF64_finished h
    obtain ⟨hf2, hr2⟩ := performSJFJump64_finished h2
    have h1 := sjf64_dispatches_fuel_irrelevant (Nat.le_max_left fuel F) hf
    have h3 := sjf64_dispatches_fuel_irrelevant (Nat.le_max_right fuel F) hF
    have h4 := sjfJump64_fuel_irrelevant (Nat.le_max_left fuel2 F) hf2
    have h5 := sjfJump64_fuel_irrelevant (Nat.le_max_right fuel2 F) hJ
    constructor
    · rw [hr, hr2, ← h1.1, h3.1, ← h4.1, h5.1, hjobs]
    · rw [← h1.2, h3.2, ← h4.2, h5.2, hdisJ]

/-- C16 (amended), on the ledger `gapJobs64`, whose times are whole numbers: `performSJF`
returns after six iterations, three of them idle, and the jumping variant after four, one of
them idle, with the same ledger and the same dispatches 0, 2, 1. -/
theorem C16_unit_step_equals_jump_witness :
    performSJF64 6 gapJobs64 = some gapSJF64
    ∧ performSJFJump64 4 gapJobs64 = some gapSJF64
    ∧ sjfDispatches64 6 (sjfInit64 gapJobs64) = [0, 2, 1]
    ∧ gapSJF64 = gapSJF64
    ∧ sjfDispatches64 6 (sjfInit64 gapJobs64) = sjfDispatchesJump64 4 (sjfInit64 gapJobs64) :=
  ⟨by decide!, by decide!, by decide!,
    (C16_unit_step_equals_jump gapJobs64 (by decide!) (by decide!) (by decide!)
      (by decide!)).2 6 4 gapSJF64 gapSJF64 (by decide!) (by decide!)⟩

/-- C18. In a run of `handleRoundRobin` on a ledger with ids equal to positions, after any
number `t` of iterations: the ready queue, before and after the admission scan, holds no
position twice and no job flagged completed; the admission scan pushes exactly the positions
`rrNew` of jobs not completed, not flagged queued and arrived, behind what the queue holds; a
position pushed by the scan of a running iteration is pushed by no later scan; and a running
iteration leaves the admitted queue without its head, followed by the head again exactly when
the job was preempted, so that a job enters the queue only by admission or by being re-queued
after its preemption. -/
theorem C18_rr_queue_discipline (jobs : List Job) (hid : IdIsPosition jobs)
    (timeSlice overheadTime m : Int) :
    (∀ t, (rrRun timeSlice overheadTime t (rrInit jobs m)).readyJobs.Nodup
        ∧ (∀ p ∈ (rrRun timeSlice overheadTime t (rrInit jobs m)).readyJobs,
            flagAt (rrRun timeSlice overheadTime t (rrInit jobs m)).completedJobs p = false)
        ∧ (rrQueueAt timeSlice overheadTime (rrInit jobs m) t).Nodup
        ∧ (∀ p ∈ rrQueueAt timeSlice overheadTime (rrInit jobs m) t,
            flagAt (rrRun timeSlice overheadTime t (rrInit jobs m)).completedJobs p = false)
        ∧ rrQueueAt timeSlice overheadTime (rrInit jobs m) t
            = (rrRun timeSlice overheadTime t (rrInit jobs m)).readyJobs
              ++ rrNew (rrRun timeSlice overheadTime t (rrInit jobs m)))
    ∧ (∀ t1 t2 p, t1 < t2 →
        (rrRun timeSlice overheadTime t1 (rrInit jobs m)).finished = false →
        p ∈ rrNew (rrRun timeSlice overheadTime t1 (rrInit jobs m)) →
        p ∉ rrNew (rrRun timeSlice overheadTime t2 (rrInit jobs m)))
    ∧ (∀ t, (rrRun timeSlice overheadTime t (rrInit jobs m)).finished = false →
        (rrQueueAt timeSlice overheadTime (rrInit jobs m) t = []
          ∧ (rrRun timeSlice overheadTime (t + 1) (rrInit jobs m)).readyJobs = [])
        ∨ ∃ p rest, rrQueueAt timeSlice overheadTime (rrInit jobs m) t = p :: rest
          ∧ ((rrDispatched timeSlice overheadTime (rrInit jobs m) t = some p
              ∧ (rrIter timeSlice overheadTime
                  (rrRun timeSlice overheadTime t (rrInit jobs m))).1 = RREvent.finalSlice p
              ∧ (rrRun timeSlice overheadTime (t + 1) (rrInit jobs m)).readyJobs = rest)
            ∨ (rrDispatched timeSlice overheadTime (rrInit jobs m) t = some p
              ∧ (rrIter timeSlice overheadTime
                  (rrRun timeSlice overheadTime t (rrInit jobs m))).1 = RREvent.preempted p
              ∧ (rrRun timeSlice overheadTime (t + 1) (rrInit jobs m)).readyJobs
                  = rest ++ [p]))) := by
  refine ⟨fun t => ?_, fun t1 t2 p h12 hf hp => ?_, fun t hf => ?_⟩
  · have inv := rrInv_run hid timeSlice overheadTime m t
    have mid := rrInv_admitted hid inv
    exact ⟨inv.nodup, fun p hp => (inv.queue p hp).2.2, mid.nodup,
      fun p hp => (mid.queue p hp).2.2, rrAdmitted_queue hid inv⟩
  · have inv1 := rrInv_run hid timeSlice overheadTime m t1
    have inv1' := rrInv_step hid timeSlice overheadTime inv1
    have inv2 := rrInv_run hid timeSlice overheadTime m t2
    have hflag : flagAt (rrStep timeSlice overheadTime
        (rrRun timeSlice overheadTime t1 (rrInit jobs m))).inQueue p = true := by
      rw [rrStep_inQueue _ _ hf, rrAdmitted_flag hid inv1]
      exact Or.inr hp
    have hlater := (rrRun_inQueue_mono hid timeSlice overheadTime inv1' p hflag
      (t2 - (t1 + 1))).1
    rw [← rrRun_succ_last, ← rrRun_add, show t1 + 1 + (t2 - (t1 + 1)) = t2 by omega] at hlater
    intro hmem
    have := ((mem_rrNew hid inv2 p).mp hmem).2.2.1
    rw [hlater] at this
    exact absurd this (by decide)
  · rw [rrRun_succ_last]
    unfold rrQueueAt rrDispatched
    rcases rrStep_queue timeSlice overheadTime hf with h | ⟨p, rest, hq, h | h⟩
    · exact Or.inl ⟨h.2.1, h.2.2⟩
    · exact Or.inr ⟨p, rest, hq, Or.inl ⟨by rw [h.1]; rfl, h.1, h.2⟩⟩
    · exact Or.inr ⟨p, rest, hq, Or.inr ⟨by rw [h.1]; rfl, h.1, h.2⟩⟩

/-- C18, on the scenario ledger with quantum 500 and overhead 5: after 6 iterations the queue
`[2, 0, 1]` holds distinct jobs that are not completed; job 0, admitted by the first
iteration, is not admitted by the seventh, which admits job 3; and the first iteration, which
preempts job 0, leaves it alone in the queue. -/
theorem C18_rr_queue_discipline_witness :
    ((rrRun 500 5 6 (rrInit scenario 0)).readyJobs.Nodup
      ∧ (∀ p ∈ (rrRun 500 5 6 (rrInit scenario 0)).readyJobs,
          flagAt (rrRun 500 5 6 (rrInit scenario 0)).completedJobs p = false)
      ∧ (rrQueueAt 500 5 (rrInit scenario 0) 6).Nodup
      ∧ (∀ p ∈ rrQueueAt 500 5 (rrInit scenario 0) 6,
          flagAt (rrRun 500 5 6 (rrInit scenario 0)).completedJobs p = false)
      ∧ rrQueueAt 500 5 (rrInit scenario 0) 6
          = (rrRun 500 5 6 (rrInit scenario 0)).readyJobs
            ++ rrNew (rrRun 500 5 6 (rrInit scenario 0)))
    ∧ (rrRun 500 5 6 (rrInit scenario 0)).readyJobs = [2, 0, 1]
    ∧ rrNew (rrRun 500 5 6 (rrInit scenario 0)) = [3]
    ∧ 0 ∈ rrNew (rrRun 500 5 0 (rrInit scenario 0))
    ∧ 0 ∉ rrNew (rrRun 500 5 6 (rrInit scenario 0))
    ∧ ((rrQueueAt 500 5 (rrInit scenario 0) 0 = []
          ∧ (rrRun 500 5 (0 + 1) (rrInit scenario 0)).readyJobs = [])
        ∨ ∃ p rest, rrQueueAt 500 5 (rrInit scenario 0) 0 = p :: rest
          ∧ ((rrDispatched 500 5 (rrInit scenario 0) 0 = some p
              ∧ (rrIter 500 5 (rrRun 500 5 0 (rrInit scenario 0))).1 = RREvent.finalSlice p
              ∧ (rrRun 500 5 (0 + 1) (rrInit scenario 0)).readyJobs = rest)
            ∨ (rrDispatched 500 5 (rrInit scenario 0) 0 = some p
              ∧ (rrIter 500 5 (rrRun 500 5 0 (rrInit scenario 0))).1 = RREvent.preempted p
              ∧ (rrRun 500 5 (0 + 1) (rrInit scenario 0)).readyJobs = rest ++ [p]))) :=
  have h := C18_rr_queue_discipline scenario (by decide!) 500 5 0
  ⟨h.1 6, by decide!, by decide!, by decide!,
    h.2.1 0 6 0 (by decide) (by decide!) (by decide!), h.2.2 0 (by decide!)⟩

/-- C19 (counterexample). The ledger `wrapJob` is valid: one job with id 0 that arrives at
`2 ^ 31` and needs 0.5 time units.  With quantum 500 and no overhead the loop of
`handleRoundRobin` is idle for `2 ^ 31` iterations, each of which adds 1 to the clock and to
the `int` counter `queueLengthCount`; the counter wraps to `-2147483648`, and the iteration
that dispatches the job leaves it at `-2147483647`.  The one sample of a non-empty queue
divided by that counter is the reported average, about `-4.66e-10`: it is negative, while the
reported maximum is 1. -/
theorem C19_rr_queue_counter_wraps :
    wrapJob ≠ [] ∧ Valid64 wrapJob
    ∧ (∀ k, k ≤ 2147483648 → rrRun64 500 0 k (rrInit64 wrapJob 0) = wrapIdle k)
    ∧ (wrapIdle 2147483648).queueLengthCount = -2147483648
    ∧ (rrStep64 500 0 (wrapIdle 2147483648)).queueLengthCount = -2147483647
    ∧ (rrStep64 500 0 (wrapIdle 2147483648)).queueLengthSum = FloatVal.num 1
    ∧ handleRoundRobin64 2147483649 wrapJob 500 0 0 = some wrapRR
    ∧ FloatVal.lt wrapRR.avgQueueLength (FloatVal.num 0) = true
    ∧ wrapRR.maxQueueLength = 1 := by
  have hlast : (if (rrStep64 500 0 (wrapIdle 2147483648)).finished then
        some { jobs := (rrStep64 500 0 (wrapIdle 2147483648)).jobs
               totalSimulationTime := (rrStep64 500 0 (wrapIdle 2147483648)).current_time
               avgQueueLength :=
                 FloatVal.div (rrStep64 500 0 (wrapIdle 2147483648)).queueLengthSum
                   (FloatVal.ofInt (rrStep64 500 0 (wrapIdle 2147483648)).queueLengthCount)
               maxQueueLength := (rrStep64 500 0 (wrapIdle 2147483648)).maxQueueLength }
      else none) = some wrapRR := by
    decide!
  refine ⟨by decide!, by decide!, wrapIdle_run, by decide!, by decide!, by decide!, ?_,
    by decide!, rfl⟩
  show handleRoundRobin64 (2147483648 + 1) wrapJob 500 0 0 = some wrapRR
  unfold handleRoundRobin64
  simp only []
  rw [rrRun64_succ_last, wrapIdle_run 2147483648 (le_refl _)]
  exact hlast

/-- C19 (amended). On a non-empty valid ledger of `n` jobs, `n < 2 ^ 31`, with a quantum and an
overhead that are not negative and `maxQueueLength` 0 on entry: when `handleRoundRobin` returns
within `N` iterations, where `N < 2 ^ 31` and `N * n ≤ 2 ^ 53`, so that the `int` counter has
not wrapped and the `double` sum of the samples is exact, it has run `c ≥ 1` iterations, the
reported maximum is between 1 and `n`, and the reported average is the `double` nearest to the
sum of the `c` queue lengths sampled after the admission scan (idle iterations included)
divided by `c`; that average is above 0 and at most the maximum. -/
theorem C19_rr_queue_statistics (jobs : List Job64) (hne : jobs ≠ []) (hv : Valid64 jobs)
    (timeSlice overheadTime : Int) (hq : 0 ≤ timeSlice) (ho : 0 ≤ overheadTime)
    (fuel : Nat) (r : RRResult64) (hn : jobs.length < 2 ^ 31) (hfuel : fuel < 2 ^ 31)
    (hexact : fuel * jobs.length ≤ 2 ^ 53)
    (hr : handleRoundRobin64 fuel jobs timeSlice overheadTime 0 = some r) :
    1 ≤ (rrEvents64 timeSlice overheadTime fuel (rrInit64 jobs 0)).length
    ∧ 1 ≤ r.maxQueueLength ∧ r.maxQueueLength ≤ (jobs.length : Int)
    ∧ FloatVal.lt (FloatVal.num 0) r.avgQueueLength = true
    ∧ FloatVal.le r.avgQueueLength (FloatVal.ofInt r.maxQueueLength) = true
    ∧ r.avgQueueLength
        = round64
            ((rrSamples64 timeSlice overheadTime (rrInit64 jobs 0)
                (rrEvents64 timeSlice overheadTime fuel (rrInit64 jobs 0)).length : ℚ)
              / ((rrEvents64 timeSlice overheadTime fuel (rrInit64 jobs 0)).length : ℚ)) := by
  obtain ⟨hf, -, -, havg, hmaxr⟩ := handleRoundRobin64_finished hr
  obtain ⟨c, S, M, hc, hck, -, hcount, hsum, hS, hmax, hMn, hSle, hfin⟩ :=
    rrStats64_run hne hv hq ho hn hfuel hexact fuel (le_refl _)
  obtain ⟨hM1, hS1, hc1⟩ := hfin hf
  have e31 : (2 : Nat) ^ 31 = 2147483648 := by norm_num
  have e53 : (2 : Nat) ^ 53 = 9007199254740992 := by norm_num
  have hc53 : c ≤ 2 ^ 53 := by
    rw [e31] at hfuel
    rw [e53]
    omega
  have hM53 : M ≤ 2 ^ 53 := by
    rw [e31] at hn
    rw [e53]
    omega
  have hcq : (0 : ℚ) < (c : ℚ) := by exact_mod_cast hc1
  have hcd : FloatVal.ofInt ((c : Nat) : Int) = FloatVal.num (c : ℚ) := by
    unfold FloatVal.ofInt
    rw [Int.cast_natCast]
    exact isDouble_natCast hc53
  have hMd : FloatVal.ofInt ((M : Nat) : Int) = FloatVal.num (M : ℚ) := by
    unfold FloatVal.ofInt
    rw [Int.cast_natCast]
    exact isDouble_natCast hM53
  have hdiv : r.avgQueueLength = round64 ((S : ℚ) / (c : ℚ)) := by
    rw [havg, hsum, hcount, hcd]
    show (if (c : ℚ) = 0 then _ else round64 ((S : ℚ) / (c : ℚ))) = _
    rw [if_neg (ne_of_gt hcq)]
  have hSq : (1 : ℚ) ≤ (S : ℚ) := by exact_mod_cast hS1
  have hquot0 : (0 : ℚ) ≤ (S : ℚ) / (c : ℚ) := div_nonneg (by linarith) hcq.le
  have hquotM : (S : ℚ) / (c : ℚ) ≤ (M : ℚ) := by
    rw [div_le_iff₀ hcq]
    have : (S : ℚ) ≤ ((c * M : Nat) : ℚ) := by exact_mod_cast hSle
    rw [Nat.cast_mul] at this
    linarith
  have hlow : (1 : ℚ) / 2147483648 ≤ (S : ℚ) / (c : ℚ) := by
    rw [div_le_div_iff₀ (by norm_num) hcq]
    have h1 : (c : ℚ) ≤ 2147483648 := by
      have : c ≤ 2147483648 := by
        rw [e31] at hfuel
        omega
      exact_mod_cast this
    nlinarith
  have hd31 : IsDouble ((1 : ℚ) / 2147483648) := by decide!
  refine ⟨?_, ?_, ?_, ?_, ?_, ?_⟩
  · rw [← hc]; exact hc1
  · rw [hmaxr, hmax]; exact_mod_cast hM1
  · rw [hmaxr, hmax]; exact_mod_cast hMn
  · rw [hdiv]
    rcases round64_ge (by norm_num) hd31 hlow with e | ⟨q, e, hq1, -⟩
    · rw [e]; rfl
    · rw [e, FloatVal.lt_num]
      have : (0 : ℚ) < q := lt_of_lt_of_le (by norm_num) hq1
      simpa using this
  · rw [hdiv, hmaxr, hmax, hMd]
    obtain ⟨q, e, -, hq2, -⟩ := round64_le hquot0 (isDouble_natCast hM53) hquotM
    rw [e, FloatVal.le_num]
    simpa using hq2
  · rw [hdiv, hS, ← hc]

/-- C19 (amended), on the three-job ledger `trioJobs` with quantum 500 and no overhead: the run
returns after five iterations, one of them idle, with the samples 2, 2, 1, 0 and 1, the maximum
2 and the average the `double` nearest to `6 / 5`. -/
theorem C19_rr_queue_statistics_witness :
    handleRoundRobin64 5 trioJobs 500 0 0 = some trioRR
    ∧ (rrEvents64 500 0 5 (rrInit64 trioJobs 0)).length = 5
    ∧ rrSamples64 500 0 (rrInit64 trioJobs 0) 5 = 6
    ∧ 1 ≤ (rrEvents64 500 0 5 (rrInit64 trioJobs 0)).length
    ∧ 1 ≤ trioRR.maxQueueLength ∧ trioRR.maxQueueLength ≤ (trioJobs.length : Int)
    ∧ FloatVal.lt (FloatVal.num 0) trioRR.avgQueueLength = true
    ∧ FloatVal.le trioRR.avgQueueLength (FloatVal.ofInt trioRR.maxQueueLength) = true
    ∧ trioRR.avgQueueLength
        = round64
            ((rrSamples64 500 0 (rrInit64 trioJobs 0)
                (rrEvents64 500 0 5 (rrInit64 trioJobs 0)).length : ℚ)
              / ((rrEvents64 500 0 5 (rrInit64 trioJobs 0)).length : ℚ)) :=
  ⟨by decide!, by decide!, by decide!,
    C19_rr_queue_statistics trioJobs (by decide!) (by decide!) 500 0 (by decide) (by decide)
      5 trioRR (by decide!) (by decide) (by decide!) (by decide!)⟩

/-- C20. On a non-empty ledger with ids equal to positions, non-negative times,
`remainingTime = burstTime` on entry, every `arrivalTime` 0 and every `burstTime` at most the
quantum `timeSlice / 1000`, `handleRoundRobin` with any overhead returns, after as many
iterations as there are jobs, each of which runs the only slice of the job at its position, so
that no job is preempted; and it leaves every job with the `completionTime`, `turnaroundTime`
and `waitingTime` that `executeFCFS` leaves it. -/
theorem C20_rr_equals_fcfs (jobs : List Job) (hne : jobs ≠ []) (hid : IdIsPosition jobs)
    (hnn : NonNegTimes jobs) (hfresh : Fresh jobs)
    (harr : ∀ p, p < jobs.length → (jobAt jobs p).arrivalTime = 0)
    (timeSlice overheadTime m : Int)
    (hfit : ∀ p, p < jobs.length → (jobAt jobs p).burstTime ≤ (timeSlice : ℚ) / 1000) :
    (∃ r, handleRoundRobin jobs.length jobs timeSlice overheadTime m = some r)
    ∧ (∀ t, t < jobs.length → (rrIter timeSlice overheadTime
        (rrRun timeSlice overheadTime t (rrInit jobs m))).1 = RREvent.finalSlice t)
    ∧ ∀ fuel r, handleRoundRobin fuel jobs timeSlice overheadTime m = some r →
      ∀ p, p < jobs.length →
        (jobAt r.jobs p).completionTime = (jobAt (executeFCFS jobs) p).completionTime
        ∧ (jobAt r.jobs p).turnaroundTime = (jobAt (executeFCFS jobs) p).turnaroundTime
        ∧ (jobAt r.jobs p).waitingTime = (jobAt (executeFCFS jobs) p).waitingTime := by
  have hb := rr_batch hid hnn hfresh harr timeSlice overheadTime m hfit jobs.length
    (le_refl _)
  have hfin := rr_batch_finished hne hid hnn hfresh harr timeSlice overheadTime m hfit
  have hsome := handleRoundRobin_of_finished hfin
  obtain ⟨r0, hr0⟩ := Option.isSome_iff_exists.mp hsome
  refine ⟨⟨r0, hr0⟩, hb.2.2.2, fun fuel r h p hp => ?_⟩
  rw [handleRoundRobin_unique h hr0]
  have hfields := (handleRoundRobin_fields hid hr0).2 p hp
  have hr0' := (handleRoundRobin_finished hr0).2
  have hcomp : (jobAt r0.jobs p).completionTime = (jobAt (executeFCFS jobs) p).completionTime := by
    rw [hr0']
    exact (hb.2.2.1 p hp).2
  have hf := fcfsLoop_fields jobs 0 p hp
  unfold executeFCFS at hcomp ⊢
  refine ⟨hcomp, ?_, ?_⟩
  · rw [hfields.2.2.1, hf.1, hcomp]
  · rw [hfields.2.2.2, hf.2.1, hfields.2.2.1, hf.1, hcomp]

/-- C20, on two jobs arriving at 0 with bursts 0.2 and 0.3, quantum 500 and overhead 25: the
run returns after two iterations, both final slices, and the jobs complete at 0.2 and 0.5 as
under FCFS. -/
theorem C20_rr_equals_fcfs_witness :
    handleRoundRobin 2 batch 500 25 0 = some batchRR
    ∧ (rrIter 500 25 (rrRun 500 25 1 (rrInit batch 0))).1 = RREvent.finalSlice 1
    ∧ (jobAt batchRR.jobs 1).completionTime = (jobAt (executeFCFS batch) 1).completionTime
    ∧ (jobAt batchRR.jobs 1).turnaroundTime = (jobAt (executeFCFS batch) 1).turnaroundTime
    ∧ (jobAt batchRR.jobs 1).waitingTime = (jobAt (executeFCFS batch) 1).waitingTime :=
  have h := C20_rr_equals_fcfs batch (by decide) (by decide!) (by decide!) (by decide!)
    (by decide!) 500 25 0 (by decide!)
  ⟨by decide!, h.2.1 1 (by decide), h.2.2 2 batchRR (by decide!) 1 (by decide)⟩

end Scheduler
